import Mathlib

/-!
# A shallow embedding of the `finalized-log-index` crate

This file embeds the core of the repository's `finalized-log-index` crate
(ingest engine, codecs, key schema, in-memory stores, query planner/executor,
GC worker) as executable Lean definitions, and proves or refutes the frozen
claims about it.

Modelling conventions:
* Byte strings (`Vec<u8>`, `Bytes`, `[u8; N]`) are `List Nat` whose elements
  are bytes (`< 256`); encoders reduce numeric casts with `% 2^w` exactly
  where the Rust code performs an `as` cast or fixed-width write.
* Machine integers (`u32`, `u64`, `usize`) are `Nat`; arithmetic that cannot
  overflow for representable inputs is plain `Nat` arithmetic, and every
  truncating cast in the source is an explicit `% 2^w`.
* `RoaringBitmap` is a strictly sorted list of `Nat` (`< 2^32`); its
  serialization follows the portable roaring format actually produced by the
  `roaring` crate for array/bitmap containers (the engine never builds run
  containers because it never calls `run_optimize`).
* Fallible Rust functions returning `Result<T>` become `Except Err T`;
  stateful code is threaded through an explicit state-with-trace monad `M`:
  an error carries the state at the point of failure, so partial writes made
  before an early return stay visible, exactly as in the real stores.
* `async` is irrelevant here (single-threaded deterministic execution in the
  in-memory adapters); `now_unix_sec()` becomes an explicit `now` argument.
-/

set_option maxHeartbeats 1000000

namespace FLI

/-! ## Byte-level primitives -/
/-- Big-endian fixed-width byte encoding, `w` bytes of value `v % 256^w`
(mirrors `to_be_bytes` after a truncating cast to the field width). -/
def beBytes : Nat → Nat → List Nat
  | 0, _ => []
  | w + 1, v => beBytes w (v / 256) ++ [v % 256]

/-- Big-endian byte-list decoding (mirrors `from_be_bytes`). -/
def beVal (bs : List Nat) : Nat := bs.foldl (fun acc b => acc * 256 + b) 0

/-- Little-endian fixed-width byte encoding (the roaring wire format is
little-endian). -/
def leBytes : Nat → Nat → List Nat
  | 0, _ => []
  | w + 1, v => v % 256 :: leBytes w (v / 256)

/-- Little-endian byte-list decoding. -/
def leVal (bs : List Nat) : Nat := bs.foldr (fun b acc => acc * 256 + b) 0

/-! ## Domain types (`domain/types.rs`, `domain/filter.rs`, `error.rs`,
`config.rs`, `codec/manifest.rs`, `codec/chunk.rs`, `store/traits.rs`) -/
/-- `domain::types::Log`.  Fixed-width fields (`[u8; 20]`, `[u8; 32]`) are
byte lists; well-formedness of their lengths is tracked by `WFLog`. -/
structure Log where
  address : List Nat
  topics : List (List Nat)
  data : List Nat
  block_num : Nat
  tx_idx : Nat
  log_idx : Nat
  block_hash : List Nat
  deriving Repr, DecidableEq

/-- `domain::types::BlockMeta`. -/
structure BlockMeta where
  block_hash : List Nat
  parent_hash : List Nat
  first_log_id : Nat
  count : Nat
  deriving Repr, DecidableEq

/-- `domain::types::Block`. -/
structure Block where
  block_num : Nat
  block_hash : List Nat
  parent_hash : List Nat
  logs : List Log
  deriving Repr, DecidableEq

/-- `domain::types::MetaState` (`Default` = all zeroes). -/
structure MetaState where
  indexed_finalized_head : Nat := 0
  next_log_id : Nat := 0
  writer_epoch : Nat := 0
  deriving Repr, DecidableEq

/-- `domain::types::IngestOutcome`. -/
structure IngestOutcome where
  indexed_finalized_head : Nat
  written_logs : Nat
  deriving Repr, DecidableEq

/-- `domain::types::Topic0Mode`. -/
structure Topic0Mode where
  log_enabled : Bool
  enabled_from_block : Nat
  deriving Repr, DecidableEq

/-- `domain::types::Topic0Stats`. -/
structure Topic0Stats where
  window_len : Nat
  blocks_seen_in_window : Nat
  ring_cursor : Nat
  last_updated_block : Nat
  ring_bits : List Nat
  deriving Repr, DecidableEq

/-- `codec::manifest::ChunkRef`. -/
structure ChunkRef where
  chunk_seq : Nat
  min_local : Nat
  max_local : Nat
  count : Nat
  deriving Repr, DecidableEq

/-- `codec::manifest::Manifest`.

The struct in `codec/manifest.rs` declares `version`, `last_chunk_seq`,
`chunk_refs` and `approx_count`; the engine (`ingest/engine.rs`) and the
in-tree tests additionally read and write a `last_seal_unix_sec` field on the
same type, which is missing from the struct declaration in `src`.  The model
includes the field (default `0`) so the engine code can be embedded as
written; the manifest codec below faithfully mirrors `encode_manifest` /
`decode_manifest`, which do NOT serialize this field (so a decoded manifest
always carries `last_seal_unix_sec = 0`). -/
structure Manifest where
  version : Nat := 0
  last_chunk_seq : Nat := 0
  chunk_refs : List ChunkRef := []
  approx_count : Nat := 0
  last_seal_unix_sec : Nat := 0
  deriving Repr, DecidableEq

/-- `codec::chunk::ChunkBlob`; the bitmap is a strictly sorted `List Nat`. -/
structure ChunkBlob where
  min_local : Nat
  max_local : Nat
  count : Nat
  crc32 : Nat
  bitmap : List Nat
  deriving Repr, DecidableEq

/-- `codec::log::LogLocator`. -/
structure LogLocator where
  blob_key : List Nat
  byte_offset : Nat
  byte_len : Nat
  deriving Repr, DecidableEq

/-- `error::Error`.  String payloads are dropped (they never influence
control flow); `&'static str` payloads of `Decode`/`InvalidParams` are kept
as string literals. -/
inductive Err where
  | notFound
  | casConflict
  | leaseLost
  | invalidSequence (expected got : Nat)
  | invalidParent
  | finalityViolation
  | degraded
  | throttled
  | invalidParams (msg : String)
  | decode (msg : String)
  | backend
  | unsupported (msg : String)
  | queryTooBroad (actual max : Nat)
  deriving Repr, DecidableEq

/-- `store::traits::Record`. -/
structure Rec where
  value : List Nat
  version : Nat
  deriving Repr, DecidableEq

/-- `store::traits::PutCond`. -/
inductive PutCond where
  | any
  | ifAbsent
  | ifVersion (v : Nat)
  deriving Repr, DecidableEq

/-- `store::traits::DelCond`. -/
inductive DelCond where
  | any
  | ifVersion (v : Nat)
  deriving Repr, DecidableEq

/-- `store::traits::PutResult`. -/
structure PutResult where
  applied : Bool
  version : Option Nat
  deriving Repr, DecidableEq

/-- `store::traits::Page`. -/
structure Page where
  keys : List (List Nat)
  next_cursor : Option (List Nat)
  deriving Repr, DecidableEq

/-- `config::BroadQueryPolicy`. -/
inductive BroadQueryPolicy where
  | error
  | blockScan
  deriving Repr, DecidableEq

/-- `config::GuardrailAction`. -/
inductive GuardrailAction where
  | throttle
  | failClosed
  deriving Repr, DecidableEq

/-- `config::Config` (only the fields the embedded components read). -/
structure Config where
  target_entries_per_chunk : Nat
  target_chunk_bytes : Nat
  maintenance_seal_seconds : Nat
  tail_flush_seconds : Nat
  planner_max_or_terms : Nat
  planner_broad_query_policy : BroadQueryPolicy
  gc_guardrail_action : GuardrailAction
  max_orphan_chunk_bytes : Nat
  max_orphan_manifest_segments : Nat
  max_stale_tail_keys : Nat
  deriving Repr, DecidableEq

/-- `Config::default()`. -/
def Config.default : Config where
  target_entries_per_chunk := 1950
  target_chunk_bytes := 32 * 1024
  maintenance_seal_seconds := 600
  tail_flush_seconds := 5
  planner_max_or_terms := 128
  planner_broad_query_policy := .error
  gc_guardrail_action := .failClosed
  max_orphan_chunk_bytes := 32 * 1024 * 1024 * 1024
  max_orphan_manifest_segments := 500000
  max_stale_tail_keys := 1000000

/-- `domain::filter::Clause<T>`. -/
inductive Clause (α : Type) where
  | any
  | one (v : α)
  | or (vs : List α)
  deriving Repr, DecidableEq

/-- `Clause::or_terms`. -/
def Clause.orTerms : Clause α → Nat
  | .any => 0
  | .one _ => 1
  | .or vs => vs.length

/-- `domain::filter::QueryOptions`. -/
structure QueryOptions where
  max_results : Option Nat := none
  deriving Repr, DecidableEq

/-- `domain::filter::LogFilter`; addresses and topics are byte lists. -/
structure LogFilter where
  from_block : Option Nat
  to_block : Option Nat
  block_hash : Option (List Nat)
  address : Option (Clause (List Nat))
  topic0 : Option (Clause (List Nat))
  topic1 : Option (Clause (List Nat))
  topic2 : Option (Clause (List Nat))
  topic3 : Option (Clause (List Nat))
  deriving Repr, DecidableEq

/-- `LogFilter::max_or_terms`. -/
def LogFilter.maxOrTerms (f : LogFilter) : Nat :=
  let step (acc : Nat) : Option (Clause (List Nat)) → Nat
    | none => acc
    | some c => max acc c.orTerms
  step (step (step (step (step 0 f.address) f.topic0) f.topic1) f.topic2) f.topic3

/-- `query::planner::ClauseKind`. -/
inductive ClauseKind where
  | address
  | topic0Log
  | topic1
  | topic2
  | topic3
  deriving Repr, DecidableEq

/-- `query::planner::QueryPlan`. -/
structure QueryPlan where
  filter : LogFilter
  options : QueryOptions
  clipped_from_block : Nat
  clipped_to_block : Nat
  from_log_id : Nat
  to_log_id_inclusive : Nat
  clause_order : List ClauseKind
  force_block_scan : Bool
  deriving Repr, DecidableEq

/-- `gc::worker::GcStats`. -/
structure GcStats where
  orphan_chunk_bytes : Nat := 0
  orphan_manifest_segments : Nat := 0
  stale_tail_keys : Nat := 0
  deleted_orphan_chunks : Nat := 0
  deleted_stale_tails : Nat := 0
  exceeded_guardrail : Bool := false
  deriving Repr, DecidableEq

/-! ## Roaring bitmap model

The engine's `RoaringBitmap` is modelled as a strictly increasing list of
naturals below `2^32`.  `bmInsert` mirrors `RoaringBitmap::insert` (a set
insert); iteration order, `min`, `max` and `len` agree with the roaring
crate on well-formed values. -/
/-- Sorted-set insert (`RoaringBitmap::insert`). -/
def bmInsert (v : Nat) : List Nat → List Nat
  | [] => [v]
  | x :: xs =>
      if v < x then v :: x :: xs
      else if v = x then x :: xs
      else x :: bmInsert v xs

/-- Well-formed bitmap: strictly ascending, elements below `2^32`. -/
def WFBm (bm : List Nat) : Prop :=
  List.Chain' (· < ·) bm ∧ ∀ x ∈ bm, x < 2 ^ 32

instance : DecidablePred WFBm := fun bm =>
  decidable_of_iff (List.Chain' (· < ·) bm ∧ ∀ x ∈ bm, x < 2 ^ 32) Iff.rfl

/-! ### Portable roaring serialization

`RoaringBitmap::serialize_into` / `deserialize_from` of the `roaring` crate
(an external dependency of the engine), restricted to the container shapes
the engine can produce: array containers (cardinality ≤ 4096) and bitset
containers (cardinality > 4096); the engine never produces run containers
because it never calls `run_optimize`, so the no-run cookie `12346` is always
used. -/
/-- Split a (sorted) value list into `(high-16-bit key, low-16-bit values)`
containers: contiguous runs with the same high 16 bits become one container,
in order (on the engine's sorted bitmaps this is exactly the roaring
container partition). -/
def rsContainers (l : List Nat) : List (Nat × List Nat) :=
  l.foldr (fun v acc =>
    match acc with
    | [] => [(v / 65536, [v % 65536])]
    | (k, lows) :: rest =>
        if v / 65536 = k then (k, v % 65536 :: lows) :: rest
        else (v / 65536, [v % 65536]) :: (k, lows) :: rest) []

/-- Serialize one container body: a bitset of 8192 bytes when the
cardinality exceeds 4096 (byte `i` holds low-values `8i..8i+7`, LSB first),
else the little-endian `u16` array. -/
def rsContainerBody (lows : List Nat) : List Nat :=
  if lows.length > 4096 then
    (List.range 8192).map (fun i =>
      Nat.ofDigits 2 ((List.range 8).map (fun b => if (8 * i + b) ∈ lows then 1 else 0)))
  else
    lows.flatMap (leBytes 2)

/-- Byte offsets of successive container bodies, starting at `base`. -/
def rsOffsets (base : Nat) : List (List Nat) → List Nat
  | [] => []
  | b :: bs => base :: rsOffsets (base + b.length) bs

/-- `RoaringBitmap::serialize_into` (portable format, no-run cookie
`12346`): cookie, container count, `(key, cardinality-1)` descriptive
headers, offset headers, container bodies. -/
def rsSerialize (bm : List Nat) : List Nat :=
  let cs := rsContainers bm
  let bodies := cs.map (fun c => rsContainerBody c.2)
  leBytes 4 12346 ++ leBytes 4 cs.length ++
    cs.flatMap (fun c => leBytes 2 c.1 ++ leBytes 2 ((c.2.length - 1) % 65536)) ++
    (rsOffsets (8 + 8 * cs.length) bodies).flatMap (leBytes 4) ++
    bodies.flatten

/-- Parse the container bodies, given the `(key, cardinality)` pairs from
the descriptive header. -/
def rsParseContainers : List (Nat × Nat) → List Nat → Except Err (List (Nat × List Nat))
  | [], _ => .ok []
  | (k, card) :: rest, body =>
      if card > 4096 then
        if body.length < 8192 then .error .backend
        else
          match rsParseContainers rest (body.drop 8192) with
          | .error e => .error e
          | .ok cs =>
              .ok ((k, (List.range 65536).filter
                (fun i => body.getD (i / 8) 0 / 2 ^ (i % 8) % 2 = 1)) :: cs)
      else
        if body.length < 2 * card then .error .backend
        else
          match rsParseContainers rest (body.drop (2 * card)) with
          | .error e => .error e
          | .ok cs =>
              .ok ((k, (List.range card).map
                (fun i => leVal ((body.drop (2 * i)).take 2))) :: cs)

/-- `RoaringBitmap::deserialize_from`: failures surface as `Backend` (the
codec wrappers in `codec/manifest.rs` and `codec/chunk.rs` map bitmap
deserialization errors to `Error::Backend`, not `Error::Decode`).  Run
containers (cookie `12347`) are not modelled: the engine never writes them.
Trailing bytes after the last container are ignored, as the streaming reader
does. -/
def rsDeserialize (bs : List Nat) : Except Err (List Nat) :=
  if bs.length < 8 then .error .backend
  else if leVal (bs.take 4) ≠ 12346 then .error .backend
  else
    let n := leVal ((bs.drop 4).take 4)
    let hdr := bs.drop 8
    if hdr.length < 8 * n then .error .backend
    else
      let kcs := (List.range n).map (fun i =>
        (leVal ((hdr.drop (4 * i)).take 2), leVal ((hdr.drop (4 * i + 2)).take 2) + 1))
      match rsParseContainers kcs (hdr.drop (8 * n)) with
      | .error e => .error e
      | .ok cs => .ok (cs.flatMap (fun c => c.2.map (fun low => c.1 * 65536 + low)))

/-! ## Codecs (`codec/log.rs`, `codec/manifest.rs`, `codec/chunk.rs`) -/
/-- `codec::log::encode_meta_state`: fixed 24-byte big-endian triple. -/
def encodeMetaState (s : MetaState) : List Nat :=
  beBytes 8 s.indexed_finalized_head ++ beBytes 8 s.next_log_id ++ beBytes 8 s.writer_epoch

/-- `codec::log::decode_meta_state`. -/
def decodeMetaState (bs : List Nat) : Except Err MetaState :=
  if bs.length ≠ 24 then .error (.decode "invalid meta/state length")
  else .ok {
    indexed_finalized_head := beVal (bs.take 8)
    next_log_id := beVal ((bs.drop 8).take 8)
    writer_epoch := beVal ((bs.drop 16).take 8) }

/-- `codec::log::encode_block_meta`: 32+32+8+4 byte tuple. -/
def encodeBlockMeta (m : BlockMeta) : List Nat :=
  m.block_hash ++ m.parent_hash ++ beBytes 8 m.first_log_id ++ beBytes 4 m.count

/-- `codec::log::decode_block_meta`. -/
def decodeBlockMeta (bs : List Nat) : Except Err BlockMeta :=
  if bs.length ≠ 76 then .error (.decode "invalid block_meta length")
  else .ok {
    block_hash := bs.take 32
    parent_hash := (bs.drop 32).take 32
    first_log_id := beVal ((bs.drop 64).take 8)
    count := beVal ((bs.drop 72).take 4) }

/-- `codec::log::encode_u64`. -/
def encodeU64 (v : Nat) : List Nat := beBytes 8 v

/-- `codec::log::decode_u64`. -/
def decodeU64 (bs : List Nat) : Except Err Nat :=
  if bs.length ≠ 8 then .error (.decode "invalid u64 length") else .ok (beVal bs)

/-- `codec::log::encode_topic0_mode`: version byte `1`, enabled flag,
big-endian `u64`. -/
def encodeTopic0Mode (m : Topic0Mode) : List Nat :=
  1 :: (if m.log_enabled then 1 else 0) :: beBytes 8 m.enabled_from_block

/-- `codec::log::decode_topic0_mode`. -/
def decodeTopic0Mode (bs : List Nat) : Except Err Topic0Mode :=
  if bs.length ≠ 10 ∨ bs.getD 0 0 ≠ 1 then .error (.decode "invalid topic0_mode bytes")
  else .ok {
    log_enabled := bs.getD 1 0 = 1
    enabled_from_block := beVal ((bs.drop 2).take 8) }

/-- `codec::log::encode_topic0_stats` (always writes version 2). -/
def encodeTopic0Stats (s : Topic0Stats) : List Nat :=
  2 :: beBytes 4 s.window_len ++ beBytes 4 s.blocks_seen_in_window ++
    beBytes 4 s.ring_cursor ++ beBytes 8 s.last_updated_block ++
    beBytes 4 s.ring_bits.length ++ s.ring_bits

/-- `codec::log::decode_topic0_stats` (accepts versions 1 and 2; version 1
has no `last_updated_block`, which decodes as `0`). -/
def decodeTopic0Stats (bs : List Nat) : Except Err Topic0Stats :=
  match bs with
  | [] => .error (.decode "invalid topic0_stats bytes")
  | v :: _ =>
    if v = 1 then
      if bs.length < 17 then .error (.decode "invalid topic0_stats bytes")
      else
        let ringLen := beVal ((bs.drop 13).take 4)
        if bs.length ≠ 17 + ringLen then .error (.decode "topic0_stats ring length mismatch")
        else .ok {
          window_len := beVal ((bs.drop 1).take 4)
          blocks_seen_in_window := beVal ((bs.drop 5).take 4)
          ring_cursor := beVal ((bs.drop 9).take 4)
          last_updated_block := 0
          ring_bits := bs.drop 17 }
    else if v = 2 then
      if bs.length < 25 then .error (.decode "invalid topic0_stats v2 bytes")
      else
        let ringLen := beVal ((bs.drop 21).take 4)
        if bs.length ≠ 25 + ringLen then .error (.decode "topic0_stats v2 ring length mismatch")
        else .ok {
          window_len := beVal ((bs.drop 1).take 4)
          blocks_seen_in_window := beVal ((bs.drop 5).take 4)
          ring_cursor := beVal ((bs.drop 9).take 4)
          last_updated_block := beVal ((bs.drop 13).take 8)
          ring_bits := bs.drop 25 }
    else .error (.decode "unsupported topic0_stats version")

/-- `codec::log::encode_log`: address, 1-byte topic count, topics, 32-bit
data length, data, identity tuple. -/
def encodeLog (l : Log) : List Nat :=
  l.address ++ [l.topics.length % 256] ++ l.topics.flatten ++
    beBytes 4 l.data.length ++ l.data ++ beBytes 8 l.block_num ++
    beBytes 4 l.tx_idx ++ beBytes 4 l.log_idx ++ l.block_hash

/-- `codec::log::decode_log`. -/
def decodeLog (bs : List Nat) : Except Err Log :=
  if bs.length < 20 + 1 + 4 + 8 + 4 + 4 + 32 then .error (.decode "log too short")
  else
    let topicCount := bs.getD 20 0
    if topicCount > 4 then .error (.decode "topic count exceeds 4")
    else if bs.length < 21 + topicCount * 32 + 4 + 8 + 4 + 4 + 32 then
      .error (.decode "log missing topic bytes")
    else
      let p1 := 21 + topicCount * 32
      let dataLen := beVal ((bs.drop p1).take 4)
      if bs.length < p1 + 4 + dataLen + 8 + 4 + 4 + 32 then
        .error (.decode "log missing data/body bytes")
      else
        let p2 := p1 + 4 + dataLen
        .ok {
          address := bs.take 20
          topics := (List.range topicCount).map (fun i => ((bs.drop (21 + i * 32)).take 32))
          data := (bs.drop (p1 + 4)).take dataLen
          block_num := beVal ((bs.drop p2).take 8)
          tx_idx := beVal ((bs.drop (p2 + 8)).take 4)
          log_idx := beVal ((bs.drop (p2 + 12)).take 4)
          block_hash := (bs.drop (p2 + 16)).take 32 }

/-- `codec::log::encode_log_locator`. -/
def encodeLogLocator (l : LogLocator) : List Nat :=
  1 :: beBytes 2 l.blob_key.length ++ l.blob_key.take (l.blob_key.length % 65536) ++
    beBytes 4 l.byte_offset ++ beBytes 4 l.byte_len

/-- `codec::log::decode_log_locator`. -/
def decodeLogLocator (bs : List Nat) : Except Err LogLocator :=
  if bs.length < 1 + 2 + 4 + 4 then .error (.decode "log locator too short")
  else if bs.getD 0 0 ≠ 1 then .error (.decode "unsupported log locator version")
  else
    let keyLen := beVal ((bs.drop 1).take 2)
    if bs.length ≠ 1 + 2 + keyLen + 4 + 4 then .error (.decode "invalid log locator length")
    else .ok {
      blob_key := (bs.drop 3).take keyLen
      byte_offset := beVal ((bs.drop (3 + keyLen)).take 4)
      byte_len := beVal ((bs.drop (3 + keyLen + 4)).take 4) }

/-- `codec::manifest::encode_manifest`: version byte `1`, three big-endian
`u64`s, a `u32` count and 20 bytes per chunk ref.  Note that
`last_seal_unix_sec` is NOT written. -/
def encodeManifest (m : Manifest) : List Nat :=
  1 :: beBytes 8 m.version ++ beBytes 8 m.last_chunk_seq ++ beBytes 8 m.approx_count ++
    beBytes 4 m.chunk_refs.length ++
    m.chunk_refs.flatMap (fun c =>
      beBytes 8 c.chunk_seq ++ beBytes 4 c.min_local ++ beBytes 4 c.max_local ++
        beBytes 4 c.count)

/-- `codec::manifest::decode_manifest` (yields `last_seal_unix_sec = 0`). -/
def decodeManifest (bs : List Nat) : Except Err Manifest :=
  if bs.length < 1 + 8 + 8 + 8 + 4 then .error (.decode "manifest too short")
  else if bs.getD 0 0 ≠ 1 then .error (.decode "unsupported manifest version")
  else
    let n := beVal ((bs.drop 25).take 4)
    if bs.length ≠ 29 + n * 20 then .error (.decode "manifest length mismatch")
    else .ok {
      version := beVal ((bs.drop 1).take 8)
      last_chunk_seq := beVal ((bs.drop 9).take 8)
      approx_count := beVal ((bs.drop 17).take 8)
      chunk_refs := (List.range n).map (fun i =>
        { chunk_seq := beVal ((bs.drop (29 + i * 20)).take 8)
          min_local := beVal ((bs.drop (29 + i * 20 + 8)).take 4)
          max_local := beVal ((bs.drop (29 + i * 20 + 12)).take 4)
          count := beVal ((bs.drop (29 + i * 20 + 16)).take 4) })
      last_seal_unix_sec := 0 }

/-- `codec::manifest::encode_tail`: version byte `1` then the serialized
bitmap. -/
def encodeTail (bm : List Nat) : List Nat := 1 :: rsSerialize bm

/-- `codec::manifest::decode_tail`. -/
def decodeTail (bs : List Nat) : Except Err (List Nat) :=
  match bs with
  | [] => .error (.decode "tail too short")
  | v :: rest =>
      if v ≠ 1 then .error (.decode "unsupported tail version")
      else rsDeserialize rest

/-- Stand-in for `codec::chunk::crc32_like`.  The source hashes the payload
with `std`'s `DefaultHasher` (SipHash-1-3) and truncates to 32 bits; no
theorem below depends on the digest values (encode and decode agree on the
same function), so an executable 64-bit FNV-style fold truncated to 32 bits
stands in for the digest. -/
def crc32Like (bs : List Nat) : Nat :=
  bs.foldl (fun h b => (h * 1099511628211 + b) % 2 ^ 64) 14695981039346656037 % 2 ^ 32

/-- `codec::chunk::encode_chunk`: version byte `1`, `min_local`,
`max_local`, `count`, checksum over the serialized bitmap, then the
serialized bitmap. -/
def encodeChunk (c : ChunkBlob) : List Nat :=
  let payload := rsSerialize c.bitmap
  1 :: beBytes 4 c.min_local ++ beBytes 4 c.max_local ++ beBytes 4 c.count ++
    beBytes 4 (crc32Like payload) ++ payload

/-- `codec::chunk::decode_chunk`. -/
def decodeChunk (bs : List Nat) : Except Err ChunkBlob :=
  if bs.length < 17 then .error (.decode "chunk too short")
  else if bs.getD 0 0 ≠ 1 then .error (.decode "unsupported chunk version")
  else
    let payload := bs.drop 17
    if beVal ((bs.drop 13).take 4) ≠ crc32Like payload then
      .error (.decode "chunk checksum mismatch")
    else
      match rsDeserialize payload with
      | .error e => .error e
      | .ok bm => .ok {
          min_local := beVal ((bs.drop 1).take 4)
          max_local := beVal ((bs.drop 5).take 4)
          count := beVal ((bs.drop 9).take 4)
          crc32 := beVal ((bs.drop 13).take 4)
          bitmap := bm }

/-! ## Key schema (`domain/keys.rs`)

Keys are the UTF-8 bytes of the Rust keys; ASCII string constants appear as
their byte lists (with the string in a comment). -/
/-- `META_STATE_KEY` = `"meta/state"`. -/
def metaStateKey : List Nat := [109, 101, 116, 97, 47, 115, 116, 97, 116, 101]

/-- `"logs/"` prefix. -/
def logsNs : List Nat := [108, 111, 103, 115, 47]

/-- `log_key`. -/
def logKey (id : Nat) : List Nat := logsNs ++ beBytes 8 id

/-- `"block_meta/"` prefix. -/
def blockMetaNs : List Nat := [98, 108, 111, 99, 107, 95, 109, 101, 116, 97, 47]

/-- `block_meta_key`. -/
def blockMetaKey (b : Nat) : List Nat := blockMetaNs ++ beBytes 8 b

/-- `"block_hash_to_num/"` prefix. -/
def blockHashNs : List Nat :=
  [98, 108, 111, 99, 107, 95, 104, 97, 115, 104, 95, 116, 111, 95, 110, 117, 109, 47]

/-- `block_hash_to_num_key`. -/
def blockHashToNumKey (h : List Nat) : List Nat := blockHashNs ++ h

/-- `"manifests/"` prefix. -/
def manifestsNs : List Nat := [109, 97, 110, 105, 102, 101, 115, 116, 115, 47]

/-- `manifest_key` (stream ids are already byte lists here). -/
def manifestKey (sid : List Nat) : List Nat := manifestsNs ++ sid

/-- `"tails/"` prefix. -/
def tailsNs : List Nat := [116, 97, 105, 108, 115, 47]

/-- `tail_key`. -/
def tailKey (sid : List Nat) : List Nat := tailsNs ++ sid

/-- `"chunks/"` prefix. -/
def chunksNs : List Nat := [99, 104, 117, 110, 107, 115, 47]

/-- `chunk_blob_key`: `"chunks/" ++ sid ++ "/" ++ u64_be(seq)`. -/
def chunkBlobKey (sid : List Nat) (seq : Nat) : List Nat :=
  chunksNs ++ sid ++ [47] ++ beBytes 8 seq

/-- `hex_digit` (`'0'..'9'`, `'a'..'f'`; the `_ => '0'` fallback is
unreachable for nibble inputs). -/
def hexDigit (v : Nat) : Nat :=
  if v < 10 then 48 + v else if v < 16 then 97 + (v - 10) else 48

/-- `push_hex`: two lowercase hex digits per byte. -/
def hexOf (value : List Nat) : List Nat :=
  value.flatMap (fun b => [hexDigit (b / 16 % 16), hexDigit (b % 16)])

/-- `"topic0_mode/"` prefix. -/
def topic0ModeNs : List Nat := [116, 111, 112, 105, 99, 48, 95, 109, 111, 100, 101, 47]

/-- `topic0_mode_key`. -/
def topic0ModeKey (t : List Nat) : List Nat := topic0ModeNs ++ hexOf t

/-- `"topic0_stats/"` prefix. -/
def topic0StatsNs : List Nat := [116, 111, 112, 105, 99, 48, 95, 115, 116, 97, 116, 115, 47]

/-- `topic0_stats_key`. -/
def topic0StatsKey (t : List Nat) : List Nat := topic0StatsNs ++ hexOf t

/-- The 8 lowercase hex digits of `format!("{shard:08x}")` for a `u32`. -/
def hex8 (v : Nat) : List Nat :=
  (List.range 8).map (fun i => hexDigit (v / 16 ^ (7 - i) % 16))

/-- `stream_id`: `"<kind>/<hex value>/<8-hex shard>"` as bytes. -/
def streamId (kind : List Nat) (value : List Nat) (shard : Nat) : List Nat :=
  kind ++ [47] ++ hexOf value ++ [47] ++ hex8 shard

/-- `"addr"`. -/
def kindAddr : List Nat := [97, 100, 100, 114]

/-- `"topic0_log"`. -/
def kindTopic0Log : List Nat := [116, 111, 112, 105, 99, 48, 95, 108, 111, 103]

/-- `"topic0_block"`. -/
def kindTopic0Block : List Nat := [116, 111, 112, 105, 99, 48, 95, 98, 108, 111, 99, 107]

/-- `"topic1"`. -/
def kindTopic1 : List Nat := [116, 111, 112, 105, 99, 49]

/-- `"topic2"`. -/
def kindTopic2 : List Nat := [116, 111, 112, 105, 99, 50]

/-- `"topic3"`. -/
def kindTopic3 : List Nat := [116, 111, 112, 105, 99, 51]

/-- Modelled from the spec: `log_locator_key`, the metadata key that
`query/executor.rs` reads in `load_log_by_id`.  The function is referenced
from `domain::keys` but its definition is not present under `src/`; the spec
(§3 "Log locator", §9 "Log hydration ambiguity", and the key-schema style of
§4.B: ASCII namespace prefix followed by a big-endian integer) fixes it as a
dedicated `"log_locator/" ++ u64_be(id)` namespace, distinct from the
`"logs/" ++ u64_be(id)` namespace used by the ingest path. -/
def logLocatorNs : List Nat := [108, 111, 103, 95, 108, 111, 99, 97, 116, 111, 114, 47]

/-- Modelled from the spec: `log_locator_key` itself. -/
def logLocatorKey (id : Nat) : List Nat := logLocatorNs ++ beBytes 8 id

/-! ## Store model (`store/meta.rs`, `store/blob.rs`)

The metadata store is a `BTreeMap<Vec<u8>, Record>`: a sorted association
list in byte-lexicographic key order.  The blob store is a `HashMap` whose
listing sorts keys; it is modelled with the same sorted association list
(observably identical).  Writes are appended to a trace (newest first) so
ordering claims about writes can be stated. -/
/-- Byte-lexicographic strict order on keys (`Ord` for `Vec<u8>`). -/
def keyLt : List Nat → List Nat → Bool
  | [], [] => false
  | [], _ :: _ => true
  | _ :: _, [] => false
  | x :: xs, y :: ys => if x < y then true else if y < x then false else keyLt xs ys

/-- Insert into a key-sorted association list, replacing an existing
binding. -/
def assocInsert (k : List Nat) (v : α) : List (List Nat × α) → List (List Nat × α)
  | [] => [(k, v)]
  | (k', v') :: rest =>
      if keyLt k k' then (k, v) :: (k', v') :: rest
      else if k = k' then (k, v) :: rest
      else (k', v') :: assocInsert k v rest

/-- Remove a binding from an association list. -/
def assocRemove (k : List Nat) : List (List Nat × α) → List (List Nat × α)
  | [] => []
  | (k', v') :: rest => if k = k' then rest else (k', v') :: assocRemove k rest

/-- Lookup in an association list. -/
def assocFind (k : List Nat) : List (List Nat × α) → Option α
  | [] => none
  | (k', v') :: rest => if k = k' then some v' else assocFind k rest

/-- One traced store write. -/
inductive Ev where
  | mput (k : List Nat)
  | mdel (k : List Nat)
  | bput (k : List Nat)
  | bdel (k : List Nat)
  deriving Repr, DecidableEq

/-- Combined state: metadata store, blob store, fencing floor, and the
write trace (newest first). -/
structure St where
  meta : List (List Nat × Rec) := []
  blobs : List (List Nat × List Nat) := []
  minEpoch : Nat := 0
  trace : List Ev := []
  deriving Repr, DecidableEq

/-- The empty stores (`InMemoryMetaStore::default()` /
`InMemoryBlobStore::default()`). -/
def St.empty : St := {}

/-- State-with-error monad: an error preserves the state reached at the
point of failure (durable partial writes). -/
def M (α : Type) : Type := St → St × Except Err α

instance : Monad M where
  pure a := fun st => (st, .ok a)
  bind x f := fun st =>
    match x st with
    | (st', .ok a) => f a st'
    | (st', .error e) => (st', .error e)

/-- Raise an error. -/
def mThrow (e : Err) : M α := fun st => (st, .error e)

/-- Read the whole state (specification helper). -/
def mGetSt : M St := fun st => (st, .ok st)

/-- `InMemoryMetaStore::get`. -/
def metaGet (k : List Nat) : M (Option Rec) := fun st => (st, .ok (assocFind k st.meta))

/-- `InMemoryMetaStore::put` (fence validation first, then the conditional
write; an applied put bumps the version). -/
def metaPut (k : List Nat) (v : List Nat) (cond : PutCond) (fence : Nat) : M PutResult :=
  fun st =>
    if fence < st.minEpoch then (st, .error .leaseLost)
    else
      let current := assocFind k st.meta
      let allowed :=
        match cond, current with
        | .any, _ => true
        | .ifAbsent, none => true
        | .ifAbsent, some _ => false
        | .ifVersion v, some r => r.version = v
        | .ifVersion _, none => false
      if allowed then
        let nv := match current with | none => 1 | some r => r.version + 1
        ({ st with meta := assocInsert k { value := v, version := nv } st.meta,
                   trace := .mput k :: st.trace },
         .ok { applied := true, version := some nv })
      else (st, .ok { applied := false, version := current.map (·.version) })

/-- `InMemoryMetaStore::delete`. -/
def metaDelete (k : List Nat) (cond : DelCond) (fence : Nat) : M Unit :=
  fun st =>
    if fence < st.minEpoch then (st, .error .leaseLost)
    else
      let shouldDelete :=
        match cond, assocFind k st.meta with
        | .any, some _ => true
        | .any, none => false
        | .ifVersion v, some r => r.version = v
        | .ifVersion _, none => false
      if shouldDelete then
        ({ st with meta := assocRemove k st.meta, trace := .mdel k :: st.trace }, .ok ())
      else (st, .ok ())

/-- Shared page scan for `list_prefix`: ascending keys at or after the
cursor that carry the prefix; stop (and emit a cursor) when the page reaches
`limit`. -/
def pageOf (keys : List (List Nat)) (pfx : List Nat) (cursor : Option (List Nat))
    (limit : Nat) : Page :=
  let start := cursor.getD []
  let selected := keys.filter (fun k => ¬ keyLt k start ∧ pfx.isPrefixOf k)
  if limit ≠ 0 ∧ limit ≤ selected.length then
    { keys := selected.take limit, next_cursor := (selected.take limit).getLast? }
  else { keys := selected, next_cursor := none }

/-- `InMemoryMetaStore::list_prefix`. -/
def metaList (pfx : List Nat) (cursor : Option (List Nat)) (limit : Nat) :
    M Page :=
  fun st => (st, .ok (pageOf (st.meta.map (·.1)) pfx cursor limit))

/-- `InMemoryBlobStore::put_blob`. -/
def blobPut (k : List Nat) (v : List Nat) : M Unit := fun st =>
  ({ st with blobs := assocInsert k v st.blobs, trace := .bput k :: st.trace }, .ok ())

/-- `InMemoryBlobStore::get_blob`. -/
def blobGet (k : List Nat) : M (Option (List Nat)) := fun st =>
  (st, .ok (assocFind k st.blobs))

/-- `InMemoryBlobStore::delete_blob`. -/
def blobDelete (k : List Nat) : M Unit := fun st =>
  ({ st with blobs := assocRemove k st.blobs, trace := .bdel k :: st.trace }, .ok ())

/-- `InMemoryBlobStore::list_prefix`. -/
def blobList (pfx : List Nat) (cursor : Option (List Nat)) (limit : Nat) :
    M Page :=
  fun st => (st, .ok (pageOf (st.blobs.map (·.1)) pfx cursor limit))

/-- `usize::MAX` (the limit the engine and GC pass to `list_prefix`). -/
def usizeMax : Nat := 2 ^ 64 - 1

/-! ## Ingest engine (`ingest/engine.rs`)

All engine methods take the `Config` explicitly (the Rust engine holds it in
`self`), and the wall clock `now_unix_sec()` is an explicit `now` argument.
-/
/-- `|= mask` on a byte for a single-bit mask `2^j`. -/
def orBit (b j : Nat) : Nat := if b / 2 ^ j % 2 = 1 then b else b + 2 ^ j

/-- `&= !mask` on a byte for a single-bit mask `2^j`. -/
def andNotBit (b j : Nat) : Nat := if b / 2 ^ j % 2 = 1 then b - 2 ^ j else b

/-- `ingest::engine::apply_window_step`.  List indexing models the Rust
slice indexing; the engine keeps `byte_idx` within the ring, so the
out-of-bounds behaviours (panic in Rust, no-op here) are never reached. -/
def applyWindowStep (stats : Topic0Stats) (block_num : Nat) (seen : Bool) : Topic0Stats :=
  let window := max stats.window_len 1
  let index := block_num % window
  let byteIdx := index / 8
  let j := index % 8
  let b0 := stats.ring_bits.getD byteIdx 0
  let currentlySet := b0 / 2 ^ j % 2 = 1
  let (seen1, ring1) :=
    if currentlySet then
      (stats.blocks_seen_in_window - 1, stats.ring_bits.set byteIdx (andNotBit b0 j))
    else (stats.blocks_seen_in_window, stats.ring_bits)
  let (seen2, ring2) :=
    if seen then
      (min (seen1 + 1) (2 ^ 32 - 1), ring1.set byteIdx (orBit (ring1.getD byteIdx 0) j))
    else (seen1, ring1)
  { stats with
      blocks_seen_in_window := seen2
      ring_bits := ring2
      ring_cursor := (index + 1) % window
      last_updated_block := block_num }

/-- `IngestEngine::load_state`. -/
def loadState : M (MetaState × Option Nat) := do
  let rec? ← metaGet metaStateKey
  match rec? with
  | some r =>
      match decodeMetaState r.value with
      | .ok s => pure (s, some r.version)
      | .error e => mThrow e
  | none => pure ({}, none)

/-- `IngestEngine::store_state`. -/
def storeState (next : MetaState) (currentVersion : Option Nat) (epoch : Nat) : M Unit := do
  let cond := match currentVersion with
    | some v => PutCond.ifVersion v
    | none => PutCond.ifAbsent
  let r ← metaPut metaStateKey (encodeMetaState next) cond epoch
  if !r.applied then mThrow .casConflict else pure ()

/-- `IngestEngine::load_block_meta`. -/
def loadBlockMeta (block_num : Nat) : M BlockMeta := do
  let rec? ← metaGet (blockMetaKey block_num)
  match rec? with
  | none => mThrow .notFound
  | some r =>
      match decodeBlockMeta r.value with
      | .ok m => pure m
      | .error e => mThrow e

/-- `IngestEngine::load_manifest`. -/
def loadManifest (sid : List Nat) : M (Manifest × Option Nat) := do
  let rec? ← metaGet (manifestKey sid)
  match rec? with
  | some r =>
      match decodeManifest r.value with
      | .ok m => pure (m, some r.version)
      | .error e => mThrow e
  | none => pure ({}, none)

/-- `IngestEngine::store_manifest`. -/
def storeManifest (sid : List Nat) (m : Manifest) (version : Option Nat) (epoch : Nat) :
    M Unit := do
  let cond := match version with
    | some v => PutCond.ifVersion v
    | none => PutCond.ifAbsent
  let r ← metaPut (manifestKey sid) (encodeManifest m) cond epoch
  if !r.applied then mThrow .casConflict else pure ()

/-- `IngestEngine::load_tail`. -/
def loadTail (sid : List Nat) : M (List Nat) := do
  let rec? ← metaGet (tailKey sid)
  match rec? with
  | some r =>
      match decodeTail r.value with
      | .ok bm => pure bm
      | .error e => mThrow e
  | none => pure []

/-- `IngestEngine::store_tail`. -/
def storeTail (sid : List Nat) (tail : List Nat) (epoch : Nat) : M Unit := do
  let _ ← metaPut (tailKey sid) (encodeTail tail) .any epoch
  pure ()

/-- `IngestEngine::topic0_log_enabled`. -/
def topic0LogEnabled (topic0 : List Nat) (block_num : Nat) : M Bool := do
  let rec? ← metaGet (topic0ModeKey topic0)
  match rec? with
  | none => pure false
  | some r =>
      match decodeTopic0Mode r.value with
      | .error e => mThrow e
      | .ok mode => pure (mode.log_enabled && block_num ≥ mode.enabled_from_block)

/-- The fresh stats record created by `update_one_topic0_stats` when none is
stored: window 50000, a zeroed 6250-byte ring, `last_updated_block =
block_num.saturating_sub(1)`. -/
def freshStats (block_num : Nat) : Topic0Stats where
  window_len := 50000
  blocks_seen_in_window := 0
  ring_cursor := 0
  last_updated_block := block_num - 1
  ring_bits := List.replicate 6250 0

/-- `IngestEngine::update_one_topic0_stats`.

The hysteresis thresholds are evaluated in the source as `f64` comparisons
`ratio < 0.001` / `ratio > 0.01` with `ratio = seen / denom`; they are
modelled by the exact rational comparisons `1000 * seen < denom` and
`100 * seen > denom`, which agree with the `f64` evaluation for all inputs
that are not within one rounding ulp of the threshold (and in particular for
every input arising in the claims).

The second half of the Rust function (the mode update after an applied
stats write) is split into `updateTopic0ModeAfterStats` below; the bodies
are verbatim. -/
def updateTopic0ModeAfterStats (topic0 : List Nat) (block_num : Nat)
    (stats : Topic0Stats) (epoch : Nat) : M Unit := do
  let modeKey := topic0ModeKey topic0
  let mrec? ← metaGet modeKey
  let mode ←
    match mrec? with
    | some r =>
        match decodeTopic0Mode r.value with
        | .ok m => pure m
        | .error e => mThrow e
    | none => pure { log_enabled := false, enabled_from_block := 0 : Topic0Mode }
  let denom := max (min stats.window_len (block_num + 1)) 1
  let seen := stats.blocks_seen_in_window
  let (mode, changed) :=
    if !mode.log_enabled ∧ 1000 * seen < denom then
      ({ log_enabled := true, enabled_from_block := block_num : Topic0Mode }, true)
    else if mode.log_enabled ∧ 100 * seen > denom then
      ({ mode with log_enabled := false }, true)
    else (mode, false)
  let mrec2? ← metaGet modeKey
  if changed ∨ mrec2?.isNone then
    let _ ← metaPut modeKey (encodeTopic0Mode mode) .any epoch
    pure ()
  else pure ()

/-- First half of `IngestEngine::update_one_topic0_stats`: load, age and
store the stats record, then run the mode update when the write applied. -/
def updateOneTopic0Stats (topic0 : List Nat) (block_num : Nat) (seen_in_block : Bool)
    (epoch : Nat) : M Unit := do
  let key := topic0StatsKey topic0
  let rec? ← metaGet key
  let (stats, version) ←
    match rec? with
    | some r =>
        match decodeTopic0Stats r.value with
        | .ok s => pure (s, some r.version)
        | .error e => mThrow e
    | none => pure (freshStats block_num, none)
  if block_num ≤ stats.last_updated_block then pure ()
  else
    let start := stats.last_updated_block + 1
    let stats := (List.range' start (block_num + 1 - start)).foldl
      (fun s b => applyWindowStep s b (b = block_num && seen_in_block)) stats
    let cond := match version with
      | some v => PutCond.ifVersion v
      | none => PutCond.ifAbsent
    let result ← metaPut key (encodeTopic0Stats stats) cond epoch
    if !result.applied then pure ()
    else updateTopic0ModeAfterStats topic0 block_num stats epoch

/-- `IngestEngine::update_topic0_modes_for_block` (iterates the deduped
signature set in ascending byte order, as `BTreeSet` iteration does). -/
def updateTopic0ModesForBlock (block_num : Nat) (seen : List (List Nat)) (epoch : Nat) :
    M Unit := do
  match seen with
  | [] => pure ()
  | sig :: rest => do
      updateOneTopic0Stats sig block_num true epoch
      updateTopic0ModesForBlock block_num rest epoch

/-- Sorted-set insert for byte-list sets (`BTreeSet<[u8; 32]>` /
`BTreeSet<String>` keys), returning whether the element was new. -/
def keySetInsert (k : List Nat) : List (List Nat) → List (List Nat) × Bool
  | [] => ([k], true)
  | x :: xs =>
      if keyLt k x then (k :: x :: xs, true)
      else if k = x then (x :: xs, false)
      else
        let (rest, fresh) := keySetInsert k xs
        (x :: rest, fresh)

/-- `out.entry(stream).or_default().insert(local)` on the
`BTreeMap<String, BTreeSet<u32>>` accumulator. -/
def appendsInsert (m : List (List Nat × List Nat)) (sid : List Nat) (v : Nat) :
    List (List Nat × List Nat) :=
  assocInsert sid (bmInsert v ((assocFind sid m).getD [])) m

/-- The per-log body of `collect_stream_appends` (one iteration of the
enumerated loop). -/
def collectOneLog (block : Block) (first_log_id : Nat) (i : Nat) (log : Log)
    (acc : List (List Nat × List Nat) × List (List Nat)) :
    M (List (List Nat × List Nat) × List (List Nat)) := do
  let (out, seen) := acc
  let global := first_log_id + i
  let shard := global / 2 ^ 32 % 2 ^ 32
  let locId := global % 2 ^ 32
  let out := appendsInsert out (streamId kindAddr log.address shard) locId
  let (out, seen) ←
    match log.topics.head? with
    | none => pure (out, seen)
    | some topic0 => do
        let bshard := block.block_num / 2 ^ 32 % 2 ^ 32
        let blockLocal := block.block_num % 2 ^ 32
        let (seen, fresh) := keySetInsert topic0 seen
        let out :=
          if fresh then appendsInsert out (streamId kindTopic0Block topic0 bshard) blockLocal
          else out
        let enabled ← topic0LogEnabled topic0 block.block_num
        let out :=
          if enabled then appendsInsert out (streamId kindTopic0Log topic0 shard) locId
          else out
        pure (out, seen)
  let out := (((log.topics.drop 1).take 3).enumFrom 1).foldl
    (fun out (idx, topic) =>
      let kind := if idx = 1 then kindTopic1 else if idx = 2 then kindTopic2 else kindTopic3
      appendsInsert out (streamId kind topic shard) locId)
    out
  pure (out, seen)

/-- The enumerated-log loop of `collect_stream_appends`. -/
def collectLogsLoop (block : Block) (first_log_id : Nat) :
    List (Nat × Log) → (List (List Nat × List Nat) × List (List Nat)) →
    M (List (List Nat × List Nat) × List (List Nat))
  | [], acc => pure acc
  | (i, log) :: rest, acc => do
      let acc ← collectOneLog block first_log_id i log acc
      collectLogsLoop block first_log_id rest acc

/-- `IngestEngine::collect_stream_appends`.  The flattening step
(`BTreeSet<u32>` → `Vec<u32>`) is the identity on the sorted value lists. -/
def collectStreamAppends (block : Block) (first_log_id : Nat) (epoch : Nat) :
    M (List (List Nat × List Nat)) := do
  let (out, seen) ← collectLogsLoop block first_log_id (block.logs.enum) ([], [])
  updateTopic0ModesForBlock block.block_num seen epoch
  pure out

/-- `IngestEngine::should_seal` (pure here: tail serialization cannot fail
in the model).  Checks, in order: non-empty tail, entry-count trigger,
serialized-size trigger, and the time trigger guarded by
`last_seal_unix_sec > 0`. -/
def shouldSeal (cfg : Config) (tail : List Nat) (last_seal_unix_sec now_unix_sec : Nat) :
    Bool :=
  if tail.isEmpty then false
  else if tail.length ≥ cfg.target_entries_per_chunk then true
  else if (encodeTail tail).length ≥ cfg.target_chunk_bytes then true
  else if last_seal_unix_sec > 0 ∧
      now_unix_sec - last_seal_unix_sec ≥ cfg.maintenance_seal_seconds then true
  else false

/-- `IngestEngine::apply_stream_appends`. -/
def applyStreamAppends (cfg : Config) (sid : List Nat) (values : List Nat)
    (epoch now : Nat) : M Bool := do
  let (manifest, manifestVersion) ← loadManifest sid
  let tail := values.foldl (fun t v => bmInsert v t) (← loadTail sid)
  let (manifest, tail, sealed) ←
    if shouldSeal cfg tail manifest.last_seal_unix_sec now then do
      let minLocal := (tail.head?).getD 0
      let maxLocal := (tail.getLast?).getD 0
      let count := tail.length % 2 ^ 32
      let chunkSeq := manifest.last_chunk_seq + 1
      let chunk : ChunkBlob :=
        { min_local := minLocal, max_local := maxLocal, count := count, crc32 := 0,
          bitmap := tail }
      blobPut (chunkBlobKey sid chunkSeq) (encodeChunk chunk)
      let manifest :=
        { manifest with
            last_chunk_seq := chunkSeq
            approx_count := manifest.approx_count + count
            last_seal_unix_sec := now
            chunk_refs := manifest.chunk_refs ++
              [{ chunk_seq := chunkSeq, min_local := minLocal, max_local := maxLocal,
                 count := count }] }
      pure (manifest, ([] : List Nat), true)
    else pure (manifest, tail, false)
  storeManifest sid manifest manifestVersion epoch
  storeTail sid tail epoch
  pure sealed

/-- The per-stream loop of `ingest_finalized_block` step 5. -/
def applyAllStreams (cfg : Config) (epoch now : Nat) :
    List (List Nat × List Nat) → M Unit
  | [] => pure ()
  | (sid, values) :: rest => do
      let _ ← applyStreamAppends cfg sid values epoch now
      applyAllStreams cfg epoch now rest

/-- The per-log write loop of `ingest_finalized_block` step 2. -/
def putAllLogs (first_log_id : Nat) (epoch : Nat) : List (Nat × Log) → M Unit
  | [] => pure ()
  | (i, log) :: rest => do
      let _ ← metaPut (logKey (first_log_id + i)) (encodeLog log) .any epoch
      putAllLogs first_log_id epoch rest

/-- `IngestEngine::ingest_finalized_block`. -/
def ingestFinalizedBlock (cfg : Config) (block : Block) (epoch now : Nat) :
    M IngestOutcome := do
  let (state, stateVersion) ← loadState
  let expected := state.indexed_finalized_head + 1
  if block.block_num ≠ expected then
    mThrow (.invalidSequence expected block.block_num)
  else do
    if block.block_num > 0 then do
      let expectedParent ←
        if state.indexed_finalized_head = 0 then pure (List.replicate 32 0)
        else do
          let m ← loadBlockMeta state.indexed_finalized_head
          pure m.block_hash
      if block.parent_hash ≠ expectedParent then mThrow .invalidParent else pure ()
    else pure ()
    let first_log_id := state.next_log_id
    putAllLogs first_log_id epoch block.logs.enum
    let blockMeta : BlockMeta :=
      { block_hash := block.block_hash, parent_hash := block.parent_hash,
        first_log_id := first_log_id, count := block.logs.length % 2 ^ 32 }
    let _ ← metaPut (blockMetaKey block.block_num) (encodeBlockMeta blockMeta) .any epoch
    let _ ← metaPut (blockHashToNumKey block.block_hash) (encodeU64 block.block_num)
      .any epoch
    let appends ← collectStreamAppends block first_log_id epoch
    applyAllStreams cfg epoch now appends
    let next : MetaState :=
      { indexed_finalized_head := block.block_num
        next_log_id := first_log_id + block.logs.length
        writer_epoch := epoch }
    storeState next stateVersion epoch
    pure { indexed_finalized_head := block.block_num, written_logs := block.logs.length }

/-- `parse_stream_from_tail_key` (`from_utf8_lossy` is the identity on the
ASCII stream ids the engine writes; keys are byte lists throughout). -/
def parseStreamFromTailKey (key : List Nat) : Option (List Nat) :=
  if tailsNs.isPrefixOf key then some (key.drop tailsNs.length) else none

/-- `ingest::engine::MaintenanceStats`. -/
structure MaintenanceStats where
  flushed_streams : Nat := 0
  sealed_streams : Nat := 0
  deriving Repr, DecidableEq

/-- The per-tail loop of `run_periodic_maintenance`. -/
def maintenanceLoop (cfg : Config) (epoch now : Nat) :
    List (List Nat) → MaintenanceStats → M MaintenanceStats
  | [], stats => pure stats
  | key :: rest, stats => do
      match parseStreamFromTailKey key with
      | none => maintenanceLoop cfg epoch now rest stats
      | some sid => do
          let sealed ← applyStreamAppends cfg sid [] epoch now
          let stats :=
            { flushed_streams := min (stats.flushed_streams + 1) usizeMax
              sealed_streams :=
                if sealed then min (stats.sealed_streams + 1) usizeMax
                else stats.sealed_streams }
          maintenanceLoop cfg epoch now rest stats

/-- `IngestEngine::run_periodic_maintenance`. -/
def runPeriodicMaintenance (cfg : Config) (epoch now : Nat) : M MaintenanceStats := do
  let page ← metaList tailsNs none usizeMax
  maintenanceLoop cfg epoch now page.keys {}

/-! ## Query planner (`query/planner.rs`) -/
/-- `clause_values_20` / `clause_values_32` (identical up to the value
width, which is already erased in the byte-list model). -/
def clauseValues : Clause (List Nat) → List (List Nat)
  | .any => []
  | .one v => [v]
  | .or vs => vs

/-- `u64::saturating_add`. -/
def u64SatAdd (a b : Nat) : Nat := min (a + b) (2 ^ 64 - 1)

/-- `query::planner::overlaps`. -/
def overlapsRef (c : ChunkRef) (localFrom localTo : Nat) : Bool :=
  c.max_local ≥ localFrom ∧ c.min_local ≤ localTo

/-- Inclusive `Nat` range `a..=b` as an ascending list. -/
def natRangeIncl (a b : Nat) : List Nat := List.range' a (b + 1 - a)

/-- `query::planner::estimate_stream_overlap`. -/
def estimateStreamOverlap (sid : List Nat) (fromLogId toLogIdIncl shard : Nat) :
    M Nat := do
  let localFrom := if shard = fromLogId / 2 ^ 32 % 2 ^ 32 then fromLogId % 2 ^ 32 else 0
  let localTo :=
    if shard = toLogIdIncl / 2 ^ 32 % 2 ^ 32 then toLogIdIncl % 2 ^ 32 else 2 ^ 32 - 1
  let count ←
    match ← metaGet (manifestKey sid) with
    | none => pure 0
    | some m =>
        match decodeManifest m.value with
        | .error e => mThrow e
        | .ok manifest =>
            pure (manifest.chunk_refs.foldl
              (fun acc c => if overlapsRef c localFrom localTo then u64SatAdd acc c.count
                else acc) 0)
  match ← metaGet (tailKey sid) with
  | none => pure count
  | some t =>
      match decodeTail t.value with
      | .error e => mThrow e
      | .ok tail =>
          pure (tail.foldl
            (fun acc v => if localFrom ≤ v ∧ v ≤ localTo then u64SatAdd acc 1 else acc)
            count)

/-- The `values × shards` accumulation of `estimate_for_values`. -/
def estimateValuesLoop (kind : List Nat) (fromLogId toLogIdIncl : Nat) :
    List (List Nat) → List Nat → Nat → M Nat
  | [], _, sum => pure sum
  | _ :: vrest, [], sum => fun st =>
      (estimateValuesLoop kind fromLogId toLogIdIncl vrest
        (natRangeIncl (fromLogId / 2 ^ 32 % 2 ^ 32) (toLogIdIncl / 2 ^ 32 % 2 ^ 32)) sum) st
  | v :: vrest, shard :: srest, sum => do
      let c ← estimateStreamOverlap (streamId kind v shard) fromLogId toLogIdIncl shard
      estimateValuesLoop kind fromLogId toLogIdIncl (v :: vrest) srest (u64SatAdd sum c)

/-- `query::planner::estimate_for_values`. -/
def estimateForValues (kind : List Nat) (values : List (List Nat))
    (fromLogId toLogIdIncl : Nat) : M Nat :=
  match values with
  | [] => pure 0
  | v :: vrest =>
      estimateValuesLoop kind fromLogId toLogIdIncl (v :: vrest)
        (natRangeIncl (fromLogId / 2 ^ 32 % 2 ^ 32) (toLogIdIncl / 2 ^ 32 % 2 ^ 32)) 0

/-- Stable insertion for the clause-estimate sort (`sort_by_key` is
stable: ties keep the address, topic1, topic2, topic3, topic0 insertion
order). -/
def insertByEstimate (x : ClauseKind × Nat) :
    List (ClauseKind × Nat) → List (ClauseKind × Nat)
  | [] => [x]
  | y :: ys => if x.2 < y.2 then x :: y :: ys else y :: insertByEstimate x ys

/-- One accumulator block of `query::planner::build_clause_order` (the
source repeats this block verbatim for `address` and `topic1`-`topic3`;
the `mut clauses` accumulator is threaded explicitly). -/
def clauseEstimateStep (kind : ClauseKind) (kb : List Nat)
    (c : Option (Clause (List Nat))) (fromLogId toLogIdIncl : Nat)
    (clauses : List (ClauseKind × Nat)) : M (List (ClauseKind × Nat)) :=
  match c with
  | none => pure clauses
  | some cl =>
      let values := clauseValues cl
      if values.isEmpty then pure clauses
      else do
        let e ← estimateForValues kb values fromLogId toLogIdIncl
        pure (clauses ++ [(kind, e)])

/-- The `topic0` block of `build_clause_order` (keeps the clause only when
its estimate is positive). -/
def clauseEstimateStepT0 (c : Option (Clause (List Nat)))
    (fromLogId toLogIdIncl : Nat) (clauses : List (ClauseKind × Nat)) :
    M (List (ClauseKind × Nat)) :=
  match c with
  | none => pure clauses
  | some cl =>
      let values := clauseValues cl
      if values.isEmpty then pure clauses
      else do
        let e ← estimateForValues kindTopic0Log values fromLogId toLogIdIncl
        if e > 0 then pure (clauses ++ [(ClauseKind.topic0Log, e)])
        else pure clauses

/-- `query::planner::build_clause_order`. -/
def buildClauseOrder (filter : LogFilter) (fromLogId toLogIdIncl : Nat) :
    M (List ClauseKind) := do
  let clauses ← clauseEstimateStep .address kindAddr filter.address
    fromLogId toLogIdIncl []
  let clauses ← clauseEstimateStep .topic1 kindTopic1 filter.topic1
    fromLogId toLogIdIncl clauses
  let clauses ← clauseEstimateStep .topic2 kindTopic2 filter.topic2
    fromLogId toLogIdIncl clauses
  let clauses ← clauseEstimateStep .topic3 kindTopic3 filter.topic3
    fromLogId toLogIdIncl clauses
  let clauses ← clauseEstimateStepT0 filter.topic0 fromLogId toLogIdIncl clauses
  pure ((clauses.foldl (fun acc x => insertByEstimate x acc) []).map (·.1))

/-- `query::planner::should_force_block_scan`. -/
def shouldForceBlockScan (filter : LogFilter) (maxOrTerms : Nat)
    (policy : BroadQueryPolicy) : Bool :=
  filter.maxOrTerms > maxOrTerms ∧ policy = .blockScan

/-- `query::planner::should_error_too_broad`. -/
def shouldErrorTooBroad (filter : LogFilter) (maxOrTerms : Nat)
    (policy : BroadQueryPolicy) : Bool :=
  filter.maxOrTerms > maxOrTerms ∧ policy = .error

/-! ## Query executor (`query/executor.rs`) -/
/-- `query::executor::match_address`. -/
def matchAddress (addr : List Nat) : Option (Clause (List Nat)) → Bool
  | none => true
  | some .any => true
  | some (.one v) => v = addr
  | some (.or vs) => vs.any (· = addr)

/-- `query::executor::match_topic`. -/
def matchTopic (topic : Option (List Nat)) : Option (Clause (List Nat)) → Bool
  | none => true
  | some .any => true
  | some (.one v) => topic = some v
  | some (.or vs) =>
      match topic with
      | some t => vs.any (· = t)
      | none => false

/-- `query::executor::exact_match`. -/
def exactMatch (log : Log) (filter : LogFilter) : Bool :=
  matchAddress log.address filter.address &&
  matchTopic (log.topics.get? 0) filter.topic0 &&
  matchTopic (log.topics.get? 1) filter.topic1 &&
  matchTopic (log.topics.get? 2) filter.topic2 &&
  matchTopic (log.topics.get? 3) filter.topic3

/-- `query::executor::maybe_merge_chunk`. -/
def maybeMergeChunk (sid : List Nat) (cref : ChunkRef) (out : List Nat) :
    M (List Nat) := do
  match ← blobGet (chunkBlobKey sid cref.chunk_seq) with
  | none => pure out
  | some bytes =>
      match decodeChunk bytes with
      | .error e => mThrow e
      | .ok chunk =>
          if chunk.count ≠ cref.count then
            mThrow (.decode "chunk count mismatch against manifest")
          else pure (chunk.bitmap.foldl (fun acc v => bmInsert v acc) out)

/-- The chunk-ref loop of `load_stream_entries`. -/
def mergeChunksLoop (sid : List Nat) : List ChunkRef → List Nat → M (List Nat)
  | [], out => pure out
  | cref :: rest, out => do
      let out ← maybeMergeChunk sid cref out
      mergeChunksLoop sid rest out

/-- `query::executor::load_stream_entries`. -/
def loadStreamEntries (sid : List Nat) : M (List Nat) := do
  let out ←
    match ← metaGet (manifestKey sid) with
    | none => pure []
    | some mrec =>
        match decodeManifest mrec.value with
        | .error e => mThrow e
        | .ok m => mergeChunksLoop sid m.chunk_refs []
  match ← metaGet (tailKey sid) with
  | none => pure out
  | some trec =>
      match decodeTail trec.value with
      | .error e => mThrow e
      | .ok tail => pure (tail.foldl (fun acc v => bmInsert v acc) out)

/-- The `values × shards` union of `fetch_union_log_level`. -/
def fetchUnionLogLoop (kind : List Nat) (fromLogId toLogIdIncl : Nat) :
    List (List Nat) → List Nat → List Nat → M (List Nat)
  | [], _, out => pure out
  | _ :: vrest, [], out =>
      fetchUnionLogLoop kind fromLogId toLogIdIncl vrest
        (natRangeIncl (fromLogId / 2 ^ 32 % 2 ^ 32) (toLogIdIncl / 2 ^ 32 % 2 ^ 32)) out
  | v :: vrest, shard :: srest, out => do
      let entries ← loadStreamEntries (streamId kind v shard)
      let localFrom := if shard = fromLogId / 2 ^ 32 % 2 ^ 32 then fromLogId % 2 ^ 32 else 0
      let localTo :=
        if shard = toLogIdIncl / 2 ^ 32 % 2 ^ 32 then toLogIdIncl % 2 ^ 32 else 2 ^ 32 - 1
      let out := (entries.filter (fun l => localFrom ≤ l ∧ l ≤ localTo)).foldl
        (fun acc l => bmInsert (shard * 2 ^ 32 + l) acc) out
      fetchUnionLogLoop kind fromLogId toLogIdIncl (v :: vrest) srest out

/-- `query::executor::fetch_union_log_level`. -/
def fetchUnionLogLevel (kind : List Nat) (values : List (List Nat))
    (fromLogId toLogIdIncl : Nat) : M (List Nat) :=
  match values with
  | [] => pure []
  | v :: vrest =>
      fetchUnionLogLoop kind fromLogId toLogIdIncl (v :: vrest)
        (natRangeIncl (fromLogId / 2 ^ 32 % 2 ^ 32) (toLogIdIncl / 2 ^ 32 % 2 ^ 32)) []

/-- The `values × shards` union of `fetch_union_block_level`. -/
def fetchUnionBlockLoop (kind : List Nat) (fromBlock toBlock : Nat) :
    List (List Nat) → List Nat → List Nat → M (List Nat)
  | [], _, out => pure out
  | _ :: vrest, [], out =>
      fetchUnionBlockLoop kind fromBlock toBlock vrest
        (natRangeIncl (fromBlock / 2 ^ 32 % 2 ^ 32) (toBlock / 2 ^ 32 % 2 ^ 32)) out
  | v :: vrest, shard :: srest, out => do
      let entries ← loadStreamEntries (streamId kind v shard)
      let localFrom := if shard = fromBlock / 2 ^ 32 % 2 ^ 32 then fromBlock % 2 ^ 32 else 0
      let localTo :=
        if shard = toBlock / 2 ^ 32 % 2 ^ 32 then toBlock % 2 ^ 32 else 2 ^ 32 - 1
      let out := (entries.filter (fun l => localFrom ≤ l ∧ l ≤ localTo)).foldl
        (fun acc l => bmInsert l acc) out
      fetchUnionBlockLoop kind fromBlock toBlock (v :: vrest) srest out

/-- `query::executor::fetch_union_block_level`. -/
def fetchUnionBlockLevel (kind : List Nat) (values : List (List Nat))
    (fromBlock toBlock : Nat) : M (List Nat) :=
  match values with
  | [] => pure []
  | v :: vrest =>
      fetchUnionBlockLoop kind fromBlock toBlock (v :: vrest)
        (natRangeIncl (fromBlock / 2 ^ 32 % 2 ^ 32) (toBlock / 2 ^ 32 % 2 ^ 32)) []

/-- `query::executor::intersect_sets` (empty clause list ⇒ the whole
inclusive candidate range; short-circuits once the accumulator empties). -/
def intersectLoop (acc : List Nat) : List (List Nat) → List Nat
  | [] => acc
  | s :: rest =>
      let acc' := acc.filter (· ∈ s)
      if acc'.isEmpty then acc' else intersectLoop acc' rest

/-- `query::executor::intersect_sets`. -/
def intersectSets (sets : List (List Nat)) (fromId toIdIncl : Nat) : List Nat :=
  match sets with
  | [] => natRangeIncl fromId toIdIncl
  | s :: rest => intersectLoop s rest

/-- The execution-scoped hydration cache (`HashMap<Vec<u8>, Bytes>`). -/
abbrev PackCache := List (List Nat × List Nat)

/-- `query::executor::load_log_by_id`.  `usize` saturating arithmetic on the
locator span cannot saturate for decoded (`u32`) offsets, so plain `Nat`
addition is used for `byte_offset + byte_len`. -/
def loadLogById (logId : Nat) (cache : PackCache) : M (Option Log × PackCache) := do
  match ← metaGet (logLocatorKey logId) with
  | none => pure (none, cache)
  | some locatorRec =>
      match decodeLogLocator locatorRec.value with
      | .error e => mThrow e
      | .ok locator => do
          let cache ←
            if (assocFind locator.blob_key cache).isNone then do
              match ← blobGet locator.blob_key with
              | none => pure none
              | some blob => pure (some (assocInsert locator.blob_key blob cache))
            else pure (some cache)
          match cache with
          | none => pure (none, cache.getD [])
          | some cache =>
              match assocFind locator.blob_key cache with
              | none => pure (none, cache)
              | some blob =>
                  let start := locator.byte_offset
                  let stop := start + locator.byte_len
                  if stop > blob.length ∨ start > stop then
                    mThrow (.decode "invalid log locator span")
                  else
                    match decodeLog ((blob.drop start).take (stop - start)) with
                    | .error e => mThrow e
                    | .ok log => pure (some log, cache)

/-- Result ordering key. -/
def logSortKey (l : Log) : Nat × Nat × Nat := (l.block_num, l.tx_idx, l.log_idx)

/-- Stable insertion by `(block_num, tx_idx, log_idx)`. -/
def insertLogByKey (x : Log) : List Log → List Log
  | [] => [x]
  | y :: ys =>
      if Prod.Lex (· < ·) (Prod.Lex (· < ·) (· < ·)) (logSortKey x) (logSortKey y) then
        x :: y :: ys
      else y :: insertLogByKey x ys

instance : DecidableRel (Prod.Lex (α := Nat) (β := Nat × Nat) (· < ·)
    (Prod.Lex (· < ·) (· < ·))) := fun _ _ => by
  apply Prod.Lex.decidable

/-- `sort_by_key(|l| (l.block_num, l.tx_idx, l.log_idx))` (stable). -/
def sortLogs (ls : List Log) : List Log := ls.foldl (fun acc x => insertLogByKey x acc) []

/-- The hydrate-filter-collect loop of the indexed path (`for id in
candidates`), with the `max_results` break. -/
def hydrateLoop (plan : QueryPlan) (topic0Blocks : Option (List Nat)) :
    List Nat → List Log → PackCache → M (List Log)
  | [], out, _ => pure out
  | id :: rest, out, cache => do
      let (log?, cache) ← loadLogById id cache
      match log? with
      | none => hydrateLoop plan topic0Blocks rest out cache
      | some log =>
          if log.block_num < plan.clipped_from_block ∨
              log.block_num > plan.clipped_to_block then
            hydrateLoop plan topic0Blocks rest out cache
          else if (match topic0Blocks with
                   | some blocks => decide (¬ (log.block_num % 2 ^ 32) ∈ blocks)
                   | none => false : Bool) then
            hydrateLoop plan topic0Blocks rest out cache
          else if exactMatch log plan.filter then
            let out := out ++ [log]
            match plan.options.max_results with
            | some maxR =>
                if out.length ≥ maxR then pure out
                else hydrateLoop plan topic0Blocks rest out cache
            | none => hydrateLoop plan topic0Blocks rest out cache
          else hydrateLoop plan topic0Blocks rest out cache

/-- The per-id loop of one block in the block-scan path; returns `.inl` to
continue with the grown accumulator or `.inr` when `max_results` was hit. -/
def blockScanIdsLoop (plan : QueryPlan) :
    List Nat → List Log → PackCache → M ((List Log × PackCache) ⊕ List Log)
  | [], out, cache => pure (.inl (out, cache))
  | id :: rest, out, cache => do
      let (log?, cache) ← loadLogById id cache
      match log? with
      | none => blockScanIdsLoop plan rest out cache
      | some log =>
          if exactMatch log plan.filter then
            let out := out ++ [log]
            match plan.options.max_results with
            | some maxR =>
                if out.length ≥ maxR then pure (.inr (sortLogs out))
                else blockScanIdsLoop plan rest out cache
            | none => blockScanIdsLoop plan rest out cache
          else blockScanIdsLoop plan rest out cache

/-- The per-block loop of `execute_block_scan`. -/
def blockScanBlocksLoop (plan : QueryPlan) :
    List Nat → List Log → PackCache → M (List Log)
  | [], out, _ => pure (sortLogs out)
  | b :: rest, out, cache => do
      match ← metaGet (blockMetaKey b) with
      | none => blockScanBlocksLoop plan rest out cache
      | some m =>
          match decodeBlockMeta m.value with
          | .error e => mThrow e
          | .ok meta => do
              let ids := List.range' meta.first_log_id meta.count
              match ← blockScanIdsLoop plan ids out cache with
              | .inr finished => pure finished
              | .inl (out, cache) => blockScanBlocksLoop plan rest out cache

/-- `query::executor::execute_block_scan`. -/
def executeBlockScan (plan : QueryPlan) (cache : PackCache) : M (List Log) :=
  blockScanBlocksLoop plan
    (natRangeIncl plan.clipped_from_block plan.clipped_to_block) [] cache

/-- One clause fetch of `execute_plan` (the `match kind` arm); `none` when
the filter slot is absent (the Rust `continue`). -/
def fetchClauseSet (plan : QueryPlan) : ClauseKind → M (Option (List Nat))
  | .address =>
      match plan.filter.address with
      | none => pure none
      | some clause => do
          pure (some (← fetchUnionLogLevel kindAddr (clauseValues clause)
            plan.from_log_id plan.to_log_id_inclusive))
  | .topic1 =>
      match plan.filter.topic1 with
      | none => pure none
      | some clause => do
          pure (some (← fetchUnionLogLevel kindTopic1 (clauseValues clause)
            plan.from_log_id plan.to_log_id_inclusive))
  | .topic2 =>
      match plan.filter.topic2 with
      | none => pure none
      | some clause => do
          pure (some (← fetchUnionLogLevel kindTopic2 (clauseValues clause)
            plan.from_log_id plan.to_log_id_inclusive))
  | .topic3 =>
      match plan.filter.topic3 with
      | none => pure none
      | some clause => do
          pure (some (← fetchUnionLogLevel kindTopic3 (clauseValues clause)
            plan.from_log_id plan.to_log_id_inclusive))
  | .topic0Log =>
      match plan.filter.topic0 with
      | none => pure none
      | some clause => do
          pure (some (← fetchUnionLogLevel kindTopic0Log (clauseValues clause)
            plan.from_log_id plan.to_log_id_inclusive))

/-- The ordered-clause loop of `execute_plan`. -/
def clauseSetsLoop (plan : QueryPlan) : List ClauseKind → List (List Nat) →
    M (List (List Nat))
  | [], sets => pure sets
  | kind :: rest, sets => do
      match ← fetchClauseSet plan kind with
      | none => clauseSetsLoop plan rest sets
      | some s => clauseSetsLoop plan rest (sets ++ [s])

/-- `query::executor::execute_plan`. -/
def executePlan (plan : QueryPlan) : M (List Log) := do
  let cache : PackCache := []
  if plan.force_block_scan then executeBlockScan plan cache
  else do
    let clauseSets ← clauseSetsLoop plan plan.clause_order []
    let candidates := intersectSets clauseSets plan.from_log_id plan.to_log_id_inclusive
    let topic0Blocks ←
      match plan.filter.topic0 with
      | some topicClause =>
          let values := clauseValues topicClause
          if values.isEmpty then pure none
          else do
            pure (some (← fetchUnionBlockLevel kindTopic0Block values
              plan.clipped_from_block plan.clipped_to_block))
      | none => pure none
    let out ← hydrateLoop plan topic0Blocks candidates [] cache
    pure (sortLogs out)

/-! ## Query engine (`query/engine.rs`) -/
/-- `QueryEngine::query_finalized`, with the engine's `max_or_terms` and
`broad_query_policy` taken from the `Config` (`QueryEngine::from_config`). -/
def queryFinalized (cfg : Config) (filter : LogFilter) (options : QueryOptions) :
    M (List Log) := do
  if shouldErrorTooBroad filter cfg.planner_max_or_terms cfg.planner_broad_query_policy then
    mThrow (.queryTooBroad filter.maxOrTerms cfg.planner_max_or_terms)
  else do
    let state ←
      match ← metaGet metaStateKey with
      | none => pure none
      | some r =>
          match decodeMetaState r.value with
          | .error e => mThrow e
          | .ok s => pure (some s)
    match state with
    | none => pure []
    | some state => do
      let finalizedHead := state.indexed_finalized_head
      if filter.block_hash.isSome ∧ (filter.from_block.isSome ∨ filter.to_block.isSome) then
        mThrow (.invalidParams "blockHash cannot be combined with fromBlock/toBlock")
      else
        match filter.block_hash with
        | some blockHash => do
            let num ←
              match ← metaGet (blockHashToNumKey blockHash) with
              | none => mThrow .notFound
              | some r =>
                  match decodeU64 r.value with
                  | .error e => mThrow e
                  | .ok n => pure n
            let meta ←
              match ← metaGet (blockMetaKey num) with
              | none => mThrow .notFound
              | some r =>
                  match decodeBlockMeta r.value with
                  | .error e => mThrow e
                  | .ok m => pure m
            if meta.block_hash ≠ blockHash then mThrow .notFound
            else
              let filter' := { filter with from_block := some num, to_block := some num }
              executePlan {
                filter := filter'
                options := options
                clipped_from_block := num
                clipped_to_block := num
                from_log_id := meta.first_log_id
                to_log_id_inclusive := meta.first_log_id + (meta.count - 1)
                clause_order := []
                force_block_scan := false }
        | none => do
            let fromB := filter.from_block.getD 0
            let toB := filter.to_block.getD finalizedHead
            if fromB > finalizedHead then pure []
            else
              let clippedFrom := fromB
              let clippedTo := min toB finalizedHead
              if clippedFrom > clippedTo then pure []
              else do
                let fromMeta? ←
                  match ← metaGet (blockMetaKey clippedFrom) with
                  | none => pure none
                  | some r =>
                      match decodeBlockMeta r.value with
                      | .error e => mThrow e
                      | .ok m => pure (some m)
                match fromMeta? with
                | none => pure []
                | some fromMeta => do
                  let toMeta? ←
                    match ← metaGet (blockMetaKey clippedTo) with
                    | none => pure none
                    | some r =>
                        match decodeBlockMeta r.value with
                        | .error e => mThrow e
                        | .ok m => pure (some m)
                  match toMeta? with
                  | none => pure []
                  | some toMeta => do
                    let fromLogId := fromMeta.first_log_id
                    let toLogIdIncl := toMeta.first_log_id + (toMeta.count - 1)
                    if fromLogId > toLogIdIncl then pure []
                    else do
                      let force := shouldForceBlockScan filter cfg.planner_max_or_terms
                        cfg.planner_broad_query_policy
                      let clauseOrder ←
                        if force then pure []
                        else buildClauseOrder filter fromLogId toLogIdIncl
                      executePlan {
                        filter := filter
                        options := options
                        clipped_from_block := clippedFrom
                        clipped_to_block := clippedTo
                        from_log_id := fromLogId
                        to_log_id_inclusive := toLogIdIncl
                        clause_order := clauseOrder
                        force_block_scan := force }

/-! ## GC worker (`gc/worker.rs`) -/
/-- `stream_id_from_manifest_key`. -/
def streamIdFromManifestKey (key : List Nat) : List Nat :=
  if manifestsNs.isPrefixOf key then key.drop manifestsNs.length else []

/-- `stream_id_from_tail_key`. -/
def streamIdFromTailKey (key : List Nat) : List Nat :=
  if tailsNs.isPrefixOf key then key.drop tailsNs.length else []

/-- The manifest-scan loop of `GcWorker::run_once`: collects referenced
chunk-blob keys and live stream ids. -/
def gcManifestLoop : List (List Nat) → List (List Nat) → List (List Nat) →
    M (List (List Nat) × List (List Nat))
  | [], refd, streams => pure (refd, streams)
  | mk :: rest, refd, streams => do
      match ← metaGet mk with
      | none => gcManifestLoop rest refd streams
      | some r =>
          match decodeManifest r.value with
          | .error e => mThrow e
          | .ok m =>
              let sid := streamIdFromManifestKey mk
              let streams := (keySetInsert sid streams).1
              let refd := m.chunk_refs.foldl
                (fun acc c => (keySetInsert (chunkBlobKey sid c.chunk_seq) acc).1) refd
              gcManifestLoop rest refd streams

/-- The orphan-chunk loop of `GcWorker::run_once`. -/
def gcChunkLoop (refd : List (List Nat)) : List (List Nat) → GcStats → M GcStats
  | [], stats => pure stats
  | ck :: rest, stats => do
      if ck ∈ refd then gcChunkLoop refd rest stats
      else do
        let sizeAdd ←
          match ← blobGet ck with
          | some blob => pure blob.length
          | none => pure 0
        blobDelete ck
        gcChunkLoop refd rest
          { stats with
              orphan_chunk_bytes := u64SatAdd stats.orphan_chunk_bytes sizeAdd
              deleted_orphan_chunks := u64SatAdd stats.deleted_orphan_chunks 1 }

/-- The stale-tail loop of `GcWorker::run_once` (deletes under the
`u64::MAX` fence). -/
def gcTailLoop (streams : List (List Nat)) : List (List Nat) → GcStats → M GcStats
  | [], stats => pure stats
  | tk :: rest, stats => do
      let sid := streamIdFromTailKey tk
      if sid ∈ streams then gcTailLoop streams rest stats
      else do
        metaDelete tk .any usizeMax
        gcTailLoop streams rest
          { stats with deleted_stale_tails := u64SatAdd stats.deleted_stale_tails 1 }

/-- `GcWorker::run_once`. -/
def runGcOnce (cfg : Config) : M GcStats := do
  let manifestPage ← metaList manifestsNs none usizeMax
  let tailPage ← metaList tailsNs none usizeMax
  let (refd, streams) ← gcManifestLoop manifestPage.keys [] []
  let blobPage ← blobList chunksNs none usizeMax
  let stats ← gcChunkLoop refd blobPage.keys {}
  let stats ← gcTailLoop streams tailPage.keys stats
  let stats := { stats with
    stale_tail_keys := stats.deleted_stale_tails
    orphan_manifest_segments := 0 }
  pure { stats with
    exceeded_guardrail :=
      stats.orphan_chunk_bytes > cfg.max_orphan_chunk_bytes ∨
      stats.orphan_manifest_segments > cfg.max_orphan_manifest_segments ∨
      stats.stale_tail_keys > cfg.max_stale_tail_keys }

/-- The per-key loop of `prune_block_hash_index_below`. -/
def pruneLoop (minBlockNum fenceEpoch : Nat) : List (List Nat) → Nat → M Nat
  | [], removed => pure removed
  | key :: rest, removed => do
      match ← metaGet key with
      | none => pruneLoop minBlockNum fenceEpoch rest removed
      | some r =>
          match decodeU64 r.value with
          | .error e => mThrow e
          | .ok num =>
              if num < minBlockNum then do
                metaDelete key .any fenceEpoch
                pruneLoop minBlockNum fenceEpoch rest (u64SatAdd removed 1)
              else pruneLoop minBlockNum fenceEpoch rest removed

/-- `GcWorker::prune_block_hash_index_below`. -/
def pruneBlockHashIndexBelow (minBlockNum fenceEpoch : Nat) : M Nat := do
  let page ← metaList blockHashNs none usizeMax
  pruneLoop minBlockNum fenceEpoch page.keys 0

/-! ## Monad run lemmas -/
instance {ε α : Type} [DecidableEq ε] [DecidableEq α] : DecidableEq (Except ε α) :=
  fun x y =>
    match x, y with
    | .ok a, .ok b => decidable_of_iff (a = b) (by simp)
    | .error a, .error b => decidable_of_iff (a = b) (by simp)
    | .ok _, .error _ => isFalse (by simp)
    | .error _, .ok _ => isFalse (by simp)

/-- A concrete sealed chunk used by the corruption witnesses. -/
def sampleChunk : ChunkBlob :=
  { min_local := 2, max_local := 1000, count := 2, crc32 := 0, bitmap := [2, 1000] }

/-! ## C5: seal behaviour of `apply_stream_appends` -/
/-- The manifest produced by a seal at time `now` from manifest `m` and
sealed tail `tail`. -/
@[reducible] def sealedManifest (m : Manifest) (tail : List Nat) (now : Nat) : Manifest :=
  { m with
      last_chunk_seq := m.last_chunk_seq + 1
      approx_count := m.approx_count + tail.length % 2 ^ 32
      last_seal_unix_sec := now
      chunk_refs := m.chunk_refs ++
        [{ chunk_seq := m.last_chunk_seq + 1, min_local := (tail.head?).getD 0,
           max_local := (tail.getLast?).getD 0, count := tail.length % 2 ^ 32 }] }

/-- The chunk blob sealed from `tail`. -/
@[reducible] def sealedChunk (tail : List Nat) : ChunkBlob :=
  { min_local := (tail.head?).getD 0, max_local := (tail.getLast?).getD 0,
    count := tail.length % 2 ^ 32, crc32 := 0, bitmap := tail }

/-- A concrete stream id (`addr` stream of address `[1; 20]`, shard 0). -/
def sampleSid : List Nat := streamId kindAddr (List.replicate 20 1) 0

/-! ## GC infrastructure (C9) -/
/-- Keys of an association list. -/
def keysOf (l : List (List Nat × α)) : List (List Nat) := l.map Prod.fst

/-- Store well-formedness used by the GC theorem: no duplicate keys (the
`BTreeMap`/`HashMap` backing guarantees this), store sizes below
`usize::MAX` (they are in-memory maps), and a `min_epoch` representable as
`u64`. -/
@[reducible] def WFSt (st : St) : Prop :=
  (keysOf st.meta).Nodup ∧ (keysOf st.blobs).Nodup ∧
  st.meta.length < usizeMax ∧ st.blobs.length < usizeMax ∧ st.minEpoch ≤ usizeMax

/-- The claim's notion "chunk blob referenced by a `ChunkRef` of a manifest
present in the metadata store": some manifest record whose key carries the
`manifests/` namespace decodes to a manifest one of whose chunk refs names
this blob key. -/
def chunkRefdB (st : St) (ck : List Nat) : Bool :=
  st.meta.any (fun kv =>
    manifestsNs.isPrefixOf kv.1 &&
      (match decodeManifest kv.2.value with
       | .ok m => m.chunk_refs.any (fun c =>
           decide (ck = chunkBlobKey (streamIdFromManifestKey kv.1) c.chunk_seq))
       | .error _ => false))

/-- The claim's notion "stream that has a manifest record": some metadata
key with the `manifests/` namespace strips to this stream id. -/
def streamManifestB (st : St) (sid : List Nat) : Bool :=
  st.meta.any (fun kv =>
    manifestsNs.isPrefixOf kv.1 && decide (streamIdFromManifestKey kv.1 = sid))

/-- Chunk-blob keys referenced through one of the scanned manifest keys
`ks` (the set `gcManifestLoop` accumulates). -/
def refBy (st : St) (ks : List (List Nat)) (x : List Nat) : Prop :=
  ∃ k ∈ ks, ∃ r, assocFind k st.meta = some r ∧
    ∃ m, decodeManifest r.value = .ok m ∧
      ∃ c ∈ m.chunk_refs, x = chunkBlobKey (streamIdFromManifestKey k) c.chunk_seq

/-- Stream ids of decodable manifests among the scanned manifest keys `ks`. -/
def streamBy (st : St) (ks : List (List Nat)) (sid : List Nat) : Prop :=
  ∃ k ∈ ks, (∃ r, assocFind k st.meta = some r ∧ ∃ m, decodeManifest r.value = .ok m) ∧
    sid = streamIdFromManifestKey k

/-- Concrete store for the C9 witness: a manifest for stream `[115]`
referencing chunk 1, the referenced chunk blob plus an orphan blob, a tail
for the live stream and a stale tail for stream `[116]`. -/
def gcSampleSt : St :=
  { meta := [ (manifestKey [115],
                ⟨encodeManifest { version := 1,
                                  last_chunk_seq := 1,
                                  chunk_refs := [⟨1, 0, 5, 1⟩],
                                  approx_count := 1 }, 1⟩),
              (tailKey [115], ⟨encodeTail [3], 1⟩),
              (tailKey [116], ⟨encodeTail [4], 1⟩) ],
    blobs := [ (chunkBlobKey [115] 1, [0]),
               (chunkBlobKey [116] 9, [1]) ],
    minEpoch := 0,
    trace := [] }

/-- The S1 scenario blocks of C2: block 1 and block 2, two logs each, with
the addresses and topics fixed by the claim. -/
def s1Block1 : Block :=
  { block_num := 1,
    block_hash := List.replicate 32 101,
    parent_hash := List.replicate 32 0,
    logs := [
      { address := List.replicate 20 1,
        topics := [List.replicate 32 10, List.replicate 32 20],
        data := [], block_num := 1, tx_idx := 0, log_idx := 0,
        block_hash := List.replicate 32 101 },
      { address := List.replicate 20 2,
        topics := [List.replicate 32 11, List.replicate 32 21],
        data := [], block_num := 1, tx_idx := 1, log_idx := 0,
        block_hash := List.replicate 32 101 } ] }

/-- Second S1 block. -/
def s1Block2 : Block :=
  { block_num := 2,
    block_hash := List.replicate 32 102,
    parent_hash := List.replicate 32 101,
    logs := [
      { address := List.replicate 20 1,
        topics := [List.replicate 32 10, List.replicate 32 22],
        data := [], block_num := 2, tx_idx := 0, log_idx := 0,
        block_hash := List.replicate 32 102 },
      { address := List.replicate 20 3,
        topics := [List.replicate 32 12, List.replicate 32 23],
        data := [], block_num := 2, tx_idx := 1, log_idx := 0,
        block_hash := List.replicate 32 102 } ] }

/-- The store after ingesting the two S1 blocks from the empty store. -/
def s1St : St :=
  (ingestFinalizedBlock Config.default s1Block2 1 0
    (ingestFinalizedBlock Config.default s1Block1 1 0 St.empty).1).1

/-- The S1 query filter `{from:1, to:2, addr:One([1;20]), topic0:One([10;32])}`. -/
def s1Filter : LogFilter :=
  { from_block := some 1, to_block := some 2, block_hash := none,
    address := some (.one (List.replicate 20 1)),
    topic0 := some (.one (List.replicate 32 10)),
    topic1 := none, topic2 := none, topic3 := none }

/-! ## Key-set preservation framework

`MPres Φ x` says the computation `x` preserves the predicate `Φ` of the
metadata association list.  Every writer below is shown to preserve any
`Φ` that is stable under inserting the keys that writer actually writes
(`InsOk`) and under removals (`DelOk`); the reachability invariants of the
claims are instances. -/
/-- Meta-list predicate preservation by a computation. -/
@[reducible] def MPres (Φ : List (List Nat × Rec) → Prop) (x : M α) : Prop :=
  ∀ st, Φ st.meta → Φ ((x st).1.meta)

/-- `Φ` is stable under inserting key `k` (any value, any version). -/
def InsOk (Φ : List (List Nat × Rec) → Prop) (k : List Nat) : Prop :=
  ∀ l r, Φ l → Φ (assocInsert k r l)

/-- `Φ` is stable under removing any key. -/
def DelOk (Φ : List (List Nat × Rec) → Prop) : Prop :=
  ∀ l k, Φ l → Φ (assocRemove k l)

/-! ## Reachable stores: no `log_locator/` record is ever written -/
/-- One writer operation of the crate's public surface. -/
inductive Op where
  | ingest (cfg : Config) (block : Block) (epoch now : Nat)
  | maintenance (cfg : Config) (epoch now : Nat)
  | gc (cfg : Config)
  | prune (minBlockNum fenceEpoch : Nat)

/-- Run one operation, keeping the state it leaves behind (also on an
error: the stores are durable). -/
def Op.run : Op → St → St
  | .ingest cfg b e n, st => (ingestFinalizedBlock cfg b e n st).1
  | .maintenance cfg e n, st => (runPeriodicMaintenance cfg e n st).1
  | .gc cfg, st => (runGcOnce cfg st).1
  | .prune m f, st => (pruneBlockHashIndexBelow m f st).1

/-- The store after a sequence of operations from the empty stores. -/
def replay (ops : List Op) : St := ops.foldl (fun st op => op.run st) St.empty

/-- No metadata key carries the `log_locator/` namespace. -/
def NoLocMeta (l : List (List Nat × Rec)) : Prop :=
  ∀ k ∈ keysOf l, logLocatorNs.isPrefixOf k = false

/-! ## The query path is read-only -/
/-- The computation leaves the store untouched. -/
@[reducible] def RdOnly (x : M α) : Prop := ∀ st, (x st).1 = st

/-- Filter with no clauses, used to instantiate the refinement theorem. -/
def c1Filter : LogFilter :=
  { from_block := some 1, to_block := some 2, block_hash := none,
    address := none, topic0 := none, topic1 := none, topic2 := none,
    topic3 := none }

/-- A concrete plan over `c1Filter` for the refinement witness. -/
def c1Plan : QueryPlan :=
  { filter := c1Filter, options := {}, clipped_from_block := 1,
    clipped_to_block := 1, from_log_id := 0, to_log_id_inclusive := 0,
    clause_order := [], force_block_scan := false }

/-! ## C10: every tail record has a manifest record -/
/-- A stream with a `tails/<sid>` record also has a `manifests/<sid>`
record. -/
def TailImp (l : List (List Nat × Rec)) : Prop :=
  ∀ sid, (assocFind (tailKey sid) l).isSome = true →
    (assocFind (manifestKey sid) l).isSome = true

/-- Executable form of `TailImp` over the key list. -/
def tailImpB (l : List (List Nat × Rec)) : Bool :=
  (l.map Prod.fst).all fun k =>
    !(tailsNs.isPrefixOf k) ||
      (assocFind (manifestKey (k.drop tailsNs.length)) l).isSome

/-- The frame predicate of C6: the topic0 mode and stats records of `X` keep
fixed values. -/
def T0Frame (X : List Nat) (ms ss : Option Rec)
    (l : List (List Nat × Rec)) : Prop :=
  assocFind (topic0ModeKey X) l = ms ∧ assocFind (topic0StatsKey X) l = ss

/-- The signature that occurs only in block 1 in the C6 scenario. -/
def c6X : List Nat := List.replicate 32 10

/-- A later block of the C6 scenario: its only log carries a different
topic0 signature. -/
def c6Block : Block :=
  { block_num := 2,
    block_hash := List.replicate 32 102,
    parent_hash := List.replicate 32 101,
    logs := [
      { address := List.replicate 20 1,
        topics := [List.replicate 32 11],
        data := [], block_num := 2, tx_idx := 0, log_idx := 0,
        block_hash := List.replicate 32 102 } ] }

/-- The concrete block of the C4 witness: block 1 with no logs, zero parent
hash, ingested into the empty store. -/
def c4Block : Block :=
  { block_num := 1, block_hash := List.replicate 32 77,
    parent_hash := List.replicate 32 0, logs := [] }

theorem beBytes_length (w v : Nat) : (beBytes w v).length = w := by
  induction w generalizing v with
  | zero => simp [beBytes]
  | succ n ih => simp [beBytes, ih]

theorem leBytes_length (w v : Nat) : (leBytes w v).length = w := by
  induction w generalizing v with
  | zero => simp [leBytes]
  | succ n ih => simp [leBytes, ih]

theorem beVal_append (xs ys : List Nat) :
    beVal (xs ++ ys) = beVal xs * 256 ^ ys.length + beVal ys := by
  induction ys using List.reverseRecOn with
  | nil => simp [beVal]
  | append_singleton l a ih =>
      simp only [beVal, List.foldl_append, List.foldl_cons, List.foldl_nil] at *
      rw [ih]
      simp only [List.length_append, List.length_singleton, pow_succ, pow_one]
      ring

theorem beVal_beBytes (w v : Nat) : beVal (beBytes w v) = v % 256 ^ w := by
  induction w generalizing v with
  | zero => simp [beBytes, beVal, Nat.mod_one]
  | succ n ih =>
      rw [beBytes, beVal_append, ih]
      simp only [beVal, List.foldl_cons, List.foldl_nil, List.length_cons,
        List.length_nil, pow_one, zero_add, zero_mul]
      conv_rhs => rw [pow_succ', Nat.mod_mul]
      ring_nf

theorem leVal_leBytes (w v : Nat) : leVal (leBytes w v) = v % 256 ^ w := by
  induction w generalizing v with
  | zero => simp [leBytes, leVal, Nat.mod_one]
  | succ n ih =>
      simp only [leBytes, leVal, List.foldr_cons] at *
      rw [ih]
      conv_rhs => rw [pow_succ']
      rw [Nat.mod_mul]
      ring_nf

theorem beBytes_lt (w v : Nat) : ∀ b ∈ beBytes w v, b < 256 := by
  induction w generalizing v with
  | zero => simp [beBytes]
  | succ n ih =>
      intro b hb
      simp only [beBytes, List.mem_append, List.mem_singleton] at hb
      rcases hb with h | h
      · exact ih _ _ h
      · subst h; exact Nat.mod_lt _ (by norm_num)

theorem leBytes_lt (w v : Nat) : ∀ b ∈ leBytes w v, b < 256 := by
  induction w generalizing v with
  | zero => simp [leBytes]
  | succ n ih =>
      intro b hb
      simp only [leBytes, List.mem_cons] at hb
      rcases hb with h | h
      · subst h; exact Nat.mod_lt _ (by norm_num)
      · exact ih _ _ h

theorem M_bind_run (x : M α) (f : α → M β) (st : St) :
    (x >>= f) st = match x st with
      | (st', .ok a) => f a st'
      | (st', .error e) => (st', .error e) := rfl

theorem M_pure_run (a : α) (st : St) : (pure a : M α) st = (st, .ok a) := rfl

theorem M_pure_bind (a : α) (f : α → M β) : ((pure a : M α) >>= f) = f a := rfl

theorem M_throw_run (e : Err) (st : St) : (mThrow e : M α) st = (st, .error e) := rfl

theorem metaGet_run (k : List Nat) (st : St) :
    metaGet k st = (st, .ok (assocFind k st.meta)) := rfl

theorem M_bind_ok {α β : Type} {x : M α} {f : α → M β} {st st₁ : St} {a : α}
    (hx : x st = (st₁, .ok a)) : (x >>= f) st = f a st₁ := by
  rw [M_bind_run, hx]

theorem M_bind_err {α β : Type} {x : M α} {f : α → M β} {st st₁ : St} {e : Err}
    (hx : x st = (st₁, .error e)) : (x >>= f) st = (st₁, .error e) := by
  rw [M_bind_run, hx]

/-! ## Claim theorems -/
/-- **C7.** For every key, value, put condition and fence epoch `e`: if `e`
is below the metadata store's `min_epoch`, `put` returns the `LeaseLost`
error and the store (all record contents and versions, and the blob store)
is completely unchanged; the same holds for `delete` with any delete
condition. -/
theorem fencing_rejects_stale_epoch (st : St) (k v : List Nat) (cond : PutCond)
    (dcond : DelCond) (e : Nat) (h : e < st.minEpoch) :
    metaPut k v cond e st = (st, .error .leaseLost) ∧
    metaDelete k dcond e st = (st, .error .leaseLost) := by
  constructor
  · simp [metaPut, h]
  · simp [metaDelete, h]

/-- Witness for C7: a concrete store with `min_epoch = 5` rejects a put and
a delete at fence epoch 3, leaving the store untouched. -/
theorem fencing_rejects_stale_epoch_witness :
    metaPut [7] [1, 2] .any 3 { St.empty with minEpoch := 5 } =
      ({ St.empty with minEpoch := 5 }, .error .leaseLost) ∧
    metaDelete [7] .any 3 { St.empty with minEpoch := 5 } =
      ({ St.empty with minEpoch := 5 }, .error .leaseLost) :=
  fencing_rejects_stale_epoch { St.empty with minEpoch := 5 } [7] [1, 2] .any .any 3
    (by norm_num)

/-- **C8, counterexample.**  The stored tail for the bitmap `{10}` is the
19-byte value `encodeTail [10]`; flipping its byte at index 17 (the low byte
of the stored value `10`) yields a different byte string that decodes
*successfully* — to the bitmap `{11}` — instead of returning a `Decode`
error: tail payloads carry no checksum. -/
theorem tail_corruption_can_decode :
    (encodeTail [10]).set 17 11 ≠ encodeTail [10] ∧
    decodeTail ((encodeTail [10]).set 17 11) = .ok [11] := by decide

/-- Expansion of an encoded chunk into its 17-byte framing header and
payload. -/
theorem encodeChunk_split (c : ChunkBlob) :
    encodeChunk c =
      (1 :: beBytes 4 c.min_local ++ beBytes 4 c.max_local ++ beBytes 4 c.count ++
        beBytes 4 (crc32Like (rsSerialize c.bitmap))) ++ rsSerialize c.bitmap := by
  simp [encodeChunk]

theorem crc32Like_lt (bs : List Nat) : crc32Like bs < 2 ^ 32 := by
  unfold crc32Like
  exact Nat.mod_lt _ (by norm_num)

theorem beVal_beBytes_four (v : Nat) (h : v < 2 ^ 32) : beVal (beBytes 4 v) = v := by
  rw [beVal_beBytes]
  exact Nat.mod_eq_of_lt (by norm_num at h ⊢; omega)

/-- **C8, amended.**  Corruption detection holds exactly where a version
byte or checksum protects the bytes: (a) changing the leading version byte
of a stored chunk blob to any other value makes `decode_chunk` return a
`Decode` error; (b) likewise for the version byte of a stored tail and
`decode_tail`; (c) changing a byte of the chunk's bitmap payload makes
`decode_chunk` return the `Decode` checksum-mismatch error whenever the
32-bit checksum of the mutated payload differs from the stored checksum.
Tail payload bytes carry no checksum at all, and the chunk header fields
(`min_local`, `max_local`, `count`) are not checksummed; mutating those can
decode successfully (see the counterexample). -/
theorem corruption_detection_amended (c : ChunkBlob) (bm : List Nat) (b : Nat)
    (hb : b ≠ 1) (i b' : Nat)
    (hcrc : crc32Like ((rsSerialize c.bitmap).set i b') ≠ crc32Like (rsSerialize c.bitmap)) :
    decodeChunk ((encodeChunk c).set 0 b) = .error (.decode "unsupported chunk version") ∧
    decodeTail ((encodeTail bm).set 0 b) = .error (.decode "unsupported tail version") ∧
    decodeChunk ((encodeChunk c).set (17 + i) b') =
      .error (.decode "chunk checksum mismatch") := by
  refine ⟨?_, ?_, ?_⟩
  · rw [encodeChunk_split c, List.set_append_left _ _ (by simp)]
    simp only [List.cons_append, List.set_cons_zero]
    rw [decodeChunk]
    rw [if_neg (by simp [beBytes_length]; omega), if_pos (by simpa using hb)]
  · simp only [encodeTail, List.set_cons_zero, decodeTail]
    rw [if_pos (by simpa using hb)]
  · rw [encodeChunk_split c,
      List.set_append_right _ _ (by simp [beBytes_length])]
    have hidx : 17 + i - (1 :: beBytes 4 c.min_local ++ beBytes 4 c.max_local ++
        beBytes 4 c.count ++ beBytes 4 (crc32Like (rsSerialize c.bitmap))).length = i := by
      simp [beBytes_length]
    rw [hidx, decodeChunk]
    rw [if_neg (by simp [beBytes_length]; omega), if_neg (by simp)]
    have hdrop : ((1 :: beBytes 4 c.min_local ++ beBytes 4 c.max_local ++
        beBytes 4 c.count ++ beBytes 4 (crc32Like (rsSerialize c.bitmap))) ++
        (rsSerialize c.bitmap).set i b').drop 17 = (rsSerialize c.bitmap).set i b' := by
      simp [List.drop_append_eq_append_drop, beBytes_length, List.drop_eq_nil_of_le]
    have hcrcb : (((1 :: beBytes 4 c.min_local ++ beBytes 4 c.max_local ++
        beBytes 4 c.count ++ beBytes 4 (crc32Like (rsSerialize c.bitmap))) ++
        (rsSerialize c.bitmap).set i b').drop 13).take 4 =
        beBytes 4 (crc32Like (rsSerialize c.bitmap)) := by
      simp [List.drop_append_eq_append_drop, List.take_append_eq_append_take, beBytes_length,
        List.drop_eq_nil_of_le, List.take_of_length_le]
    rw [if_pos]
    rw [hdrop, hcrcb, beVal_beBytes_four _ (crc32Like_lt _)]
    exact fun h => hcrc h.symm

/-- Witness for the amended C8 theorem: the chunk for bitmap `{2, 1000}`
with a version-byte mutation to `9`, a tail version-byte mutation, and a
payload mutation at index 0 whose checksum differs. -/
theorem corruption_detection_amended_witness :
    decodeChunk ((encodeChunk sampleChunk).set 0 9) =
      .error (.decode "unsupported chunk version") ∧
    decodeTail ((encodeTail [10]).set 0 9) = .error (.decode "unsupported tail version") ∧
    decodeChunk ((encodeChunk sampleChunk).set (17 + 0) 99) =
      .error (.decode "chunk checksum mismatch") :=
  corruption_detection_amended sampleChunk [10] 9 (by decide) 0 99 (by decide)

/-! ## Association-list and run lemmas -/
theorem keyLt_irrefl (k : List Nat) : keyLt k k = false := by
  induction k with
  | nil => simp [keyLt]
  | cons x xs ih => simp [keyLt, ih]

theorem assocFind_insert_self (k : List Nat) (v : α) (l : List (List Nat × α)) :
    assocFind k (assocInsert k v l) = some v := by
  induction l with
  | nil => simp [assocInsert, assocFind]
  | cons hd tl ih =>
      obtain ⟨k', v'⟩ := hd
      by_cases hlt : keyLt k k'
      · simp [assocInsert, hlt, assocFind]
      · by_cases heq : k = k'
        · subst heq
          simp [assocInsert, hlt, keyLt_irrefl, assocFind]
        · simp [assocInsert, hlt, heq, assocFind, ih]

theorem assocFind_insert_ne (k k' : List Nat) (v : α) (l : List (List Nat × α))
    (h : k ≠ k') : assocFind k (assocInsert k' v l) = assocFind k l := by
  induction l with
  | nil => simp [assocInsert, assocFind, h]
  | cons hd tl ih =>
      obtain ⟨k'', v''⟩ := hd
      by_cases hlt : keyLt k' k''
      · by_cases h2 : k = k''
        · subst h2
          simp [assocInsert, hlt, assocFind, h, Ne.symm h]
        · simp [assocInsert, hlt, assocFind, h, h2]
      · by_cases heq : k' = k''
        · subst heq
          simp [assocInsert, hlt, keyLt_irrefl, assocFind, h]
        · by_cases h2 : k = k''
          · simp [assocInsert, hlt, heq, assocFind, h2]
          · simp [assocInsert, hlt, heq, assocFind, h2, ih]

theorem assocFind_remove_ne (k k' : List Nat) (l : List (List Nat × α))
    (h : k ≠ k') : assocFind k (assocRemove k' l) = assocFind k l := by
  induction l with
  | nil => simp [assocRemove, assocFind]
  | cons hd tl ih =>
      obtain ⟨k'', v''⟩ := hd
      by_cases heq : k' = k''
      · subst heq
        simp [assocRemove, assocFind, h]
      · by_cases h2 : k = k''
        · simp [assocRemove, heq, assocFind, h2]
        · simp [assocRemove, heq, assocFind, h2, ih]

theorem loadManifest_run (sid : List Nat) (st : St) :
    loadManifest sid st =
      match assocFind (manifestKey sid) st.meta with
      | none => (st, .ok (({} : Manifest), none))
      | some r =>
          match decodeManifest r.value with
          | .ok m => (st, .ok (m, some r.version))
          | .error e => (st, .error e) := by
  cases h : assocFind (manifestKey sid) st.meta with
  | none => simp [loadManifest, M_bind_run, M_pure_run, metaGet_run, h]
  | some r =>
      cases hd : decodeManifest r.value with
      | ok m => simp [loadManifest, M_bind_run, M_pure_run, metaGet_run, h, hd]
      | error e => simp [loadManifest, M_bind_run, M_pure_run, metaGet_run, h, hd, mThrow]

theorem loadTail_run (sid : List Nat) (st : St) :
    loadTail sid st =
      match assocFind (tailKey sid) st.meta with
      | none => (st, .ok ([] : List Nat))
      | some r =>
          match decodeTail r.value with
          | .ok bm => (st, .ok bm)
          | .error e => (st, .error e) := by
  cases h : assocFind (tailKey sid) st.meta with
  | none => simp [loadTail, M_bind_run, M_pure_run, metaGet_run, h]
  | some r =>
      cases hd : decodeTail r.value with
      | ok m => simp [loadTail, M_bind_run, M_pure_run, metaGet_run, h, hd]
      | error e => simp [loadTail, M_bind_run, M_pure_run, metaGet_run, h, hd, mThrow]

theorem loadState_run (st : St) :
    loadState st =
      match assocFind metaStateKey st.meta with
      | none => (st, .ok (({} : MetaState), none))
      | some r =>
          match decodeMetaState r.value with
          | .ok s => (st, .ok (s, some r.version))
          | .error e => (st, .error e) := by
  cases h : assocFind metaStateKey st.meta with
  | none => simp [loadState, M_bind_run, M_pure_run, metaGet_run, h]
  | some r =>
      cases hd : decodeMetaState r.value with
      | ok m => simp [loadState, M_bind_run, M_pure_run, metaGet_run, h, hd]
      | error e => simp [loadState, M_bind_run, M_pure_run, metaGet_run, h, hd, mThrow]

theorem loadBlockMeta_run (b : Nat) (st : St) :
    loadBlockMeta b st =
      match assocFind (blockMetaKey b) st.meta with
      | none => (st, .error .notFound)
      | some r =>
          match decodeBlockMeta r.value with
          | .ok m => (st, .ok m)
          | .error e => (st, .error e) := by
  cases h : assocFind (blockMetaKey b) st.meta with
  | none => simp [loadBlockMeta, M_bind_run, M_pure_run, metaGet_run, h, mThrow]
  | some r =>
      cases hd : decodeBlockMeta r.value with
      | ok m => simp [loadBlockMeta, M_bind_run, M_pure_run, metaGet_run, h, hd]
      | error e => simp [loadBlockMeta, M_bind_run, M_pure_run, metaGet_run, h, hd, mThrow]

theorem loadManifest_fst (sid : List Nat) (st : St) : (loadManifest sid st).1 = st := by
  rw [loadManifest_run]
  rcases h1 : assocFind (manifestKey sid) st.meta with _ | r
  · rfl
  · rcases h2 : decodeManifest r.value with e | m <;> simp [h2]

theorem loadTail_fst (sid : List Nat) (st : St) : (loadTail sid st).1 = st := by
  rw [loadTail_run]
  rcases h1 : assocFind (tailKey sid) st.meta with _ | r
  · rfl
  · rcases h2 : decodeTail r.value with e | m <;> simp [h2]

theorem storeManifest_leaseLost (sid : List Nat) (m : Manifest) (v : Option Nat)
    (epoch : Nat) (st : St) (hf : epoch < st.minEpoch) :
    storeManifest sid m v epoch st = (st, .error .leaseLost) := by
  rcases v with _ | ver <;> simp [storeManifest, M_bind_run, metaPut, hf, mThrow]

theorem storeManifest_run_found (sid : List Nat) (m : Manifest) (r : Rec) (epoch : Nat)
    (st : St) (hfind : assocFind (manifestKey sid) st.meta = some r)
    (hf : ¬ epoch < st.minEpoch) :
    storeManifest sid m (some r.version) epoch st =
      ({ st with
          meta := assocInsert (manifestKey sid)
            ⟨encodeManifest m, r.version + 1⟩ st.meta
          trace := .mput (manifestKey sid) :: st.trace }, .ok ()) := by
  simp [storeManifest, M_bind_run, M_pure_run, metaPut, hf, hfind]

theorem storeManifest_run_absent (sid : List Nat) (m : Manifest) (epoch : Nat)
    (st : St) (hfind : assocFind (manifestKey sid) st.meta = none)
    (hf : ¬ epoch < st.minEpoch) :
    storeManifest sid m none epoch st =
      ({ st with
          meta := assocInsert (manifestKey sid) ⟨encodeManifest m, 1⟩ st.meta
          trace := .mput (manifestKey sid) :: st.trace }, .ok ()) := by
  simp [storeManifest, M_bind_run, M_pure_run, metaPut, hf, hfind]

theorem storeTail_run (sid tail : List Nat) (epoch : Nat) (st : St)
    (hf : ¬ epoch < st.minEpoch) :
    ∃ ver, storeTail sid tail epoch st =
      ({ st with
          meta := assocInsert (tailKey sid) ⟨encodeTail tail, ver⟩ st.meta
          trace := .mput (tailKey sid) :: st.trace }, .ok ()) := by
  rcases hfind : assocFind (tailKey sid) st.meta with _ | r
  · exact ⟨1, by simp [storeTail, M_bind_run, M_pure_run, metaPut, hf, hfind]⟩
  · exact ⟨r.version + 1,
      by simp [storeTail, M_bind_run, M_pure_run, metaPut, hf, hfind]⟩

theorem blobPut_run (k v : List Nat) (st : St) :
    blobPut k v st =
      ({ st with blobs := assocInsert k v st.blobs, trace := .bput k :: st.trace },
       .ok ()) := rfl

/-- `should_seal` is the ordered disjunction of the three triggers on a
non-empty tail, with the time trigger guarded by `last_seal_unix_sec > 0`. -/
theorem shouldSeal_iff (cfg : Config) (tail : List Nat) (lastSeal now : Nat) :
    shouldSeal cfg tail lastSeal now = true ↔
      tail ≠ [] ∧
        (tail.length ≥ cfg.target_entries_per_chunk ∨
         (encodeTail tail).length ≥ cfg.target_chunk_bytes ∨
         (lastSeal > 0 ∧ now - lastSeal ≥ cfg.maintenance_seal_seconds)) := by
  unfold shouldSeal
  split_ifs with h1 h2 h3 h4 <;>
    simp_all [List.isEmpty_iff]

/-- **C5, amended.**  For every stream, append batch, state and clock: when
`apply_stream_appends` completes with result `sealed`, the tail (the loaded
tail plus the batch) was sealed into a new chunk iff it is non-empty and one
of the triggers holds, evaluated in order: (1) `|tail| ≥
target_entries_per_chunk`; (2) serialized tail size ≥ `target_chunk_bytes`;
(3) `last_seal_unix_sec > 0` and `now − last_seal_unix_sec ≥
maintenance_seal_seconds` — the time trigger carries the `> 0` guard that
the claim as frozen omits (and, because the manifest codec does not persist
`last_seal_unix_sec`, a manifest loaded from the store always carries `0`
there, so the time trigger can never fire on a freshly loaded manifest).
On seal: the chunk gets `chunk_seq = last_chunk_seq + 1`, the chunk blob is
written strictly before the manifest CAS (witnessed by the write trace,
newest-first), the stored manifest appends exactly that chunk ref, and the
stored tail is reset to the empty bitmap. -/
theorem seal_behaviour (cfg : Config) (sid values : List Nat) (epoch now : Nat)
    (st st' : St) (sealed : Bool)
    (h : applyStreamAppends cfg sid values epoch now st = (st', .ok sealed)) :
    ∃ m mver t0,
      loadManifest sid st = (st, .ok (m, mver)) ∧
      loadTail sid st = (st, .ok t0) ∧
      (sealed = true ↔
        values.foldl (fun t v => bmInsert v t) t0 ≠ [] ∧
          ((values.foldl (fun t v => bmInsert v t) t0).length ≥
              cfg.target_entries_per_chunk ∨
           (encodeTail (values.foldl (fun t v => bmInsert v t) t0)).length ≥
              cfg.target_chunk_bytes ∨
           (m.last_seal_unix_sec > 0 ∧
              now - m.last_seal_unix_sec ≥ cfg.maintenance_seal_seconds))) ∧
      (sealed = true →
        (∃ ver, assocFind (tailKey sid) st'.meta = some ⟨encodeTail [], ver⟩) ∧
        (∃ ver, assocFind (manifestKey sid) st'.meta =
          some ⟨encodeManifest (sealedManifest m
            (values.foldl (fun t v => bmInsert v t) t0) now), ver⟩) ∧
        assocFind (chunkBlobKey sid (m.last_chunk_seq + 1)) st'.blobs =
          some (encodeChunk (sealedChunk (values.foldl (fun t v => bmInsert v t) t0))) ∧
        st'.trace = .mput (tailKey sid) :: .mput (manifestKey sid) ::
          .bput (chunkBlobKey sid (m.last_chunk_seq + 1)) :: st.trace) ∧
      (sealed = false →
        (∃ ver, assocFind (tailKey sid) st'.meta =
          some ⟨encodeTail (values.foldl (fun t v => bmInsert v t) t0), ver⟩) ∧
        st'.trace = .mput (tailKey sid) :: .mput (manifestKey sid) :: st.trace) := by
  have hkne : manifestKey sid ≠ tailKey sid := by
    simp [manifestKey, tailKey, manifestsNs, tailsNs]
  unfold applyStreamAppends at h
  rcases hL1 : loadManifest sid st with ⟨st1, r1⟩
  have hst1 : st1 = st := by
    have hf := loadManifest_fst sid st
    rw [hL1] at hf
    exact hf
  rw [hst1] at hL1
  rw [hst1]
  clear hst1
  cases r1 with
  | error e => rw [M_bind_err hL1] at h; simp at h
  | ok mv =>
    obtain ⟨manifest, mver⟩ := mv
    rw [M_bind_ok hL1] at h
    dsimp only at h
    rcases hL2 : loadTail sid st with ⟨st2, r2⟩
    have hst2 : st2 = st := by
      have hf := loadTail_fst sid st
      rw [hL2] at hf
      exact hf
    rw [hst2] at hL2
    rw [hst2]
    clear hst2
    cases r2 with
    | error e => rw [M_bind_err hL2] at h; simp at h
    | ok t0 =>
      rw [M_bind_ok hL2] at h
      refine ⟨manifest, mver, t0, rfl, rfl, ?_⟩
      set tl := values.foldl (fun t v => bmInsert v t) t0 with htl
      have hfind := loadManifest_run sid st
      rw [hL1] at hfind
      -- helper facts used by the store lemmas below
      rcases hs : shouldSeal cfg tl manifest.last_seal_unix_sec now with _ | _
      · -- no seal
        rw [if_neg (by simp [hs])] at h
        rw [M_bind_ok (M_pure_run _ _)] at h
        dsimp only at h
        by_cases hfence : epoch < st.minEpoch
        · rw [M_bind_err (storeManifest_leaseLost sid manifest mver epoch st hfence)] at h
          simp at h
        · have hput : ∃ verM, storeManifest sid manifest mver epoch st =
              ({ st with
                  meta := assocInsert (manifestKey sid)
                    ⟨encodeManifest manifest, verM⟩ st.meta
                  trace := .mput (manifestKey sid) :: st.trace }, .ok ()) := by
            rcases hm0 : assocFind (manifestKey sid) st.meta with _ | r0
            · rw [hm0] at hfind
              have hmv : manifest = ({} : Manifest) ∧ mver = none := by
                simpa using hfind
              rw [hmv.2]
              exact ⟨1, storeManifest_run_absent sid manifest epoch st hm0 hfence⟩
            · rw [hm0] at hfind
              have hfind2 : (st, Except.ok (manifest, mver)) =
                  match decodeManifest r0.value with
                  | .ok m => (st, Except.ok (m, some r0.version))
                  | .error e => ((st, Except.error e) : St × Except Err (Manifest × Option Nat)) :=
                hfind
              rcases hdec : decodeManifest r0.value with e | m0
              · rw [hdec] at hfind2
                simp at hfind2
              · rw [hdec] at hfind2
                have hmv : manifest = m0 ∧ mver = some r0.version := by
                  simpa using hfind2
                rw [hmv.2]
                exact ⟨r0.version + 1, storeManifest_run_found sid manifest r0 epoch st hm0 hfence⟩
          obtain ⟨verM, hput⟩ := hput
          rw [M_bind_ok hput] at h
          obtain ⟨verT, hT⟩ := storeTail_run sid tl epoch
            { meta := assocInsert (manifestKey sid) ⟨encodeManifest manifest, verM⟩ st.meta
              blobs := st.blobs, minEpoch := st.minEpoch
              trace := .mput (manifestKey sid) :: st.trace } (by simpa using hfence)
          rw [M_bind_ok hT] at h
          rw [M_pure_run] at h
          have hst' : st' = { st with
              meta := assocInsert (tailKey sid) ⟨encodeTail tl, verT⟩
                (assocInsert (manifestKey sid) ⟨encodeManifest manifest, verM⟩ st.meta)
              trace := .mput (tailKey sid) :: .mput (manifestKey sid) :: st.trace } := by
            have := congrArg Prod.fst h
            simpa using this.symm
          have hsealed : sealed = false := by
            have := congrArg Prod.snd h
            simpa using this.symm
          subst hsealed
          refine ⟨?_, by simp, ?_⟩
          · rw [← shouldSeal_iff cfg tl manifest.last_seal_unix_sec now, hs]
          · intro _
            refine ⟨⟨verT, ?_⟩, ?_⟩
            · rw [hst']
              simp [assocFind_insert_self]
            · rw [hst']
      · -- seal
        rw [if_pos (by simp [hs])] at h
        rw [M_bind_ok (blobPut_run _ _ _)] at h
        rw [M_bind_ok (M_pure_run _ _)] at h
        dsimp only at h
        by_cases hfence : epoch < st.minEpoch
        · rw [M_bind_err (storeManifest_leaseLost _ _ _ _ _ (by simpa using hfence))] at h
          simp at h
        · have hput : ∃ verM, storeManifest sid (sealedManifest manifest tl now) mver epoch
              { st with
                blobs := assocInsert (chunkBlobKey sid (manifest.last_chunk_seq + 1))
                  (encodeChunk (sealedChunk tl)) st.blobs
                trace := .bput (chunkBlobKey sid (manifest.last_chunk_seq + 1)) :: st.trace } =
              ({ st with
                  meta := assocInsert (manifestKey sid)
                    ⟨encodeManifest (sealedManifest manifest tl now), verM⟩ st.meta
                  blobs := assocInsert (chunkBlobKey sid (manifest.last_chunk_seq + 1))
                    (encodeChunk (sealedChunk tl)) st.blobs
                  trace := .mput (manifestKey sid) ::
                    .bput (chunkBlobKey sid (manifest.last_chunk_seq + 1)) :: st.trace },
               .ok ()) := by
            rcases hm0 : assocFind (manifestKey sid) st.meta with _ | r0
            · rw [hm0] at hfind
              have hmv : manifest = ({} : Manifest) ∧ mver = none := by
                simpa using hfind
              rw [hmv.2]
              exact ⟨1, storeManifest_run_absent sid _ epoch _ (by simpa using hm0)
                (by simpa using hfence)⟩
            · rw [hm0] at hfind
              have hfind2 : (st, Except.ok (manifest, mver)) =
                  match decodeManifest r0.value with
                  | .ok m => (st, Except.ok (m, some r0.version))
                  | .error e => ((st, Except.error e) : St × Except Err (Manifest × Option Nat)) :=
                hfind
              rcases hdec : decodeManifest r0.value with e | m0
              · rw [hdec] at hfind2
                simp at hfind2
              · rw [hdec] at hfind2
                have hmv : manifest = m0 ∧ mver = some r0.version := by
                  simpa using hfind2
                rw [hmv.2]
                exact ⟨r0.version + 1, storeManifest_run_found sid _ r0 epoch _
                  (by simpa using hm0) (by simpa using hfence)⟩
          obtain ⟨verM, hput⟩ := hput
          rw [M_bind_ok hput] at h
          obtain ⟨verT, hT⟩ := storeTail_run sid [] epoch
            { meta := assocInsert (manifestKey sid)
                ⟨encodeManifest (sealedManifest manifest tl now), verM⟩ st.meta
              blobs := assocInsert (chunkBlobKey sid (manifest.last_chunk_seq + 1))
                (encodeChunk (sealedChunk tl)) st.blobs
              minEpoch := st.minEpoch
              trace := .mput (manifestKey sid) ::
                .bput (chunkBlobKey sid (manifest.last_chunk_seq + 1)) :: st.trace }
            (by simpa using hfence)
          rw [M_bind_ok hT] at h
          rw [M_pure_run] at h
          have hst' : st' = { st with
              meta := assocInsert (tailKey sid) ⟨encodeTail [], verT⟩
                (assocInsert (manifestKey sid)
                  ⟨encodeManifest (sealedManifest manifest tl now), verM⟩ st.meta)
              blobs := assocInsert (chunkBlobKey sid (manifest.last_chunk_seq + 1))
                (encodeChunk (sealedChunk tl)) st.blobs
              trace := .mput (tailKey sid) :: .mput (manifestKey sid) ::
                .bput (chunkBlobKey sid (manifest.last_chunk_seq + 1)) :: st.trace } := by
            have := congrArg Prod.fst h
            simpa using this.symm
          have hsealed : sealed = true := by
            have := congrArg Prod.snd h
            simpa using this.symm
          subst hsealed
          refine ⟨?_, ?_, by simp⟩
          · rw [← shouldSeal_iff cfg tl manifest.last_seal_unix_sec now, hs]
          · intro _
            refine ⟨⟨verT, ?_⟩, ⟨verM, ?_⟩, ?_, ?_⟩
            · rw [hst']
              simp [assocFind_insert_self]
            · rw [hst']
              simp only
              rw [assocFind_insert_ne _ _ _ _ (Ne.symm hkne).symm]
              simp [assocFind_insert_self]
            · rw [hst']
              simp [assocFind_insert_self]
            · rw [hst']

/-- **C5, counterexample.**  With the default config
(`maintenance_seal_seconds = 600`), an empty store (so the loaded manifest
has `last_seal_unix_sec = 0`), the append batch `[5]` and `now = 1000`: the
tail after the append is the non-empty `[5]`, the entry and byte triggers
are both below their thresholds, and the claim's unguarded time trigger
`now − last_seal_unix_sec = 1000 ≥ 600` holds — yet the engine does not
seal (`last_seal_unix_sec > 0` fails), returning `sealed = false`. -/
theorem seal_time_trigger_counterexample :
    (applyStreamAppends Config.default sampleSid [5] 1 1000 St.empty).2 = .ok false ∧
    ([5] : List Nat) ≠ [] ∧
    1000 - 0 ≥ Config.default.maintenance_seal_seconds ∧
    ¬ ([5] : List Nat).length ≥ Config.default.target_entries_per_chunk ∧
    ¬ (encodeTail [5]).length ≥ Config.default.target_chunk_bytes := by
  refine ⟨by decide, by decide, by decide, by decide, by decide⟩

/-- Witness for the amended C5 theorem at the same concrete input. -/
theorem seal_behaviour_witness :
    ∃ m mver t0,
      loadManifest sampleSid St.empty = (St.empty, .ok (m, mver)) ∧
      loadTail sampleSid St.empty = (St.empty, .ok t0) ∧
      (false = true ↔
        [5].foldl (fun t v => bmInsert v t) t0 ≠ [] ∧
          (([5].foldl (fun t v => bmInsert v t) t0).length ≥
              Config.default.target_entries_per_chunk ∨
           (encodeTail ([5].foldl (fun t v => bmInsert v t) t0)).length ≥
              Config.default.target_chunk_bytes ∨
           (m.last_seal_unix_sec > 0 ∧
              1000 - m.last_seal_unix_sec ≥ Config.default.maintenance_seal_seconds))) ∧
      (false = true →
        (∃ ver, assocFind (tailKey sampleSid)
          (applyStreamAppends Config.default sampleSid [5] 1 1000 St.empty).1.meta =
            some ⟨encodeTail [], ver⟩) ∧
        (∃ ver, assocFind (manifestKey sampleSid)
          (applyStreamAppends Config.default sampleSid [5] 1 1000 St.empty).1.meta =
          some ⟨encodeManifest (sealedManifest m
            ([5].foldl (fun t v => bmInsert v t) t0) 1000), ver⟩) ∧
        assocFind (chunkBlobKey sampleSid (m.last_chunk_seq + 1))
            (applyStreamAppends Config.default sampleSid [5] 1 1000 St.empty).1.blobs =
          some (encodeChunk (sealedChunk ([5].foldl (fun t v => bmInsert v t) t0))) ∧
        (applyStreamAppends Config.default sampleSid [5] 1 1000 St.empty).1.trace =
          .mput (tailKey sampleSid) :: .mput (manifestKey sampleSid) ::
          .bput (chunkBlobKey sampleSid (m.last_chunk_seq + 1)) :: St.empty.trace) ∧
      (false = false →
        (∃ ver, assocFind (tailKey sampleSid)
          (applyStreamAppends Config.default sampleSid [5] 1 1000 St.empty).1.meta =
            some ⟨encodeTail ([5].foldl (fun t v => bmInsert v t) t0), ver⟩) ∧
        (applyStreamAppends Config.default sampleSid [5] 1 1000 St.empty).1.trace =
          .mput (tailKey sampleSid) :: .mput (manifestKey sampleSid) :: St.empty.trace) :=
  seal_behaviour Config.default sampleSid [5] 1 1000 St.empty
    (applyStreamAppends Config.default sampleSid [5] 1 1000 St.empty).1 false
    (by decide)

/-- **C3.**  For every state with head `h` (as loaded by the engine) and
every block `B`: `ingest_finalized_block` returns
`InvalidSequence{expected: h+1, got: B.block_num}` whenever
`B.block_num ≠ h+1`; and when `B.block_num = h+1` but `B.parent_hash`
differs from the expected parent (32 zero bytes when `h = 0`, else
`block_meta(h).block_hash`), it returns `InvalidParent`.  In both cases the
returned state is the input state: no record is written before the error is
returned. -/
theorem sequence_and_parent_validation (cfg : Config) (block : Block)
    (epoch now : Nat) (st : St) (s : MetaState) (ver : Option Nat)
    (hload : loadState st = (st, .ok (s, ver))) :
    (block.block_num ≠ s.indexed_finalized_head + 1 →
      ingestFinalizedBlock cfg block epoch now st =
        (st, .error (.invalidSequence (s.indexed_finalized_head + 1) block.block_num))) ∧
    (block.block_num = s.indexed_finalized_head + 1 →
      (s.indexed_finalized_head = 0 →
        block.parent_hash ≠ List.replicate 32 0 →
        ingestFinalizedBlock cfg block epoch now st = (st, .error .invalidParent)) ∧
      (∀ bm, s.indexed_finalized_head ≠ 0 →
        loadBlockMeta s.indexed_finalized_head st = (st, .ok bm) →
        block.parent_hash ≠ bm.block_hash →
        ingestFinalizedBlock cfg block epoch now st = (st, .error .invalidParent))) := by
  constructor
  · intro hneq
    unfold ingestFinalizedBlock
    rw [M_bind_ok hload]
    dsimp only
    rw [if_pos hneq]
    rfl
  · intro heq
    constructor
    · intro hzero hpar
      unfold ingestFinalizedBlock
      rw [M_bind_ok hload]
      dsimp only
      rw [if_neg (by simpa using heq), if_pos (by omega), if_pos hzero]
      rw [M_bind_ok (M_pure_run _ _)]
      rw [if_pos hpar]
      exact M_bind_err (M_throw_run _ _)
    · intro bm hnz hbm hpar
      unfold ingestFinalizedBlock
      rw [M_bind_ok hload]
      dsimp only
      rw [if_neg (by simpa using heq), if_pos (by omega), if_neg hnz]
      rw [M_bind_ok hbm]
      rw [M_bind_ok (M_pure_run _ _)]
      rw [if_pos hpar]
      exact M_bind_err (M_throw_run _ _)

theorem keyLt_nil (k : List Nat) : keyLt k [] = false := by
  cases k <;> simp [keyLt]

theorem decide_prefix_eq (pfx k : List Nat) : decide (pfx <+: k) = pfx.isPrefixOf k := by
  by_cases h : pfx <+: k
  · simp [h, List.isPrefixOf_iff_prefix.mpr h]
  · have h2 : pfx.isPrefixOf k = false := by
      rw [← Bool.not_eq_true]
      exact fun hc => h (List.isPrefixOf_iff_prefix.mp hc)
    simp [h, h2]

theorem pageOf_none_max (keys : List (List Nat)) (pfx : List Nat)
    (h : keys.length < usizeMax) :
    pageOf keys pfx none usizeMax =
      ⟨keys.filter (fun k => pfx.isPrefixOf k), none⟩ := by
  unfold pageOf
  have hfilter : keys.filter (fun k => ¬ keyLt k ([] : List Nat) ∧ pfx.isPrefixOf k) =
      keys.filter (fun k => pfx.isPrefixOf k) := by
    apply List.filter_congr
    intro k _
    simp only [keyLt_nil, Bool.false_eq_true, not_false_iff, true_and]
    exact Bool.decide_coe _
  simp only [Option.getD_none, hfilter]
  rw [if_neg]
  intro ⟨_, hle⟩
  have : (keys.filter (fun k => pfx.isPrefixOf k)).length ≤ keys.length :=
    List.length_filter_le _ _
  omega

theorem assocFind_eq_none (k : List Nat) (l : List (List Nat × α)) :
    assocFind k l = none ↔ k ∉ keysOf l := by
  induction l with
  | nil => simp [assocFind, keysOf]
  | cons hd tl ih =>
      obtain ⟨k', v'⟩ := hd
      by_cases hk : k = k'
      · simp [assocFind, hk, keysOf]
      · simp only [assocFind, if_neg hk, keysOf, List.map_cons, List.mem_cons, ih]
        simp [hk]

theorem assocFind_mem (k : List Nat) (l : List (List Nat × α)) (h : k ∈ keysOf l) :
    ∃ v, assocFind k l = some v := by
  rcases hf : assocFind k l with _ | v
  · rw [assocFind_eq_none] at hf
    exact absurd h hf
  · exact ⟨v, rfl⟩

theorem assocFind_mem_pair (k : List Nat) (v : α) (l : List (List Nat × α))
    (hnd : (keysOf l).Nodup) (h : (k, v) ∈ l) : assocFind k l = some v := by
  induction l with
  | nil => simp at h
  | cons hd tl ih =>
      obtain ⟨k', v'⟩ := hd
      simp only [keysOf, List.map_cons, List.nodup_cons] at hnd
      rcases List.mem_cons.mp h with heq | hmem
      · cases heq
        simp [assocFind]
      · have hk : k ≠ k' := by
          intro he
          subst he
          exact hnd.1 (List.mem_map.mpr ⟨(k, v), hmem, rfl⟩)
      
        simp only [assocFind, if_neg hk]
        exact ih hnd.2 hmem

theorem assocRemove_eq_filter (k : List Nat) (l : List (List Nat × α))
    (hnd : (keysOf l).Nodup) :
    assocRemove k l = l.filter (fun kv => kv.1 ≠ k) := by
  induction l with
  | nil => simp [assocRemove]
  | cons hd tl ih =>
      obtain ⟨k', v'⟩ := hd
      simp only [keysOf, List.map_cons, List.nodup_cons] at hnd
      by_cases hk : k = k'
      · subst hk
        rw [assocRemove, if_pos rfl, List.filter_cons, if_neg (by simp)]
        symm
        apply List.filter_eq_self.mpr
        intro kv hkv
        rw [decide_eq_true_eq]
        intro he
        exact hnd.1 (he ▸ List.mem_map.mpr ⟨kv, hkv, rfl⟩)
      · rw [assocRemove, if_neg hk, List.filter_cons,
          if_pos (by simp; exact fun he => hk he.symm), ih hnd.2]

theorem nodup_keysOf_filter (p : (List Nat × α) → Bool) (l : List (List Nat × α))
    (h : (keysOf l).Nodup) : (keysOf (l.filter p)).Nodup :=
  List.Nodup.sublist (List.Sublist.map _ (List.filter_sublist _)) h

/-- Membership in the sorted-set insert. -/
theorem keySetInsert_mem (x k : List Nat) (s : List (List Nat)) :
    x ∈ (keySetInsert k s).1 ↔ x = k ∨ x ∈ s := by
  induction s with
  | nil => simp [keySetInsert]
  | cons hd tl ih =>
      by_cases hlt : keyLt k hd
      · rw [keySetInsert, if_pos hlt]
        simp only [List.mem_cons]
      · by_cases heq : k = hd
        · subst heq
          rw [keySetInsert, if_neg hlt, if_pos rfl]
          simp only [List.mem_cons]
          tauto
        · rw [keySetInsert, if_neg hlt, if_neg heq]
          simp only [List.mem_cons]
          rw [ih]
          tauto

theorem assocFind_some_mem (k : List Nat) (v : α) (l : List (List Nat × α))
    (h : assocFind k l = some v) : (k, v) ∈ l := by
  induction l with
  | nil => simp [assocFind] at h
  | cons hd tl ih =>
      obtain ⟨k', v'⟩ := hd
      by_cases hk : k = k'
      · subst hk
        rw [assocFind, if_pos rfl, Option.some.injEq] at h
        subst h
        exact List.mem_cons_self _ _
      · rw [assocFind, if_neg hk] at h
        exact List.mem_cons_of_mem _ (ih h)

theorem assocFind_filter_keep (k : List Nat) (q : List Nat → Bool)
    (l : List (List Nat × α)) (hq : q k = true) :
    assocFind k (l.filter (fun kv => q kv.1)) = assocFind k l := by
  induction l with
  | nil => simp
  | cons hd tl ih =>
      obtain ⟨k', v'⟩ := hd
      by_cases hk : k = k'
      · subst hk
        rw [List.filter_cons, if_pos (by simpa using hq), assocFind, if_pos rfl,
          assocFind, if_pos rfl]
      · rw [List.filter_cons]
        rcases hq' : q k' with _ | _
        · simp only [Bool.false_eq_true, if_false, ih, assocFind, if_neg hk]
        · simp only [if_true, assocFind, if_neg hk, ih]

theorem u64SatAdd_satAdd (x a b : Nat) :
    u64SatAdd (u64SatAdd x a) b = u64SatAdd x (a + b) := by
  simp only [u64SatAdd, Nat.min_def]
  split_ifs <;> omega

theorem u64SatAdd_zero_of_le (n : Nat) (h : n ≤ usizeMax) : u64SatAdd 0 n = n := by
  simp only [u64SatAdd, usizeMax] at *
  omega

theorem foldl_keySetInsert_mem (f : ChunkRef → List Nat) (cs : List ChunkRef)
    (acc : List (List Nat)) (x : List Nat) :
    x ∈ cs.foldl (fun a c => (keySetInsert (f c) a).1) acc ↔
      x ∈ acc ∨ ∃ c ∈ cs, x = f c := by
  induction cs generalizing acc with
  | nil => simp
  | cons c rest ih =>
      rw [List.foldl_cons, ih, keySetInsert_mem]
      simp only [List.mem_cons]
      constructor
      · rintro (⟨h | h⟩ | ⟨c', hc', h⟩)
        · exact .inr ⟨c, .inl rfl, h⟩
        · exact .inl h
        · exact .inr ⟨c', .inr hc', h⟩
      · rintro (h | ⟨c', hc' | hc', h⟩)
        · exact .inl (.inr h)
        · exact .inl (.inl (hc' ▸ h))
        · exact .inr ⟨c', hc', h⟩

theorem gcManifestLoop_step (mk : List Nat) (rest refd streams : List (List Nat))
    (st : St) :
    gcManifestLoop (mk :: rest) refd streams st =
      match assocFind mk st.meta with
      | none => gcManifestLoop rest refd streams st
      | some r =>
          match decodeManifest r.value with
          | .error e => (st, .error e)
          | .ok m =>
              gcManifestLoop rest
                (m.chunk_refs.foldl
                  (fun acc c =>
                    (keySetInsert (chunkBlobKey (streamIdFromManifestKey mk)
                      c.chunk_seq) acc).1)
                  refd)
                ((keySetInsert (streamIdFromManifestKey mk) streams).1) st := by
  cases h : assocFind mk st.meta with
  | none => simp [gcManifestLoop, M_bind_run, metaGet_run, h]
  | some r =>
      cases hd : decodeManifest r.value with
      | ok m => simp [gcManifestLoop, M_bind_run, metaGet_run, h, hd]
      | error e => simp [gcManifestLoop, M_bind_run, metaGet_run, h, hd, mThrow]

theorem gcManifestLoop_fst (ks refd streams : List (List Nat)) (st : St) :
    (gcManifestLoop ks refd streams st).1 = st := by
  induction ks generalizing refd streams with
  | nil => rfl
  | cons mk rest ih =>
      rw [gcManifestLoop_step]
      cases h : assocFind mk st.meta with
      | none => exact ih _ _
      | some r =>
          cases hd : decodeManifest r.value with
          | ok m =>
              simp only [hd]
              exact ih _ _
          | error e =>
              simp only [hd]

theorem gcManifestLoop_ok (ks : List (List Nat)) (st : St) :
    ∀ refd streams refd' streams' : List (List Nat),
      (gcManifestLoop ks refd streams st).2 = .ok (refd', streams') →
      (∀ x, x ∈ refd' ↔ x ∈ refd ∨ refBy st ks x) ∧
      (∀ s, s ∈ streams' ↔ s ∈ streams ∨ streamBy st ks s) ∧
      (∀ k ∈ ks, ∀ r, assocFind k st.meta = some r →
        ∃ m, decodeManifest r.value = .ok m) := by
  induction ks with
  | nil =>
      intro refd streams refd' streams' h
      simp only [gcManifestLoop, M_pure_run, Except.ok.injEq, Prod.mk.injEq] at h
      obtain ⟨h1, h2⟩ := h
      subst h1; subst h2
      refine ⟨fun x => ?_, fun s => ?_, by simp⟩
      · simp [refBy]
      · simp [streamBy]
  | cons mk rest ih =>
      intro refd streams refd' streams' h
      rw [gcManifestLoop_step] at h
      cases hfind : assocFind mk st.meta with
      | none =>
          rw [hfind] at h
          obtain ⟨h1, h2, h3⟩ := ih _ _ _ _ h
          refine ⟨fun x => ?_, fun s => ?_, ?_⟩
          · rw [h1 x]
            simp only [refBy, List.mem_cons]
            constructor
            · rintro (h | ⟨k, hk, hrest⟩)
              · exact .inl h
              · exact .inr ⟨k, .inr hk, hrest⟩
            · rintro (h | ⟨k, rfl | hk, hr⟩)
              · exact .inl h
              · obtain ⟨r, hr, _⟩ := hr
                rw [hfind] at hr
                exact absurd hr (by simp)
              · exact .inr ⟨k, hk, hr⟩
          · rw [h2 s]
            simp only [streamBy, List.mem_cons]
            constructor
            · rintro (h | ⟨k, hk, hrest⟩)
              · exact .inl h
              · exact .inr ⟨k, .inr hk, hrest⟩
            · rintro (h | ⟨k, rfl | hk, hr⟩)
              · exact .inl h
              · obtain ⟨⟨r, hr, _⟩, _⟩ := hr
                rw [hfind] at hr
                exact absurd hr (by simp)
              · exact .inr ⟨k, hk, hr⟩
          · intro k hk r hr
            rcases List.mem_cons.mp hk with rfl | hk
            · rw [hfind] at hr
              exact absurd hr (by simp)
            · exact h3 k hk r hr
      | some r =>
          simp only [hfind] at h
          cases hdec : decodeManifest r.value with
          | error e =>
              rw [hdec] at h
              simp at h
          | ok m =>
              rw [hdec] at h
              obtain ⟨h1, h2, h3⟩ := ih _ _ _ _ h
              refine ⟨fun x => ?_, fun s => ?_, ?_⟩
              · rw [h1 x, foldl_keySetInsert_mem]
                simp only [refBy, List.mem_cons]
                constructor
                · rintro (⟨h | ⟨c, hc, rfl⟩⟩ | ⟨k, hk, hrest⟩)
                  · exact .inl h
                  · exact .inr ⟨mk, .inl rfl, r, hfind, m, hdec, c, hc, rfl⟩
                  · exact .inr ⟨k, .inr hk, hrest⟩
                · rintro (h | ⟨k, rfl | hk, r', hr', m', hm', c, hc, hx⟩)
                  · exact .inl (.inl h)
                  · rw [hfind, Option.some.injEq] at hr'
                    subst hr'
                    rw [hdec, Except.ok.injEq] at hm'
                    subst hm'
                    exact .inl (.inr ⟨c, hc, hx⟩)
                  · exact .inr ⟨k, hk, r', hr', m', hm', c, hc, hx⟩
              · rw [h2 s, keySetInsert_mem]
                simp only [streamBy, List.mem_cons]
                constructor
                · rintro (⟨h | h⟩ | ⟨k, hk, hrest⟩)
                  · exact .inr ⟨mk, .inl rfl, ⟨r, hfind, m, hdec⟩, h⟩
                  · exact .inl h
                  · exact .inr ⟨k, .inr hk, hrest⟩
                · rintro (h | ⟨k, rfl | hk, _, hs⟩)
                  · exact .inl (.inr h)
                  · exact .inl (.inl hs)
                  · exact .inr ⟨k, hk, ⟨by assumption, hs⟩⟩
              · intro k hk r' hr'
                rcases List.mem_cons.mp hk with rfl | hk
                · rw [hfind, Option.some.injEq] at hr'
                  subst hr'
                  exact ⟨m, hdec⟩
                · exact h3 k hk r' hr'

theorem u64SatAdd_eq_add (a b : Nat) (h : a + b ≤ usizeMax) : u64SatAdd a b = a + b := by
  simp only [u64SatAdd, usizeMax] at *
  omega

theorem gcChunkLoop_step (refd : List (List Nat)) (ck : List Nat)
    (rest : List (List Nat)) (stats : GcStats) (st : St) :
    gcChunkLoop refd (ck :: rest) stats st =
      if ck ∈ refd then gcChunkLoop refd rest stats st
      else
        gcChunkLoop refd rest
          { stats with
              orphan_chunk_bytes := u64SatAdd stats.orphan_chunk_bytes
                (match assocFind ck st.blobs with
                 | some blob => blob.length
                 | none => 0)
              deleted_orphan_chunks := u64SatAdd stats.deleted_orphan_chunks 1 }
          { st with blobs := assocRemove ck st.blobs, trace := .bdel ck :: st.trace } := by
  by_cases hm : ck ∈ refd
  · simp [gcChunkLoop, hm]
  · cases hb : assocFind ck st.blobs with
    | none =>
        simp [gcChunkLoop, hm, M_bind_run, blobGet, blobDelete, hb, M_pure_run]
    | some blob =>
        simp [gcChunkLoop, hm, M_bind_run, blobGet, blobDelete, hb, M_pure_run]

theorem gcTailLoop_step (streams : List (List Nat)) (tk : List Nat)
    (rest : List (List Nat)) (stats : GcStats) (st : St)
    (hmin : st.minEpoch ≤ usizeMax) :
    gcTailLoop streams (tk :: rest) stats st =
      if streamIdFromTailKey tk ∈ streams then gcTailLoop streams rest stats st
      else
        gcTailLoop streams rest
          { stats with deleted_stale_tails := u64SatAdd stats.deleted_stale_tails 1 }
          (match assocFind tk st.meta with
           | some _ =>
              { st with meta := assocRemove tk st.meta, trace := .mdel tk :: st.trace }
           | none => st) := by
  have hfence : ¬ usizeMax < st.minEpoch := by omega
  by_cases hm : streamIdFromTailKey tk ∈ streams
  · simp [gcTailLoop, hm]
  · cases hf : assocFind tk st.meta with
    | none =>
        simp [gcTailLoop, hm, M_bind_run, metaDelete, hf, hfence, M_pure_run]
    | some r =>
        simp [gcTailLoop, hm, M_bind_run, metaDelete, hf, hfence, M_pure_run]

theorem gcChunkLoop_run (refd ks : List (List Nat)) (stats : GcStats) (st : St)
    (hnd : (keysOf st.blobs).Nodup)
    (hb : stats.deleted_orphan_chunks + ks.countP (fun k => !decide (k ∈ refd)) ≤
      usizeMax) :
    (gcChunkLoop refd ks stats st).1.blobs
        = st.blobs.filter (fun kv => decide (kv.1 ∈ refd) || !decide (kv.1 ∈ ks)) ∧
    (gcChunkLoop refd ks stats st).1.meta = st.meta ∧
    (gcChunkLoop refd ks stats st).1.minEpoch = st.minEpoch ∧
    ∃ stats2, (gcChunkLoop refd ks stats st).2 = .ok stats2 ∧
      stats2.deleted_orphan_chunks =
        stats.deleted_orphan_chunks + ks.countP (fun k => !decide (k ∈ refd)) ∧
      stats2.stale_tail_keys = stats.stale_tail_keys ∧
      stats2.deleted_stale_tails = stats.deleted_stale_tails ∧
      stats2.exceeded_guardrail = stats.exceeded_guardrail ∧
      stats2.orphan_manifest_segments = stats.orphan_manifest_segments := by
  induction ks generalizing stats st with
  | nil =>
      refine ⟨?_, rfl, rfl, stats, rfl, by simp, rfl, rfl, rfl, rfl⟩
      symm
      apply List.filter_eq_self.mpr
      intro kv _
      simp
  | cons ck rest ih =>
      rw [gcChunkLoop_step]
      by_cases hm : ck ∈ refd
      · rw [if_pos hm]
        have hcnt : (ck :: rest).countP (fun k => !decide (k ∈ refd)) =
            rest.countP (fun k => !decide (k ∈ refd)) := by
          rw [List.countP_cons]
          simp [hm]
        rw [hcnt] at hb ⊢
        obtain ⟨h1, h2, h3, stats2, h4, h5, h6, h7, h8, h9⟩ := ih stats st hnd hb
        refine ⟨?_, h2, h3, stats2, h4, h5, h6, h7, h8, h9⟩
        rw [h1]
        apply List.filter_congr
        intro kv _
        by_cases h1 : kv.1 ∈ refd
        · simp [h1]
        · have hne : kv.1 ≠ ck := fun he => h1 (he ▸ hm)
          simp [h1, List.mem_cons, hne]
      · rw [if_neg hm]
        have hcnt : (ck :: rest).countP (fun k => !decide (k ∈ refd)) =
            rest.countP (fun k => !decide (k ∈ refd)) + 1 := by
          rw [List.countP_cons]
          simp [hm]
        rw [hcnt] at hb
        have hone : u64SatAdd stats.deleted_orphan_chunks 1 =
            stats.deleted_orphan_chunks + 1 := u64SatAdd_eq_add _ _ (by omega)
        have hnd' : (keysOf (assocRemove ck st.blobs)).Nodup := by
          rw [assocRemove_eq_filter ck st.blobs hnd]
          exact nodup_keysOf_filter _ _ hnd
        obtain ⟨h1, h2, h3, stats2, h4, h5, h6, h7, h8, h9⟩ :=
          ih { stats with
                 orphan_chunk_bytes := u64SatAdd stats.orphan_chunk_bytes
                   (match assocFind ck st.blobs with
                    | some blob => blob.length
                    | none => 0)
                 deleted_orphan_chunks := u64SatAdd stats.deleted_orphan_chunks 1 }
             { st with blobs := assocRemove ck st.blobs,
                       trace := .bdel ck :: st.trace }
             hnd'
             (by
               show u64SatAdd stats.deleted_orphan_chunks 1 +
                 rest.countP (fun k => !decide (k ∈ refd)) ≤ usizeMax
               rw [hone]
               omega)
        refine ⟨?_, h2, h3, stats2, h4, ?_, h6, h7, h8, h9⟩
        · rw [h1]
          show (assocRemove ck st.blobs).filter _ = _
          rw [assocRemove_eq_filter ck st.blobs hnd, List.filter_filter]
          apply List.filter_congr
          intro kv _
          by_cases hck : kv.1 = ck
          · have : kv.1 ∉ refd := fun hr => hm (hck ▸ hr)
            simp [hck, this, hm, List.mem_cons]
          · simp [hck, List.mem_cons]
        · rw [h5, hcnt]
          show u64SatAdd stats.deleted_orphan_chunks 1 +
            rest.countP (fun k => !decide (k ∈ refd)) = _
          rw [hone]
          omega

theorem gcTailLoop_run (streams ks : List (List Nat)) (stats : GcStats) (st : St)
    (hnd : (keysOf st.meta).Nodup) (hmin : st.minEpoch ≤ usizeMax)
    (hb : stats.deleted_stale_tails +
      ks.countP (fun k => !decide (streamIdFromTailKey k ∈ streams)) ≤ usizeMax) :
    (gcTailLoop streams ks stats st).1.meta
        = st.meta.filter
            (fun kv => decide (streamIdFromTailKey kv.1 ∈ streams) ||
              !decide (kv.1 ∈ ks)) ∧
    (gcTailLoop streams ks stats st).1.blobs = st.blobs ∧
    ∃ stats2, (gcTailLoop streams ks stats st).2 = .ok stats2 ∧
      stats2.deleted_stale_tails =
        stats.deleted_stale_tails +
          ks.countP (fun k => !decide (streamIdFromTailKey k ∈ streams)) ∧
      stats2.deleted_orphan_chunks = stats.deleted_orphan_chunks ∧
      stats2.orphan_chunk_bytes = stats.orphan_chunk_bytes ∧
      stats2.stale_tail_keys = stats.stale_tail_keys ∧
      stats2.exceeded_guardrail = stats.exceeded_guardrail ∧
      stats2.orphan_manifest_segments = stats.orphan_manifest_segments := by
  induction ks generalizing stats st with
  | nil =>
      refine ⟨?_, rfl, stats, rfl, by simp, rfl, rfl, rfl, rfl, rfl⟩
      symm
      apply List.filter_eq_self.mpr
      intro kv _
      simp
  | cons tk rest ih =>
      by_cases hm : streamIdFromTailKey tk ∈ streams
      · have hstep : gcTailLoop streams (tk :: rest) stats st =
            gcTailLoop streams rest stats st := by
          rw [gcTailLoop_step streams tk rest stats st hmin, if_pos hm]
        rw [hstep]
        have hcnt : (tk :: rest).countP
              (fun k => !decide (streamIdFromTailKey k ∈ streams)) =
            rest.countP (fun k => !decide (streamIdFromTailKey k ∈ streams)) := by
          rw [List.countP_cons]
          simp [hm]
        rw [hcnt] at hb ⊢
        obtain ⟨h1, h2, stats2, h4, h5, h6, h7, h8, h9, h10⟩ := ih stats st hnd hmin hb
        refine ⟨?_, h2, stats2, h4, h5, h6, h7, h8, h9, h10⟩
        rw [h1]
        apply List.filter_congr
        intro kv _
        by_cases h1 : streamIdFromTailKey kv.1 ∈ streams
        · simp [h1]
        · have hne : kv.1 ≠ tk := fun he => h1 (he ▸ hm)
          simp [h1, List.mem_cons, hne]
      · have hcnt : (tk :: rest).countP
              (fun k => !decide (streamIdFromTailKey k ∈ streams)) =
            rest.countP (fun k => !decide (streamIdFromTailKey k ∈ streams)) + 1 := by
          rw [List.countP_cons]
          simp [hm]
        rw [hcnt] at hb
        have hone : u64SatAdd stats.deleted_stale_tails 1 =
            stats.deleted_stale_tails + 1 := u64SatAdd_eq_add _ _ (by omega)
        cases hfind : assocFind tk st.meta with
        | none =>
            have hstep : gcTailLoop streams (tk :: rest) stats st =
                gcTailLoop streams rest
                  { stats with
                      deleted_stale_tails := u64SatAdd stats.deleted_stale_tails 1 }
                  st := by
              rw [gcTailLoop_step streams tk rest stats st hmin, if_neg hm, hfind]
            rw [hstep]
            obtain ⟨h1, h2, stats2, h4, h5, h6, h7, h8, h9, h10⟩ :=
              ih { stats with
                     deleted_stale_tails := u64SatAdd stats.deleted_stale_tails 1 }
                 st hnd hmin
                (by
                  show u64SatAdd stats.deleted_stale_tails 1 +
                    rest.countP (fun k => !decide (streamIdFromTailKey k ∈ streams)) ≤
                      usizeMax
                  rw [hone]
                  omega)
            refine ⟨?_, h2, stats2, h4, ?_, h6, h7, h8, h9, h10⟩
            · rw [h1]
              apply List.filter_congr
              intro kv hkv
              have hne : kv.1 ≠ tk := by
                intro he
                have : tk ∈ keysOf st.meta := he ▸ List.mem_map.mpr ⟨kv, hkv, rfl⟩
                exact (assocFind_eq_none tk st.meta).mp hfind this
              simp [List.mem_cons, hne]
            · rw [h5, hcnt]
              show u64SatAdd stats.deleted_stale_tails 1 +
                rest.countP (fun k => !decide (streamIdFromTailKey k ∈ streams)) = _
              rw [hone]
              omega
        | some r =>
            have hstep : gcTailLoop streams (tk :: rest) stats st =
                gcTailLoop streams rest
                  { stats with
                      deleted_stale_tails := u64SatAdd stats.deleted_stale_tails 1 }
                  { st with meta := assocRemove tk st.meta,
                            trace := .mdel tk :: st.trace } := by
              rw [gcTailLoop_step streams tk rest stats st hmin, if_neg hm, hfind]
            rw [hstep]
            have hnd' : (keysOf (assocRemove tk st.meta)).Nodup := by
              rw [assocRemove_eq_filter tk st.meta hnd]
              exact nodup_keysOf_filter _ _ hnd
            obtain ⟨h1, h2, stats2, h4, h5, h6, h7, h8, h9, h10⟩ :=
              ih { stats with
                     deleted_stale_tails := u64SatAdd stats.deleted_stale_tails 1 }
                 { st with meta := assocRemove tk st.meta,
                           trace := .mdel tk :: st.trace }
                hnd' hmin
                (by
                  show u64SatAdd stats.deleted_stale_tails 1 +
                    rest.countP (fun k => !decide (streamIdFromTailKey k ∈ streams)) ≤
                      usizeMax
                  rw [hone]
                  omega)
            refine ⟨?_, h2, stats2, h4, ?_, h6, h7, h8, h9, h10⟩
            · rw [h1]
              show (assocRemove tk st.meta).filter _ = _
              rw [assocRemove_eq_filter tk st.meta hnd, List.filter_filter]
              apply List.filter_congr
              intro kv _
              by_cases hck : kv.1 = tk
              · have : streamIdFromTailKey kv.1 ∉ streams := fun hr => hm (hck ▸ hr)
                simp [hck, this, hm, List.mem_cons]
              · simp [hck, List.mem_cons]
            · rw [h5, hcnt]
              show u64SatAdd stats.deleted_stale_tails 1 +
                rest.countP (fun k => !decide (streamIdFromTailKey k ∈ streams)) = _
              rw [hone]
              omega

theorem refBy_iff_chunkRefdB (st : St) (x : List Nat) (hnd : (keysOf st.meta).Nodup) :
    refBy st ((keysOf st.meta).filter (fun k => manifestsNs.isPrefixOf k)) x ↔
      chunkRefdB st x = true := by
  constructor
  · rintro ⟨k, hk, r, hfind, m, hdec, c, hc, hx⟩
    rw [chunkRefdB, List.any_eq_true]
    refine ⟨(k, r), assocFind_some_mem _ _ _ hfind, ?_⟩
    have hpre : manifestsNs.isPrefixOf k = true := by
      simpa using (List.mem_filter.mp hk).2
    simp only [hpre, Bool.true_and, hdec]
    rw [List.any_eq_true]
    exact ⟨c, hc, by simp [hx]⟩
  · intro h
    rw [chunkRefdB, List.any_eq_true] at h
    obtain ⟨⟨k, r⟩, hmem, hp⟩ := h
    rw [Bool.and_eq_true] at hp
    obtain ⟨hpre, hrest⟩ := hp
    cases hdec : decodeManifest r.value with
    | error e =>
        rw [show decodeManifest (k, r).2.value = decodeManifest r.value from rfl,
          hdec] at hrest
        simp at hrest
    | ok m =>
        rw [show decodeManifest (k, r).2.value = decodeManifest r.value from rfl,
          hdec] at hrest
        rw [List.any_eq_true] at hrest
        obtain ⟨c, hc, hx⟩ := hrest
        refine ⟨k, ?_, r, assocFind_mem_pair _ _ _ hnd hmem, m, hdec, c, hc,
          by simpa using hx⟩
        rw [List.mem_filter]
        exact ⟨List.mem_map.mpr ⟨(k, r), hmem, rfl⟩, by simpa using hpre⟩

theorem streamBy_iff_streamManifestB (st : St) (sid : List Nat)
    (hnd : (keysOf st.meta).Nodup)
    (hall : ∀ k ∈ (keysOf st.meta).filter (fun k => manifestsNs.isPrefixOf k),
      ∀ r, assocFind k st.meta = some r → ∃ m, decodeManifest r.value = .ok m) :
    streamBy st ((keysOf st.meta).filter (fun k => manifestsNs.isPrefixOf k)) sid ↔
      streamManifestB st sid = true := by
  constructor
  · rintro ⟨k, hk, ⟨r, hfind, _, _⟩, hsid⟩
    rw [streamManifestB, List.any_eq_true]
    refine ⟨(k, r), assocFind_some_mem _ _ _ hfind, ?_⟩
    have hpre : manifestsNs.isPrefixOf k = true := by
      simpa using (List.mem_filter.mp hk).2
    simp [hpre, hsid]
  · intro h
    rw [streamManifestB, List.any_eq_true] at h
    obtain ⟨⟨k, r⟩, hmem, hp⟩ := h
    rw [Bool.and_eq_true] at hp
    obtain ⟨hpre, hsid⟩ := hp
    have hkf : k ∈ (keysOf st.meta).filter (fun k => manifestsNs.isPrefixOf k) := by
      rw [List.mem_filter]
      exact ⟨List.mem_map.mpr ⟨(k, r), hmem, rfl⟩, by simpa using hpre⟩
    have hfind : assocFind k st.meta = some r := assocFind_mem_pair _ _ _ hnd hmem
    obtain ⟨m, hm⟩ := hall k hkf r hfind
    exact ⟨k, hkf, ⟨r, hfind, m, hm⟩, by
      have := hsid
      simp only [decide_eq_true_eq] at this
      exact this.symm⟩

/-- **C9.** For every well-formed store state, `GcWorker::run_once` never
deletes a chunk blob that is referenced by a `ChunkRef` of any manifest
present in the metadata store, and never deletes a tail record whose
stream has a manifest record; in the success case the surviving blob and
metadata stores are exactly the original ones minus the unreferenced
chunk blobs and the manifest-less tails, and those deletions are counted
in `deleted_orphan_chunks` and `stale_tail_keys` respectively. -/
theorem gc_preserves_referenced (cfg : Config) (st : St) (hw : WFSt st) :
    (∀ ck, chunkRefdB st ck = true →
        assocFind ck (runGcOnce cfg st).1.blobs = assocFind ck st.blobs) ∧
    (∀ tk, streamManifestB st (streamIdFromTailKey tk) = true →
        assocFind tk (runGcOnce cfg st).1.meta = assocFind tk st.meta) ∧
    (∀ stats, (runGcOnce cfg st).2 = .ok stats →
      (runGcOnce cfg st).1.blobs =
        st.blobs.filter (fun kv => !chunksNs.isPrefixOf kv.1 || chunkRefdB st kv.1) ∧
      (runGcOnce cfg st).1.meta =
        st.meta.filter (fun kv => !tailsNs.isPrefixOf kv.1 ||
          streamManifestB st (streamIdFromTailKey kv.1)) ∧
      stats.deleted_orphan_chunks =
        st.blobs.countP (fun kv => chunksNs.isPrefixOf kv.1 && !chunkRefdB st kv.1) ∧
      stats.stale_tail_keys =
        st.meta.countP (fun kv => tailsNs.isPrefixOf kv.1 &&
          !streamManifestB st (streamIdFromTailKey kv.1))) := by
  obtain ⟨hndm, hndb, hlm, hlb, hmin⟩ := hw
  have hpageM : metaList manifestsNs none usizeMax st =
      (st, .ok ⟨(keysOf st.meta).filter (fun k => manifestsNs.isPrefixOf k), none⟩) := by
    show Prod.mk st
      (Except.ok (pageOf (st.meta.map (fun kv => kv.1)) manifestsNs none usizeMax)) = _
    rw [pageOf_none_max _ _ (by simpa using hlm)]
    rfl
  have hpageT : metaList tailsNs none usizeMax st =
      (st, .ok ⟨(keysOf st.meta).filter (fun k => tailsNs.isPrefixOf k), none⟩) := by
    show Prod.mk st
      (Except.ok (pageOf (st.meta.map (fun kv => kv.1)) tailsNs none usizeMax)) = _
    rw [pageOf_none_max _ _ (by simpa using hlm)]
    rfl
  have hpageB : blobList chunksNs none usizeMax st =
      (st, .ok ⟨(keysOf st.blobs).filter (fun k => chunksNs.isPrefixOf k), none⟩) := by
    show Prod.mk st
      (Except.ok (pageOf (st.blobs.map (fun kv => kv.1)) chunksNs none usizeMax)) = _
    rw [pageOf_none_max _ _ (by simpa using hlb)]
    rfl
  have hfst := gcManifestLoop_fst ((keysOf st.meta).filter
    (fun k => manifestsNs.isPrefixOf k)) [] [] st
  cases hres : (gcManifestLoop ((keysOf st.meta).filter
      (fun k => manifestsNs.isPrefixOf k)) [] [] st).2 with
  | error e =>
      have hml : gcManifestLoop ((keysOf st.meta).filter
          (fun k => manifestsNs.isPrefixOf k)) [] [] st = (st, .error e) := by
        exact Prod.ext hfst hres
      have hrun : runGcOnce cfg st = (st, .error e) := by
        unfold runGcOnce
        rw [M_bind_ok hpageM]
        dsimp only
        rw [M_bind_ok hpageT]
        dsimp only
        rw [M_bind_err hml]
      rw [hrun]
      exact ⟨fun ck _ => rfl, fun tk _ => rfl, fun stats hst => by simp at hst⟩
  | ok rs =>
      obtain ⟨refd, streams⟩ := rs
      have hml : gcManifestLoop ((keysOf st.meta).filter
          (fun k => manifestsNs.isPrefixOf k)) [] [] st = (st, .ok (refd, streams)) := by
        exact Prod.ext hfst hres
      obtain ⟨href, hstr, hdecall⟩ :=
        gcManifestLoop_ok ((keysOf st.meta).filter (fun k => manifestsNs.isPrefixOf k))
          st [] [] refd streams (by rw [hml])
      have hrefd : ∀ x, x ∈ refd ↔ chunkRefdB st x = true := by
        intro x
        rw [href x, ← refBy_iff_chunkRefdB st x hndm]
        simp
      have hstrb : ∀ s, s ∈ streams ↔ streamManifestB st s = true := by
        intro s
        rw [hstr s, ← streamBy_iff_streamManifestB st s hndm hdecall]
        simp
      have hcntb : ((keysOf st.blobs).filter (fun k => chunksNs.isPrefixOf k)).countP
            (fun k => !decide (k ∈ refd)) ≤ usizeMax := by
        have h1 : ((keysOf st.blobs).filter (fun k => chunksNs.isPrefixOf k)).countP
              (fun k => !decide (k ∈ refd)) ≤
            ((keysOf st.blobs).filter (fun k => chunksNs.isPrefixOf k)).length :=
          List.countP_le_length _
        have h2 : ((keysOf st.blobs).filter (fun k => chunksNs.isPrefixOf k)).length ≤
            (keysOf st.blobs).length := List.length_filter_le _ _
        have h3 : (keysOf st.blobs).length = st.blobs.length := by simp [keysOf]
        omega
      obtain ⟨hc1, hc2, hc3, stats2, hc4, hc5, hc6, hc7, hc8, hc9⟩ :=
        gcChunkLoop_run refd ((keysOf st.blobs).filter (fun k => chunksNs.isPrefixOf k))
          {} st hndb
          (by
            show (0:Nat) + _ ≤ usizeMax
            simpa using hcntb)
      rcases hcl : gcChunkLoop refd ((keysOf st.blobs).filter
          (fun k => chunksNs.isPrefixOf k)) {} st with ⟨st2, res2⟩
      rw [hcl] at hc1 hc2 hc3 hc4
      dsimp only at hc1 hc2 hc3 hc4
      have hnd2 : (keysOf st2.meta).Nodup := by rw [hc2]; exact hndm
      have hmin2 : st2.minEpoch ≤ usizeMax := by rw [hc3]; exact hmin
      have hcntt : ((keysOf st.meta).filter (fun k => tailsNs.isPrefixOf k)).countP
            (fun k => !decide (streamIdFromTailKey k ∈ streams)) ≤ usizeMax := by
        have h1 : ((keysOf st.meta).filter (fun k => tailsNs.isPrefixOf k)).countP
              (fun k => !decide (streamIdFromTailKey k ∈ streams)) ≤
            ((keysOf st.meta).filter (fun k => tailsNs.isPrefixOf k)).length :=
          List.countP_le_length _
        have h2 : ((keysOf st.meta).filter (fun k => tailsNs.isPrefixOf k)).length ≤
            (keysOf st.meta).length := List.length_filter_le _ _
        have h3 : (keysOf st.meta).length = st.meta.length := by simp [keysOf]
        omega
      obtain ⟨ht1, ht2, stats3, ht4, ht5, ht6, ht7, ht8, ht9, ht10⟩ :=
        gcTailLoop_run streams ((keysOf st.meta).filter (fun k => tailsNs.isPrefixOf k))
          stats2 st2 hnd2 hmin2
          (by
            rw [hc7]
            show (0:Nat) + _ ≤ usizeMax
            simpa using hcntt)
      rcases htl : gcTailLoop streams ((keysOf st.meta).filter
          (fun k => tailsNs.isPrefixOf k)) stats2 st2 with ⟨st3, res3⟩
      rw [htl] at ht1 ht2 ht4
      dsimp only at ht1 ht2 ht4
      rw [hc4] at hcl
      rw [ht4] at htl
      have hrun : runGcOnce cfg st = (st3, .ok
          { orphan_chunk_bytes := stats3.orphan_chunk_bytes,
            orphan_manifest_segments := 0,
            stale_tail_keys := stats3.deleted_stale_tails,
            deleted_orphan_chunks := stats3.deleted_orphan_chunks,
            deleted_stale_tails := stats3.deleted_stale_tails,
            exceeded_guardrail := decide
              (stats3.orphan_chunk_bytes > cfg.max_orphan_chunk_bytes ∨
               (0:Nat) > cfg.max_orphan_manifest_segments ∨
               stats3.deleted_stale_tails > cfg.max_stale_tail_keys) }) := by
        unfold runGcOnce
        rw [M_bind_ok hpageM]
        dsimp only
        rw [M_bind_ok hpageT]
        dsimp only
        rw [M_bind_ok hml]
        dsimp only
        rw [M_bind_ok hpageB]
        dsimp only
        rw [M_bind_ok hcl]
        rw [M_bind_ok htl]
        rw [M_pure_run]
      have hblobs : st3.blobs =
          st.blobs.filter (fun kv => !chunksNs.isPrefixOf kv.1 || chunkRefdB st kv.1) := by
        rw [ht2, hc1]
        apply List.filter_congr
        intro kv hkv
        by_cases hpre : chunksNs.isPrefixOf kv.1
        · have hkb : kv.1 ∈ (keysOf st.blobs).filter (fun k => chunksNs.isPrefixOf k) := by
            rw [List.mem_filter]
            exact ⟨List.mem_map.mpr ⟨kv, hkv, rfl⟩, by simpa using hpre⟩
          by_cases hr : kv.1 ∈ refd
          · have hrb := (hrefd kv.1).mp hr
            simp [hr, hpre, hrb]
          · have hfalse : chunkRefdB st kv.1 = false := by
              rw [← Bool.not_eq_true]
              exact fun htrue => hr ((hrefd kv.1).mpr htrue)
            simp [hr, hpre, hkb, hfalse]
        · have hkb : kv.1 ∉ (keysOf st.blobs).filter (fun k => chunksNs.isPrefixOf k) := by
            rw [List.mem_filter]
            rintro ⟨_, hp⟩
            exact hpre (by simpa using hp)
          simp [hkb, hpre]
      have hmeta : st3.meta =
          st.meta.filter (fun kv => !tailsNs.isPrefixOf kv.1 ||
            streamManifestB st (streamIdFromTailKey kv.1)) := by
        rw [ht1, hc2]
        apply List.filter_congr
        intro kv hkv
        by_cases hpre : tailsNs.isPrefixOf kv.1
        · have hkb : kv.1 ∈ (keysOf st.meta).filter (fun k => tailsNs.isPrefixOf k) := by
            rw [List.mem_filter]
            exact ⟨List.mem_map.mpr ⟨kv, hkv, rfl⟩, by simpa using hpre⟩
          by_cases hr : streamIdFromTailKey kv.1 ∈ streams
          · have hrb := (hstrb _).mp hr
            simp [hr, hpre, hrb]
          · have hfalse : streamManifestB st (streamIdFromTailKey kv.1) = false := by
              rw [← Bool.not_eq_true]
              exact fun htrue => hr ((hstrb _).mpr htrue)
            simp [hr, hpre, hkb, hfalse]
        · have hkb : kv.1 ∉ (keysOf st.meta).filter (fun k => tailsNs.isPrefixOf k) := by
            rw [List.mem_filter]
            rintro ⟨_, hp⟩
            exact hpre (by simpa using hp)
          simp [hkb, hpre]
      refine ⟨?_, ?_, ?_⟩
      · intro ck hck
        rw [hrun]
        show assocFind ck st3.blobs = _
        rw [hblobs]
        exact assocFind_filter_keep ck
          (fun x => !chunksNs.isPrefixOf x || chunkRefdB st x) st.blobs (by simp [hck])
      · intro tk htk
        rw [hrun]
        show assocFind tk st3.meta = _
        rw [hmeta]
        exact assocFind_filter_keep tk
          (fun x => !tailsNs.isPrefixOf x || streamManifestB st (streamIdFromTailKey x))
          st.meta (by simp [htk])
      · intro stats hst
        rw [hrun] at hst
        have hfe : ({ orphan_chunk_bytes := stats3.orphan_chunk_bytes,
                      orphan_manifest_segments := 0,
                      stale_tail_keys := stats3.deleted_stale_tails,
                      deleted_orphan_chunks := stats3.deleted_orphan_chunks,
                      deleted_stale_tails := stats3.deleted_stale_tails,
                      exceeded_guardrail := decide
                        (stats3.orphan_chunk_bytes > cfg.max_orphan_chunk_bytes ∨
                         (0:Nat) > cfg.max_orphan_manifest_segments ∨
                         stats3.deleted_stale_tails > cfg.max_stale_tail_keys) } :
              GcStats) = stats := by simpa using hst
        subst hfe
        refine ⟨?_, ?_, ?_, ?_⟩
        · rw [hrun]
          show st3.blobs = _
          exact hblobs
        · rw [hrun]
          show st3.meta = _
          exact hmeta
        · show stats3.deleted_orphan_chunks = _
          rw [ht6, hc5]
          show (0:Nat) + _ = _
          rw [Nat.zero_add, List.countP_filter, keysOf, List.countP_map]
          apply List.countP_congr
          intro kv _
          show (!decide (kv.1 ∈ refd) && chunksNs.isPrefixOf kv.1) ↔ _
          constructor
          · intro h
            rw [Bool.and_eq_true] at h ⊢
            obtain ⟨h1, h2⟩ := h
            refine ⟨h2, ?_⟩
            rw [Bool.not_eq_true', decide_eq_false_iff_not] at h1
            rw [Bool.not_eq_true']
            rw [← Bool.not_eq_true]
            exact fun htrue => h1 ((hrefd kv.1).mpr htrue)
          · intro h
            rw [Bool.and_eq_true] at h ⊢
            obtain ⟨h1, h2⟩ := h
            refine ⟨?_, h1⟩
            rw [Bool.not_eq_true'] at h2
            rw [Bool.not_eq_true', decide_eq_false_iff_not]
            intro hmem
            have := (hrefd kv.1).mp hmem
            rw [this] at h2
            simp at h2
        · show stats3.deleted_stale_tails = _
          rw [ht5, hc7]
          show (0:Nat) + _ = _
          rw [Nat.zero_add, List.countP_filter, keysOf, List.countP_map]
          apply List.countP_congr
          intro kv _
          show (!decide (streamIdFromTailKey kv.1 ∈ streams) &&
            tailsNs.isPrefixOf kv.1) ↔ _
          constructor
          · intro h
            rw [Bool.and_eq_true] at h ⊢
            obtain ⟨h1, h2⟩ := h
            refine ⟨h2, ?_⟩
            rw [Bool.not_eq_true', decide_eq_false_iff_not] at h1
            rw [Bool.not_eq_true']
            rw [← Bool.not_eq_true]
            exact fun htrue => h1 ((hstrb _).mpr htrue)
          · intro h
            rw [Bool.and_eq_true] at h ⊢
            obtain ⟨h1, h2⟩ := h
            refine ⟨?_, h1⟩
            rw [Bool.not_eq_true'] at h2
            rw [Bool.not_eq_true', decide_eq_false_iff_not]
            intro hmem
            have := (hstrb _).mp hmem
            rw [this] at h2
            simp at h2

theorem gc_preserves_referenced_witness :
    WFSt gcSampleSt ∧
    ((∀ ck, chunkRefdB gcSampleSt ck = true →
        assocFind ck (runGcOnce Config.default gcSampleSt).1.blobs =
          assocFind ck gcSampleSt.blobs) ∧
     (∀ tk, streamManifestB gcSampleSt (streamIdFromTailKey tk) = true →
        assocFind tk (runGcOnce Config.default gcSampleSt).1.meta =
          assocFind tk gcSampleSt.meta) ∧
     (∀ stats, (runGcOnce Config.default gcSampleSt).2 = .ok stats →
        (runGcOnce Config.default gcSampleSt).1.blobs =
          gcSampleSt.blobs.filter
            (fun kv => !chunksNs.isPrefixOf kv.1 || chunkRefdB gcSampleSt kv.1) ∧
        (runGcOnce Config.default gcSampleSt).1.meta =
          gcSampleSt.meta.filter
            (fun kv => !tailsNs.isPrefixOf kv.1 ||
              streamManifestB gcSampleSt (streamIdFromTailKey kv.1)) ∧
        stats.deleted_orphan_chunks =
          gcSampleSt.blobs.countP
            (fun kv => chunksNs.isPrefixOf kv.1 && !chunkRefdB gcSampleSt kv.1) ∧
        stats.stale_tail_keys =
          gcSampleSt.meta.countP
            (fun kv => tailsNs.isPrefixOf kv.1 &&
              !streamManifestB gcSampleSt (streamIdFromTailKey kv.1)))) :=
  ⟨by decide, gc_preserves_referenced Config.default gcSampleSt (by decide)⟩

theorem sequence_and_parent_validation_witness :
    loadState St.empty = (St.empty, .ok (({} : MetaState), none)) ∧
    ingestFinalizedBlock Config.default
        { block_num := 5, block_hash := List.replicate 32 1,
          parent_hash := List.replicate 32 0, logs := [] } 1 0 St.empty =
      (St.empty, .error (.invalidSequence 1 5)) := by
  have h := sequence_and_parent_validation Config.default
    { block_num := 5, block_hash := List.replicate 32 1,
      parent_hash := List.replicate 32 0, logs := [] } 1 0 St.empty
    {} none rfl
  exact ⟨rfl, h.1 (by decide)⟩

theorem mpres_pure (Φ) (a : α) : MPres Φ (pure a : M α) := fun _ h => h

theorem mpres_throw (Φ) (e : Err) : MPres Φ (mThrow e : M α) := fun _ h => h

theorem mpres_bind {Φ} {x : M α} {f : α → M β} (hx : MPres Φ x)
    (hf : ∀ a, MPres Φ (f a)) : MPres Φ (x >>= f) := by
  intro st h
  rw [M_bind_run]
  rcases hxst : x st with ⟨st1, r⟩
  have h1 : Φ st1.meta := by
    have := hx st h
    rw [hxst] at this
    exact this
  cases r with
  | ok a => exact hf a st1 h1
  | error e => exact h1

theorem mpres_of_fst_meta {Φ} {x : M α} (h : ∀ st, ((x st).1).meta = st.meta) :
    MPres Φ x := by
  intro st hΦ
  rw [h st]
  exact hΦ

theorem mpres_metaGet (Φ) (k : List Nat) : MPres Φ (metaGet k) :=
  mpres_of_fst_meta (fun _ => rfl)

theorem mpres_metaList (Φ) (pfx : List Nat) (c : Option (List Nat)) (n : Nat) :
    MPres Φ (metaList pfx c n) :=
  mpres_of_fst_meta (fun _ => rfl)

theorem mpres_blobPut (Φ) (k v : List Nat) : MPres Φ (blobPut k v) :=
  mpres_of_fst_meta (fun _ => rfl)

theorem mpres_blobGet (Φ) (k : List Nat) : MPres Φ (blobGet k) :=
  mpres_of_fst_meta (fun _ => rfl)

theorem mpres_blobDelete (Φ) (k : List Nat) : MPres Φ (blobDelete k) :=
  mpres_of_fst_meta (fun _ => rfl)

theorem mpres_blobList (Φ) (pfx : List Nat) (c : Option (List Nat)) (n : Nat) :
    MPres Φ (blobList pfx c n) :=
  mpres_of_fst_meta (fun _ => rfl)

theorem mpres_metaPut {Φ} (k v : List Nat) (cond : PutCond) (e : Nat)
    (hk : InsOk Φ k) : MPres Φ (metaPut k v cond e) := by
  intro st h
  unfold metaPut
  by_cases hf : e < st.minEpoch
  · rw [if_pos hf]
    exact h
  · rw [if_neg hf]
    dsimp only
    split
    · exact hk _ _ h
    · exact h

theorem mpres_metaDelete {Φ} (k : List Nat) (cond : DelCond) (e : Nat)
    (hd : DelOk Φ) : MPres Φ (metaDelete k cond e) := by
  intro st h
  unfold metaDelete
  by_cases hf : e < st.minEpoch
  · rw [if_pos hf]
    exact h
  · rw [if_neg hf]
    dsimp only
    split
    · exact hd _ _ h
    · exact h

theorem mpres_loadState (Φ) : MPres Φ loadState := by
  unfold loadState
  refine mpres_bind (mpres_metaGet _ _) ?_
  intro r
  split
  · split
    · exact mpres_pure _ _
    · exact mpres_throw _ _
  · exact mpres_pure _ _

theorem mpres_storeState (Φ) (next : MetaState) (cv : Option Nat) (e : Nat)
    (h : InsOk Φ metaStateKey) : MPres Φ (storeState next cv e) := by
  unfold storeState
  refine mpres_bind (mpres_metaPut _ _ _ _ h) ?_
  intro r
  split
  · exact mpres_throw _ _
  · exact mpres_pure _ _

theorem mpres_loadBlockMeta (Φ) (n : Nat) : MPres Φ (loadBlockMeta n) := by
  unfold loadBlockMeta
  refine mpres_bind (mpres_metaGet _ _) ?_
  intro r
  split
  · exact mpres_throw _ _
  · split
    · exact mpres_pure _ _
    · exact mpres_throw _ _

theorem mpres_loadManifest (Φ) (sid : List Nat) : MPres Φ (loadManifest sid) := by
  unfold loadManifest
  refine mpres_bind (mpres_metaGet _ _) ?_
  intro r
  split
  · split
    · exact mpres_pure _ _
    · exact mpres_throw _ _
  · exact mpres_pure _ _

theorem mpres_storeManifest (Φ) (sid : List Nat) (m : Manifest) (v : Option Nat)
    (e : Nat) (h : InsOk Φ (manifestKey sid)) : MPres Φ (storeManifest sid m v e) := by
  unfold storeManifest
  refine mpres_bind (mpres_metaPut _ _ _ _ h) ?_
  intro r
  split
  · exact mpres_throw _ _
  · exact mpres_pure _ _

theorem mpres_loadTail (Φ) (sid : List Nat) : MPres Φ (loadTail sid) := by
  unfold loadTail
  refine mpres_bind (mpres_metaGet _ _) ?_
  intro r
  split
  · split
    · exact mpres_pure _ _
    · exact mpres_throw _ _
  · exact mpres_pure _ _

theorem mpres_storeTail (Φ) (sid : List Nat) (tail : List Nat) (e : Nat)
    (h : InsOk Φ (tailKey sid)) : MPres Φ (storeTail sid tail e) := by
  unfold storeTail
  refine mpres_bind (mpres_metaPut _ _ _ _ h) ?_
  intro _
  exact mpres_pure _ _

theorem mpres_topic0LogEnabled (Φ) (t : List Nat) (n : Nat) :
    MPres Φ (topic0LogEnabled t n) := by
  unfold topic0LogEnabled
  refine mpres_bind (mpres_metaGet _ _) ?_
  intro r
  split
  · exact mpres_pure _ _
  · split
    · exact mpres_throw _ _
    · exact mpres_pure _ _

theorem mpres_updateTopic0ModeAfterStats (Φ) (t : List Nat) (bn : Nat)
    (stats : Topic0Stats) (e : Nat) (hm : InsOk Φ (topic0ModeKey t)) :
    MPres Φ (updateTopic0ModeAfterStats t bn stats e) := by
  unfold updateTopic0ModeAfterStats
  refine mpres_bind (mpres_metaGet _ _) ?_
  intro r
  dsimp only
  split
  · split
    · refine mpres_bind (mpres_pure _ _) ?_
      intro mode
      dsimp only
      refine mpres_bind (mpres_metaGet _ _) ?_
      intro mrec2
      repeat' split
      all_goals first
      | exact mpres_pure _ _
      | (refine mpres_bind (mpres_metaPut _ _ _ _ hm) ?_
         intro _
         exact mpres_pure _ _)
    · exact mpres_throw _ _
  · refine mpres_bind (mpres_pure _ _) ?_
    intro mode
    dsimp only
    refine mpres_bind (mpres_metaGet _ _) ?_
    intro mrec2
    repeat' split
    all_goals first
    | exact mpres_pure _ _
    | (refine mpres_bind (mpres_metaPut _ _ _ _ hm) ?_
       intro _
       exact mpres_pure _ _)

theorem mpres_updateOneTopic0Stats (Φ) (t : List Nat) (bn : Nat) (sb : Bool) (e : Nat)
    (hs : InsOk Φ (topic0StatsKey t)) (hm : InsOk Φ (topic0ModeKey t)) :
    MPres Φ (updateOneTopic0Stats t bn sb e) := by
  unfold updateOneTopic0Stats
  refine mpres_bind (mpres_metaGet _ _) ?_
  intro r
  dsimp only
  split
  · split
    · refine mpres_bind (mpres_pure _ _) ?_
      intro y
      dsimp only
      split
      · exact mpres_pure _ _
      · refine mpres_bind (mpres_metaPut _ _ _ _ hs) ?_
        intro result
        split
        · exact mpres_pure _ _
        · exact mpres_updateTopic0ModeAfterStats _ _ _ _ _ hm
    · exact mpres_throw _ _
  · refine mpres_bind (mpres_pure _ _) ?_
    intro y
    dsimp only
    split
    · exact mpres_pure _ _
    · refine mpres_bind (mpres_metaPut _ _ _ _ hs) ?_
      intro result
      split
      · exact mpres_pure _ _
      · exact mpres_updateTopic0ModeAfterStats _ _ _ _ _ hm

theorem mpres_updateTopic0ModesForBlock (Φ) (bn : Nat) (seen : List (List Nat)) (e : Nat)
    (hs : ∀ t, InsOk Φ (topic0StatsKey t)) (hm : ∀ t, InsOk Φ (topic0ModeKey t)) :
    MPres Φ (updateTopic0ModesForBlock bn seen e) := by
  induction seen with
  | nil => exact mpres_pure _ _
  | cons sig rest ih =>
      unfold updateTopic0ModesForBlock
      refine mpres_bind (mpres_updateOneTopic0Stats _ _ _ _ _ (hs sig) (hm sig)) ?_
      intro _
      exact ih

theorem mpres_putAllLogs (Φ) (fid e : Nat) (ls : List (Nat × Log))
    (h : ∀ i, InsOk Φ (logKey i)) : MPres Φ (putAllLogs fid e ls) := by
  induction ls with
  | nil => exact mpres_pure _ _
  | cons p rest ih =>
      obtain ⟨i, log⟩ := p
      unfold putAllLogs
      refine mpres_bind (mpres_metaPut _ _ _ _ (h _)) ?_
      intro _
      exact ih

theorem mpres_collectOneLog (Φ) (b : Block) (fid i : Nat) (log : Log)
    (acc : List (List Nat × List Nat) × List (List Nat)) :
    MPres Φ (collectOneLog b fid i log acc) := by
  unfold collectOneLog
  rcases acc with ⟨out, seen⟩
  dsimp only
  split
  · refine mpres_bind (mpres_pure _ _) ?_
    intro y
    exact mpres_pure _ _
  · refine mpres_bind (mpres_topic0LogEnabled _ _ _) ?_
    intro enabled
    refine mpres_bind (mpres_pure _ _) ?_
    intro y
    exact mpres_pure _ _

theorem mpres_collectLogsLoop (Φ) (b : Block) (fid : Nat) (ls : List (Nat × Log))
    (acc : List (List Nat × List Nat) × List (List Nat)) :
    MPres Φ (collectLogsLoop b fid ls acc) := by
  induction ls generalizing acc with
  | nil => exact mpres_pure _ _
  | cons p rest ih =>
      obtain ⟨i, log⟩ := p
      unfold collectLogsLoop
      refine mpres_bind (mpres_collectOneLog _ _ _ _ _ _) ?_
      intro acc2
      exact ih acc2

theorem mpres_collectStreamAppends (Φ) (b : Block) (fid e : Nat)
    (hs : ∀ t, InsOk Φ (topic0StatsKey t)) (hm : ∀ t, InsOk Φ (topic0ModeKey t)) :
    MPres Φ (collectStreamAppends b fid e) := by
  unfold collectStreamAppends
  refine mpres_bind (mpres_collectLogsLoop _ _ _ _ _) ?_
  rintro ⟨out, seen⟩
  dsimp only
  refine mpres_bind (mpres_updateTopic0ModesForBlock _ _ _ _ hs hm) ?_
  intro _
  exact mpres_pure _ _

theorem mpres_applyStreamAppends (Φ) (cfg : Config) (sid : List Nat)
    (values : List Nat) (e now : Nat)
    (hman : InsOk Φ (manifestKey sid)) (htl : InsOk Φ (tailKey sid)) :
    MPres Φ (applyStreamAppends cfg sid values e now) := by
  unfold applyStreamAppends
  refine mpres_bind (mpres_loadManifest _ _) ?_
  rintro ⟨manifest, mver⟩
  dsimp only
  refine mpres_bind (mpres_loadTail _ _) ?_
  intro t0
  dsimp only
  split
  · refine mpres_bind (mpres_blobPut _ _ _) ?_
    intro _
    refine mpres_bind (mpres_pure _ _) ?_
    intro y
    refine mpres_bind (mpres_storeManifest _ _ _ _ _ hman) ?_
    intro _
    refine mpres_bind (mpres_storeTail _ _ _ _ htl) ?_
    intro _
    exact mpres_pure _ _
  · refine mpres_bind (mpres_pure _ _) ?_
    intro y
    refine mpres_bind (mpres_storeManifest _ _ _ _ _ hman) ?_
    intro _
    refine mpres_bind (mpres_storeTail _ _ _ _ htl) ?_
    intro _
    exact mpres_pure _ _

theorem mpres_applyAllStreams (Φ) (cfg : Config) (e now : Nat)
    (streams : List (List Nat × List Nat))
    (hman : ∀ sid, InsOk Φ (manifestKey sid)) (htl : ∀ sid, InsOk Φ (tailKey sid)) :
    MPres Φ (applyAllStreams cfg e now streams) := by
  induction streams with
  | nil => exact mpres_pure _ _
  | cons p rest ih =>
      obtain ⟨sid, values⟩ := p
      unfold applyAllStreams
      refine mpres_bind (mpres_applyStreamAppends _ _ _ _ _ _ (hman sid) (htl sid)) ?_
      intro _
      exact ih

theorem mpres_ingestFinalizedBlock (Φ) (cfg : Config) (block : Block) (e now : Nat)
    (hstate : InsOk Φ metaStateKey)
    (hlog : ∀ i, InsOk Φ (logKey i))
    (hbm : ∀ n, InsOk Φ (blockMetaKey n))
    (hbh : ∀ h, InsOk Φ (blockHashToNumKey h))
    (hcol : ∀ fid, MPres Φ (collectStreamAppends block fid e))
    (happ : ∀ ls, MPres Φ (applyAllStreams cfg e now ls)) :
    MPres Φ (ingestFinalizedBlock cfg block e now) := by
  unfold ingestFinalizedBlock
  refine mpres_bind (mpres_loadState _) ?_
  rintro ⟨state, sver⟩
  dsimp only
  split
  · exact mpres_throw _ _
  · split
    · split
      · refine mpres_bind (mpres_pure _ _) ?_
        intro y
        split
        · refine mpres_bind (mpres_throw _ _) ?_
          intro _
          refine mpres_bind (mpres_putAllLogs _ _ _ _ hlog) ?_
          intro _
          refine mpres_bind (mpres_metaPut _ _ _ _ (hbm _)) ?_
          intro _
          refine mpres_bind (mpres_metaPut _ _ _ _ (hbh _)) ?_
          intro _
          refine mpres_bind (hcol _) ?_
          intro appends
          refine mpres_bind (happ _) ?_
          intro _
          refine mpres_bind (mpres_storeState _ _ _ _ hstate) ?_
          intro _
          exact mpres_pure _ _
        · refine mpres_bind (mpres_pure _ _) ?_
          intro _
          refine mpres_bind (mpres_putAllLogs _ _ _ _ hlog) ?_
          intro _
          refine mpres_bind (mpres_metaPut _ _ _ _ (hbm _)) ?_
          intro _
          refine mpres_bind (mpres_metaPut _ _ _ _ (hbh _)) ?_
          intro _
          refine mpres_bind (hcol _) ?_
          intro appends
          refine mpres_bind (happ _) ?_
          intro _
          refine mpres_bind (mpres_storeState _ _ _ _ hstate) ?_
          intro _
          exact mpres_pure _ _
      · refine mpres_bind (mpres_loadBlockMeta _ _) ?_
        intro m
        refine mpres_bind (mpres_pure _ _) ?_
        intro y
        split
        · refine mpres_bind (mpres_throw _ _) ?_
          intro _
          refine mpres_bind (mpres_putAllLogs _ _ _ _ hlog) ?_
          intro _
          refine mpres_bind (mpres_metaPut _ _ _ _ (hbm _)) ?_
          intro _
          refine mpres_bind (mpres_metaPut _ _ _ _ (hbh _)) ?_
          intro _
          refine mpres_bind (hcol _) ?_
          intro appends
          refine mpres_bind (happ _) ?_
          intro _
          refine mpres_bind (mpres_storeState _ _ _ _ hstate) ?_
          intro _
          exact mpres_pure _ _
        · refine mpres_bind (mpres_pure _ _) ?_
          intro _
          refine mpres_bind (mpres_putAllLogs _ _ _ _ hlog) ?_
          intro _
          refine mpres_bind (mpres_metaPut _ _ _ _ (hbm _)) ?_
          intro _
          refine mpres_bind (mpres_metaPut _ _ _ _ (hbh _)) ?_
          intro _
          refine mpres_bind (hcol _) ?_
          intro appends
          refine mpres_bind (happ _) ?_
          intro _
          refine mpres_bind (mpres_storeState _ _ _ _ hstate) ?_
          intro _
          exact mpres_pure _ _
    · refine mpres_bind (mpres_pure _ _) ?_
      intro _
      refine mpres_bind (mpres_putAllLogs _ _ _ _ hlog) ?_
      intro _
      refine mpres_bind (mpres_metaPut _ _ _ _ (hbm _)) ?_
      intro _
      refine mpres_bind (mpres_metaPut _ _ _ _ (hbh _)) ?_
      intro _
      refine mpres_bind (hcol _) ?_
      intro appends
      refine mpres_bind (happ _) ?_
      intro _
      refine mpres_bind (mpres_storeState _ _ _ _ hstate) ?_
      intro _
      exact mpres_pure _ _

theorem mpres_maintenanceLoop (Φ) (cfg : Config) (e now : Nat)
    (keys : List (List Nat)) (stats : MaintenanceStats)
    (hstream : ∀ sid values, MPres Φ (applyStreamAppends cfg sid values e now)) :
    MPres Φ (maintenanceLoop cfg e now keys stats) := by
  induction keys generalizing stats with
  | nil => exact mpres_pure _ _
  | cons key rest ih =>
      unfold maintenanceLoop
      split
      · exact ih _
      · refine mpres_bind (hstream _ _) ?_
        intro _
        exact ih _

theorem mpres_runPeriodicMaintenance (Φ) (cfg : Config) (e now : Nat)
    (hstream : ∀ sid values, MPres Φ (applyStreamAppends cfg sid values e now)) :
    MPres Φ (runPeriodicMaintenance cfg e now) := by
  unfold runPeriodicMaintenance
  refine mpres_bind (mpres_metaList _ _ _ _) ?_
  intro page
  exact mpres_maintenanceLoop _ _ _ _ _ _ hstream

theorem mpres_gcManifestLoop (Φ) (ks refd streams : List (List Nat)) :
    MPres Φ (gcManifestLoop ks refd streams) :=
  mpres_of_fst_meta (fun st => by rw [gcManifestLoop_fst])

theorem mpres_gcChunkLoop (Φ) (refd ks : List (List Nat)) (stats : GcStats) :
    MPres Φ (gcChunkLoop refd ks stats) := by
  induction ks generalizing stats with
  | nil => exact mpres_pure _ _
  | cons ck rest ih =>
      intro st h
      rw [gcChunkLoop_step]
      split
      · exact ih _ st h
      · exact ih _ _ h

theorem mpres_gcTailLoop (Φ) (streams ks : List (List Nat)) (stats : GcStats)
    (hd : DelOk Φ) : MPres Φ (gcTailLoop streams ks stats) := by
  induction ks generalizing stats with
  | nil => exact mpres_pure _ _
  | cons tk rest ih =>
      unfold gcTailLoop
      dsimp only
      split
      · exact ih _
      · refine mpres_bind (mpres_metaDelete _ _ _ hd) ?_
        intro _
        exact ih _

theorem mpres_runGcOnce (Φ) (cfg : Config) (hd : DelOk Φ) : MPres Φ (runGcOnce cfg) := by
  unfold runGcOnce
  refine mpres_bind (mpres_metaList _ _ _ _) ?_
  intro p1
  refine mpres_bind (mpres_metaList _ _ _ _) ?_
  intro p2
  refine mpres_bind (mpres_gcManifestLoop _ _ _ _) ?_
  rintro ⟨refd, streams⟩
  dsimp only
  refine mpres_bind (mpres_blobList _ _ _ _) ?_
  intro p3
  refine mpres_bind (mpres_gcChunkLoop _ _ _ _) ?_
  intro stats1
  refine mpres_bind (mpres_gcTailLoop _ _ _ _ hd) ?_
  intro stats2
  exact mpres_pure _ _

theorem mpres_pruneLoop (Φ) (minB fe : Nat) (ks : List (List Nat)) (removed : Nat)
    (hd : DelOk Φ) : MPres Φ (pruneLoop minB fe ks removed) := by
  induction ks generalizing removed with
  | nil => exact mpres_pure _ _
  | cons key rest ih =>
      unfold pruneLoop
      refine mpres_bind (mpres_metaGet _ _) ?_
      intro r
      split
      · exact ih _
      · split
        · exact mpres_throw _ _
        · split
          · refine mpres_bind (mpres_metaDelete _ _ _ hd) ?_
            intro _
            exact ih _
          · exact ih _

theorem mpres_pruneBlockHashIndexBelow (Φ) (minB fe : Nat) (hd : DelOk Φ) :
    MPres Φ (pruneBlockHashIndexBelow minB fe) := by
  unfold pruneBlockHashIndexBelow
  refine mpres_bind (mpres_metaList _ _ _ _) ?_
  intro page
  exact mpres_pruneLoop _ _ _ _ _ hd

theorem take_append_le (l1 l2 : List Nat) (n : Nat) (h : n ≤ l1.length) :
    (l1 ++ l2).take n = l1.take n := by
  induction l1 generalizing n with
  | nil =>
      simp only [List.length_nil, Nat.le_zero] at h
      subst h
      simp
  | cons a tl ih =>
      cases n with
      | zero => rfl
      | succ m =>
          simp only [List.cons_append, List.take_succ_cons]
          rw [ih _ (Nat.le_of_succ_le_succ h)]

theorem not_prefix_ns_append (p q rest : List Nat) (n : Nat)
    (hnp : n ≤ p.length) (hnq : n ≤ q.length) (hne : p.take n ≠ q.take n) :
    p.isPrefixOf (q ++ rest) = false := by
  rw [← Bool.not_eq_true]
  intro hp
  obtain ⟨t, ht⟩ := List.isPrefixOf_iff_prefix.mp hp
  apply hne
  have hc := congrArg (List.take n) ht
  rwa [take_append_le _ _ _ hnp, take_append_le _ _ _ hnq] at hc

theorem keysOf_assocInsert_subset (k : List Nat) (r : α)
    (l : List (List Nat × α)) :
    ∀ x ∈ keysOf (assocInsert k r l), x = k ∨ x ∈ keysOf l := by
  induction l with
  | nil => intro x hx; simp [assocInsert, keysOf] at hx; exact .inl hx
  | cons hd tl ih =>
      obtain ⟨k2, v2⟩ := hd
      intro x hx
      unfold assocInsert at hx
      by_cases h1 : keyLt k k2
      · rw [if_pos h1] at hx
        simp only [keysOf, List.map_cons, List.mem_cons] at hx ⊢
        tauto
      · rw [if_neg h1] at hx
        by_cases h2 : k = k2
        · rw [if_pos h2] at hx
          simp only [keysOf, List.map_cons, List.mem_cons] at hx ⊢
          tauto
        · rw [if_neg h2] at hx
          simp only [keysOf, List.map_cons, List.mem_cons] at hx ⊢
          rcases hx with hx | hx
          · exact .inr (.inl hx)
          · rcases ih x hx with hx | hx
            · exact .inl hx
            · exact .inr (.inr hx)

theorem keysOf_assocRemove_subset (k : List Nat) (l : List (List Nat × α)) :
    ∀ x ∈ keysOf (assocRemove k l), x ∈ keysOf l := by
  induction l with
  | nil => intro x hx; exact hx
  | cons hd tl ih =>
      obtain ⟨k2, v2⟩ := hd
      intro x hx
      unfold assocRemove at hx
      by_cases h1 : k = k2
      · rw [if_pos h1] at hx
        simp only [keysOf, List.map_cons, List.mem_cons]
        exact .inr hx
      · rw [if_neg h1] at hx
        simp only [keysOf, List.map_cons, List.mem_cons] at hx ⊢
        rcases hx with hx | hx
        · exact .inl hx
        · exact .inr (ih x hx)

theorem insOk_noLoc (k : List Nat) (hk : logLocatorNs.isPrefixOf k = false) :
    InsOk NoLocMeta k := by
  intro l r h x hx
  rcases keysOf_assocInsert_subset k r l x hx with rfl | hx
  · exact hk
  · exact h x hx

theorem delOk_noLoc : DelOk NoLocMeta := by
  intro l k h x hx
  exact h x (keysOf_assocRemove_subset k l x hx)

theorem noLoc_metaStateKey : logLocatorNs.isPrefixOf metaStateKey = false := by decide

theorem noLoc_logKey (i : Nat) : logLocatorNs.isPrefixOf (logKey i) = false :=
  not_prefix_ns_append _ _ _ 4 (by decide) (by decide) (by decide)

theorem noLoc_blockMetaKey (n : Nat) :
    logLocatorNs.isPrefixOf (blockMetaKey n) = false :=
  not_prefix_ns_append _ _ _ 1 (by decide) (by decide) (by decide)

theorem noLoc_blockHashToNumKey (h : List Nat) :
    logLocatorNs.isPrefixOf (blockHashToNumKey h) = false :=
  not_prefix_ns_append _ _ _ 1 (by decide) (by decide) (by decide)

theorem noLoc_topic0StatsKey (t : List Nat) :
    logLocatorNs.isPrefixOf (topic0StatsKey t) = false :=
  not_prefix_ns_append _ _ _ 1 (by decide) (by decide) (by decide)

theorem noLoc_topic0ModeKey (t : List Nat) :
    logLocatorNs.isPrefixOf (topic0ModeKey t) = false :=
  not_prefix_ns_append _ _ _ 1 (by decide) (by decide) (by decide)

theorem noLoc_manifestKey (sid : List Nat) :
    logLocatorNs.isPrefixOf (manifestKey sid) = false :=
  not_prefix_ns_append _ _ _ 1 (by decide) (by decide) (by decide)

theorem noLoc_tailKey (sid : List Nat) :
    logLocatorNs.isPrefixOf (tailKey sid) = false :=
  not_prefix_ns_append _ _ _ 1 (by decide) (by decide) (by decide)

theorem noLoc_op (op : Op) (st : St) (h : NoLocMeta st.meta) :
    NoLocMeta (Op.run op st).meta := by
  cases op with
  | ingest cfg b e n =>
      exact mpres_ingestFinalizedBlock NoLocMeta cfg b e n
        (insOk_noLoc _ noLoc_metaStateKey)
        (fun i => insOk_noLoc _ (noLoc_logKey i))
        (fun n2 => insOk_noLoc _ (noLoc_blockMetaKey n2))
        (fun h2 => insOk_noLoc _ (noLoc_blockHashToNumKey h2))
        (fun fid => mpres_collectStreamAppends NoLocMeta b fid e
          (fun t => insOk_noLoc _ (noLoc_topic0StatsKey t))
          (fun t => insOk_noLoc _ (noLoc_topic0ModeKey t)))
        (fun ls => mpres_applyAllStreams NoLocMeta cfg e n ls
          (fun sid => insOk_noLoc _ (noLoc_manifestKey sid))
          (fun sid => insOk_noLoc _ (noLoc_tailKey sid))) st h
  | maintenance cfg e n =>
      exact mpres_runPeriodicMaintenance NoLocMeta cfg e n
        (fun sid values => mpres_applyStreamAppends NoLocMeta cfg sid values e n
          (insOk_noLoc _ (noLoc_manifestKey sid))
          (insOk_noLoc _ (noLoc_tailKey sid))) st h
  | gc cfg => exact mpres_runGcOnce NoLocMeta cfg delOk_noLoc st h
  | prune m f => exact mpres_pruneBlockHashIndexBelow NoLocMeta m f delOk_noLoc st h

theorem noLoc_foldl (ops : List Op) (st : St) (h : NoLocMeta st.meta) :
    NoLocMeta (ops.foldl (fun s op => op.run s) st).meta := by
  induction ops generalizing st with
  | nil => exact h
  | cons op rest ih => exact ih _ (noLoc_op op st h)

/-- Every reachable store has no `log_locator/` records. -/
theorem noLoc_replay (ops : List Op) : NoLocMeta (replay ops).meta :=
  noLoc_foldl ops St.empty (by intro k hk; simp [St.empty, keysOf] at hk)

theorem rdOnly_pure (a : α) : RdOnly (pure a : M α) := fun _ => rfl

theorem rdOnly_throw (e : Err) : RdOnly (mThrow e : M α) := fun _ => rfl

theorem rdOnly_metaGet (k : List Nat) : RdOnly (metaGet k) := fun _ => rfl

theorem rdOnly_blobGet (k : List Nat) : RdOnly (blobGet k) := fun _ => rfl

theorem rdOnly_metaList (pfx : List Nat) (c : Option (List Nat)) (n : Nat) :
    RdOnly (metaList pfx c n) := fun _ => rfl

theorem rdOnly_bind {x : M α} {f : α → M β} (hx : RdOnly x)
    (hf : ∀ a, RdOnly (f a)) : RdOnly (x >>= f) := by
  intro st
  rw [M_bind_run]
  rcases hxst : x st with ⟨st1, r⟩
  have h1 : st1 = st := by
    have := hx st
    rw [hxst] at this
    exact this
  subst h1
  cases r with
  | ok a => exact hf a st1
  | error e => rfl

theorem rdOnly_loadLogById (id : Nat) (cache : PackCache) :
    RdOnly (loadLogById id cache) := by
  unfold loadLogById
  refine rdOnly_bind (rdOnly_metaGet _) ?_
  intro r
  dsimp only
  simp only [M_pure_bind]
  repeat' first
  | exact rdOnly_pure _
  | exact rdOnly_throw _
  | (refine rdOnly_bind (rdOnly_blobGet _) ?_; intro _)
  | split

theorem rdOnly_maybeMergeChunk (sid : List Nat) (cref : ChunkRef) (out : List Nat) :
    RdOnly (maybeMergeChunk sid cref out) := by
  unfold maybeMergeChunk
  refine rdOnly_bind (rdOnly_blobGet _) ?_
  intro b
  split
  · exact rdOnly_pure _
  · split
    · exact rdOnly_throw _
    · split
      · exact rdOnly_throw _
      · exact rdOnly_pure _

theorem rdOnly_mergeChunksLoop (sid : List Nat) (refs : List ChunkRef)
    (out : List Nat) : RdOnly (mergeChunksLoop sid refs out) := by
  induction refs generalizing out with
  | nil => exact rdOnly_pure _
  | cons cref rest ih =>
      unfold mergeChunksLoop
      refine rdOnly_bind (rdOnly_maybeMergeChunk _ _ _) ?_
      intro out2
      exact ih _

theorem rdOnly_loadStreamEntries (sid : List Nat) : RdOnly (loadStreamEntries sid) := by
  unfold loadStreamEntries
  refine rdOnly_bind (rdOnly_metaGet _) ?_
  intro r
  dsimp only
  simp only [M_pure_bind]
  repeat' first
  | exact rdOnly_pure _
  | exact rdOnly_throw _
  | (refine rdOnly_bind (rdOnly_metaGet _) ?_; intro _)
  | (refine rdOnly_bind (rdOnly_mergeChunksLoop _ _ _) ?_; intro _)
  | split

theorem rdOnly_fetchUnionLogLoop (kind : List Nat) (a b : Nat) :
    ∀ (vs : List (List Nat)) (ss : List Nat) (out : List Nat),
      RdOnly (fetchUnionLogLoop kind a b vs ss out) := by
  intro vs
  induction vs with
  | nil =>
      intro ss out
      rw [fetchUnionLogLoop]
      exact rdOnly_pure _
  | cons v vrest ihv =>
      intro ss
      induction ss with
      | nil =>
          intro out
          rw [fetchUnionLogLoop]
          exact ihv _ _
      | cons shard srest ihs =>
          intro out
          rw [fetchUnionLogLoop]
          refine rdOnly_bind (rdOnly_loadStreamEntries _) ?_
          intro entries
          exact ihs _

theorem rdOnly_fetchUnionLogLevel (kind : List Nat) (values : List (List Nat))
    (a b : Nat) : RdOnly (fetchUnionLogLevel kind values a b) := by
  unfold fetchUnionLogLevel
  split
  · exact rdOnly_pure _
  · exact rdOnly_fetchUnionLogLoop _ _ _ _ _ _

theorem rdOnly_fetchUnionBlockLoop (kind : List Nat) (a b : Nat) :
    ∀ (vs : List (List Nat)) (ss : List Nat) (out : List Nat),
      RdOnly (fetchUnionBlockLoop kind a b vs ss out) := by
  intro vs
  induction vs with
  | nil =>
      intro ss out
      rw [fetchUnionBlockLoop]
      exact rdOnly_pure _
  | cons v vrest ihv =>
      intro ss
      induction ss with
      | nil =>
          intro out
          rw [fetchUnionBlockLoop]
          exact ihv _ _
      | cons shard srest ihs =>
          intro out
          rw [fetchUnionBlockLoop]
          refine rdOnly_bind (rdOnly_loadStreamEntries _) ?_
          intro entries
          exact ihs _

theorem rdOnly_fetchUnionBlockLevel (kind : List Nat) (values : List (List Nat))
    (a b : Nat) : RdOnly (fetchUnionBlockLevel kind values a b) := by
  unfold fetchUnionBlockLevel
  split
  · exact rdOnly_pure _
  · exact rdOnly_fetchUnionBlockLoop _ _ _ _ _ _

theorem rdOnly_fetchClauseSet (plan : QueryPlan) (kind : ClauseKind) :
    RdOnly (fetchClauseSet plan kind) := by
  cases kind with
  | address =>
      unfold fetchClauseSet
      cases plan.filter.address with
      | none => exact rdOnly_pure _
      | some clause =>
          refine rdOnly_bind (rdOnly_fetchUnionLogLevel _ _ _ _) ?_
          intro s
          exact rdOnly_pure _
  | topic1 =>
      unfold fetchClauseSet
      cases plan.filter.topic1 with
      | none => exact rdOnly_pure _
      | some clause =>
          refine rdOnly_bind (rdOnly_fetchUnionLogLevel _ _ _ _) ?_
          intro s
          exact rdOnly_pure _
  | topic2 =>
      unfold fetchClauseSet
      cases plan.filter.topic2 with
      | none => exact rdOnly_pure _
      | some clause =>
          refine rdOnly_bind (rdOnly_fetchUnionLogLevel _ _ _ _) ?_
          intro s
          exact rdOnly_pure _
  | topic3 =>
      unfold fetchClauseSet
      cases plan.filter.topic3 with
      | none => exact rdOnly_pure _
      | some clause =>
          refine rdOnly_bind (rdOnly_fetchUnionLogLevel _ _ _ _) ?_
          intro s
          exact rdOnly_pure _
  | topic0Log =>
      unfold fetchClauseSet
      cases plan.filter.topic0 with
      | none => exact rdOnly_pure _
      | some clause =>
          refine rdOnly_bind (rdOnly_fetchUnionLogLevel _ _ _ _) ?_
          intro s
          exact rdOnly_pure _

theorem rdOnly_clauseSetsLoop (plan : QueryPlan) (kinds : List ClauseKind)
    (sets : List (List Nat)) : RdOnly (clauseSetsLoop plan kinds sets) := by
  induction kinds generalizing sets with
  | nil => exact rdOnly_pure _
  | cons kind rest ih =>
      unfold clauseSetsLoop
      refine rdOnly_bind (rdOnly_fetchClauseSet _ _) ?_
      intro r
      split
      · exact ih _
      · exact ih _

theorem rdOnly_hydrateLoop (plan : QueryPlan) (t0b : Option (List Nat))
    (ids : List Nat) (out : List Log) (cache : PackCache) :
    RdOnly (hydrateLoop plan t0b ids out cache) := by
  induction ids generalizing out cache with
  | nil => exact rdOnly_pure _
  | cons id rest ih =>
      unfold hydrateLoop
      refine rdOnly_bind (rdOnly_loadLogById _ _) ?_
      rintro ⟨log?, cache2⟩
      dsimp only
      split
      · exact ih _ _
      · split
        · exact ih _ _
        · split
          · exact ih _ _
          · split
            · split
              · split
                · exact rdOnly_pure _
                · exact ih _ _
              · exact ih _ _
            · exact ih _ _

theorem rdOnly_blockScanIdsLoop (plan : QueryPlan) (ids : List Nat) (out : List Log)
    (cache : PackCache) : RdOnly (blockScanIdsLoop plan ids out cache) := by
  induction ids generalizing out cache with
  | nil => exact rdOnly_pure _
  | cons id rest ih =>
      unfold blockScanIdsLoop
      refine rdOnly_bind (rdOnly_loadLogById _ _) ?_
      rintro ⟨log?, cache2⟩
      dsimp only
      split
      · exact ih _ _
      · split
        · split
          · split
            · exact rdOnly_pure _
            · exact ih _ _
          · exact ih _ _
        · exact ih _ _

theorem rdOnly_blockScanBlocksLoop (plan : QueryPlan) (bs : List Nat) (out : List Log)
    (cache : PackCache) : RdOnly (blockScanBlocksLoop plan bs out cache) := by
  induction bs generalizing out cache with
  | nil => exact rdOnly_pure _
  | cons b rest ih =>
      unfold blockScanBlocksLoop
      refine rdOnly_bind (rdOnly_metaGet _) ?_
      intro r
      split
      · exact ih _ _
      · split
        · exact rdOnly_throw _
        · refine rdOnly_bind (rdOnly_blockScanIdsLoop _ _ _ _) ?_
          intro r2
          split
          · exact rdOnly_pure _
          · exact ih _ _

theorem rdOnly_executeBlockScan (plan : QueryPlan) (cache : PackCache) :
    RdOnly (executeBlockScan plan cache) :=
  rdOnly_blockScanBlocksLoop _ _ _ _

theorem rdOnly_executePlan (plan : QueryPlan) : RdOnly (executePlan plan) := by
  unfold executePlan
  split
  · exact rdOnly_executeBlockScan _ _
  · refine rdOnly_bind (rdOnly_clauseSetsLoop _ _ _) ?_
    intro sets
    dsimp only
    simp only [M_pure_bind]
    repeat' first
    | exact rdOnly_pure _
    | exact rdOnly_throw _
    | (refine rdOnly_bind (rdOnly_fetchUnionBlockLevel _ _ _ _) ?_; intro _)
    | (refine rdOnly_bind (rdOnly_hydrateLoop _ _ _ _ _) ?_; intro _)
    | split

theorem rdOnly_estimateStreamOverlap (sid : List Nat) (a b shard : Nat) :
    RdOnly (estimateStreamOverlap sid a b shard) := by
  unfold estimateStreamOverlap
  refine rdOnly_bind (rdOnly_metaGet _) ?_
  intro r
  dsimp only
  simp only [M_pure_bind]
  repeat' first
  | exact rdOnly_pure _
  | exact rdOnly_throw _
  | (refine rdOnly_bind (rdOnly_metaGet _) ?_; intro _)
  | split

theorem rdOnly_estimateValuesLoop (kind : List Nat) (a b : Nat) :
    ∀ (vs : List (List Nat)) (ss : List Nat) (sum : Nat),
      RdOnly (estimateValuesLoop kind a b vs ss sum) := by
  intro vs
  induction vs with
  | nil =>
      intro ss sum
      rw [estimateValuesLoop]
      exact rdOnly_pure _
  | cons v vrest ihv =>
      intro ss
      induction ss with
      | nil =>
          intro sum
          rw [estimateValuesLoop]
          intro st
          exact ihv _ _ st
      | cons shard srest ihs =>
          intro sum
          rw [estimateValuesLoop]
          refine rdOnly_bind (rdOnly_estimateStreamOverlap _ _ _ _) ?_
          intro c
          exact ihs _

theorem rdOnly_estimateForValues (kind : List Nat) (values : List (List Nat))
    (a b : Nat) : RdOnly (estimateForValues kind values a b) := by
  unfold estimateForValues
  split
  · exact rdOnly_pure _
  · exact rdOnly_estimateValuesLoop _ _ _ _ _ _

theorem rdOnly_clauseEstimateStep (kind : ClauseKind) (kb : List Nat)
    (c : Option (Clause (List Nat))) (a b : Nat) (cs : List (ClauseKind × Nat)) :
    RdOnly (clauseEstimateStep kind kb c a b cs) := by
  unfold clauseEstimateStep
  split
  · exact rdOnly_pure _
  · dsimp only
    split
    · exact rdOnly_pure _
    · refine rdOnly_bind (rdOnly_estimateForValues _ _ _ _) ?_
      intro e
      exact rdOnly_pure _

theorem rdOnly_clauseEstimateStepT0 (c : Option (Clause (List Nat)))
    (a b : Nat) (cs : List (ClauseKind × Nat)) :
    RdOnly (clauseEstimateStepT0 c a b cs) := by
  unfold clauseEstimateStepT0
  split
  · exact rdOnly_pure _
  · dsimp only
    split
    · exact rdOnly_pure _
    · refine rdOnly_bind (rdOnly_estimateForValues _ _ _ _) ?_
      intro e
      split
      · exact rdOnly_pure _
      · exact rdOnly_pure _

theorem rdOnly_buildClauseOrder (f : LogFilter) (a b : Nat) :
    RdOnly (buildClauseOrder f a b) := by
  unfold buildClauseOrder
  refine rdOnly_bind (rdOnly_clauseEstimateStep _ _ _ _ _ _) ?_
  intro c1
  refine rdOnly_bind (rdOnly_clauseEstimateStep _ _ _ _ _ _) ?_
  intro c2
  refine rdOnly_bind (rdOnly_clauseEstimateStep _ _ _ _ _ _) ?_
  intro c3
  refine rdOnly_bind (rdOnly_clauseEstimateStep _ _ _ _ _ _) ?_
  intro c4
  refine rdOnly_bind (rdOnly_clauseEstimateStepT0 _ _ _ _) ?_
  intro c5
  exact rdOnly_pure _

theorem rdOnly_queryFinalized (cfg : Config) (f : LogFilter) (o : QueryOptions) :
    RdOnly (queryFinalized cfg f o) := by
  unfold queryFinalized
  dsimp only
  simp only [M_pure_bind]
  repeat' first
  | exact rdOnly_pure _
  | exact rdOnly_throw _
  | exact rdOnly_executePlan _
  | (refine rdOnly_bind (rdOnly_metaGet _) ?_; intro _)
  | (refine rdOnly_bind (rdOnly_buildClauseOrder _ _ _) ?_; intro _)
  | split

/-! ## Hydration on reachable stores -/
theorem isPrefixOf_append_self (p rest : List Nat) :
    p.isPrefixOf (p ++ rest) = true :=
  List.isPrefixOf_iff_prefix.mpr ⟨rest, rfl⟩

theorem loadLogById_noLoc (id : Nat) (cache : PackCache) (st : St)
    (h : NoLocMeta st.meta) : loadLogById id cache st = (st, .ok (none, cache)) := by
  have hfind : assocFind (logLocatorKey id) st.meta = none := by
    rw [assocFind_eq_none]
    intro hmem
    have hf := h _ hmem
    rw [logLocatorKey, isPrefixOf_append_self] at hf
    simp at hf
  have h1 : metaGet (logLocatorKey id) st = (st, .ok none) := by
    rw [metaGet_run, hfind]
  unfold loadLogById
  rw [M_bind_ok h1]
  rfl

theorem hydrateLoop_noLoc (plan : QueryPlan) (t0b : Option (List Nat))
    (ids : List Nat) (out : List Log) (cache : PackCache) (st : St)
    (h : NoLocMeta st.meta) :
    hydrateLoop plan t0b ids out cache st = (st, .ok out) := by
  induction ids generalizing out cache with
  | nil => rfl
  | cons id rest ih =>
      unfold hydrateLoop
      rw [M_bind_ok (loadLogById_noLoc id cache st h)]
      exact ih out cache

theorem blockScanIdsLoop_noLoc (plan : QueryPlan) (ids : List Nat) (out : List Log)
    (cache : PackCache) (st : St) (h : NoLocMeta st.meta) :
    blockScanIdsLoop plan ids out cache st = (st, .ok (.inl (out, cache))) := by
  induction ids generalizing out cache with
  | nil => rfl
  | cons id rest ih =>
      unfold blockScanIdsLoop
      rw [M_bind_ok (loadLogById_noLoc id cache st h)]
      exact ih out cache

theorem M_bind_ok_rdOnly {x : M α} {f : α → M β} {st : St} {r : β} {P : Prop}
    (hx : RdOnly x) (hok : ((x >>= f) st).2 = .ok r)
    (hf : ∀ a, ((f a) st).2 = .ok r → P) : P := by
  rw [M_bind_run] at hok
  rcases hxst : x st with ⟨st1, r1⟩
  have h1 : st1 = st := by
    have := hx st
    rw [hxst] at this
    exact this
  subst h1
  rw [hxst] at hok
  cases r1 with
  | ok a => exact hf a hok
  | error e => simp at hok

theorem blockScanBlocksLoop_ok (plan : QueryPlan) (bs : List Nat) (out : List Log)
    (cache : PackCache) (st : St) (logs : List Log) (h : NoLocMeta st.meta)
    (hok : (blockScanBlocksLoop plan bs out cache st).2 = .ok logs) :
    logs = sortLogs out := by
  induction bs generalizing out cache with
  | nil =>
      simp only [blockScanBlocksLoop, M_pure_run] at hok
      exact (Except.ok.injEq _ _).mp hok.symm
  | cons b rest ih =>
      unfold blockScanBlocksLoop at hok
      refine M_bind_ok_rdOnly (rdOnly_metaGet _) hok ?_
      intro r hok2
      cases r with
      | none => exact ih _ _ hok2
      | some m =>
          dsimp only at hok2
          cases hdec : decodeBlockMeta m.value with
          | error e =>
              rw [hdec] at hok2
              simp [mThrow] at hok2
          | ok meta =>
              rw [hdec] at hok2
              dsimp only at hok2
              rw [M_bind_ok (blockScanIdsLoop_noLoc plan _ out cache st h)] at hok2
              exact ih _ _ hok2

theorem executeBlockScan_ok (plan : QueryPlan) (cache : PackCache) (st : St)
    (logs : List Log) (h : NoLocMeta st.meta)
    (hok : (executeBlockScan plan cache st).2 = .ok logs) : logs = [] := by
  have := blockScanBlocksLoop_ok plan _ [] cache st logs h hok
  simpa [sortLogs] using this

theorem executePlan_ok (plan : QueryPlan) (st : St) (logs : List Log)
    (h : NoLocMeta st.meta) (hok : (executePlan plan st).2 = .ok logs) :
    logs = [] := by
  unfold executePlan at hok
  by_cases hf : plan.force_block_scan
  · rw [if_pos hf] at hok
    exact executeBlockScan_ok _ _ _ _ h hok
  · rw [if_neg hf] at hok
    refine M_bind_ok_rdOnly (rdOnly_clauseSetsLoop _ _ _) hok ?_
    intro sets hok2
    dsimp only at hok2
    have hfin : ∀ (c : List Nat) (t0b : Option (List Nat)),
        (((hydrateLoop plan t0b c [] []) >>= fun out => pure (sortLogs out)) st).2 =
          .ok logs → logs = [] := by
      intro c t0b hk
      rw [M_bind_ok (hydrateLoop_noLoc plan t0b c [] [] st h)] at hk
      simp only [M_pure_run] at hk
      exact ((Except.ok.injEq _ _).mp hk).symm
    cases hpt : plan.filter.topic0 with
    | none =>
        rw [hpt] at hok2
        dsimp only at hok2
        rw [M_pure_bind] at hok2
        exact hfin _ _ hok2
    | some tc =>
        rw [hpt] at hok2
        dsimp only at hok2
        by_cases he : (clauseValues tc).isEmpty
        · rw [if_pos he] at hok2
          rw [M_pure_bind] at hok2
          exact hfin _ _ hok2
        · rw [if_neg he] at hok2
          refine M_bind_ok_rdOnly (rdOnly_fetchUnionBlockLevel _ _ _ _) hok2 ?_
          intro s hok3
          rw [M_pure_bind] at hok3
          exact hfin _ _ hok3

theorem queryFinalized_ok (cfg : Config) (f : LogFilter) (o : QueryOptions)
    (st : St) (logs : List Log) (h : NoLocMeta st.meta)
    (hok : (queryFinalized cfg f o st).2 = .ok logs) : logs = [] := by
  unfold queryFinalized at hok
  by_cases hb : shouldErrorTooBroad f cfg.planner_max_or_terms
      cfg.planner_broad_query_policy
  · rw [if_pos hb] at hok
    simp [mThrow] at hok
  · rw [if_neg hb] at hok
    refine M_bind_ok_rdOnly (rdOnly_metaGet _) hok ?_
    intro r hok
    cases r with
    | none =>
        dsimp only at hok
        rw [M_pure_bind] at hok
        dsimp only at hok
        simp only [M_pure_run] at hok
        exact ((Except.ok.injEq _ _).mp hok).symm
    | some r0 =>
        dsimp only at hok
        cases hdec : decodeMetaState r0.value with
        | error e =>
            rw [hdec] at hok
            dsimp only at hok
            rw [M_bind_err (M_throw_run _ _)] at hok
            simp at hok
        | ok s =>
            rw [hdec] at hok
            dsimp only at hok
            rw [M_pure_bind] at hok
            dsimp only at hok
            by_cases hc : f.block_hash.isSome = true ∧
                (f.from_block.isSome = true ∨ f.to_block.isSome = true)
            · rw [if_pos hc] at hok
              simp [mThrow] at hok
            · rw [if_neg hc] at hok
              cases hbh : f.block_hash with
              | some blockHash =>
                  rw [hbh] at hok
                  dsimp only at hok
                  refine M_bind_ok_rdOnly (rdOnly_metaGet _) hok ?_
                  intro r2 hok
                  cases r2 with
                  | none =>
                      dsimp only at hok
                      rw [M_bind_err (M_throw_run _ _)] at hok
                      simp at hok
                  | some r2v =>
                      dsimp only at hok
                      cases hdec2 : decodeU64 r2v.value with
                      | error e =>
                          rw [hdec2] at hok
                          dsimp only at hok
                          rw [M_bind_err (M_throw_run _ _)] at hok
                          simp at hok
                      | ok num =>
                          rw [hdec2] at hok
                          dsimp only at hok
                          rw [M_pure_bind] at hok
                          refine M_bind_ok_rdOnly (rdOnly_metaGet _) hok ?_
                          intro r3 hok
                          cases r3 with
                          | none =>
                              dsimp only at hok
                              rw [M_bind_err (M_throw_run _ _)] at hok
                              simp at hok
                          | some r3v =>
                              dsimp only at hok
                              cases hdec3 : decodeBlockMeta r3v.value with
                              | error e =>
                                  rw [hdec3] at hok
                                  dsimp only at hok
                                  rw [M_bind_err (M_throw_run _ _)] at hok
                                  simp at hok
                              | ok meta =>
                                  rw [hdec3] at hok
                                  dsimp only at hok
                                  rw [M_pure_bind] at hok
                                  by_cases hne : meta.block_hash ≠ blockHash
                                  · rw [if_pos hne] at hok
                                    simp [mThrow] at hok
                                  · rw [if_neg hne] at hok
                                    exact executePlan_ok _ _ _ h hok
              | none =>
                  rw [hbh] at hok
                  dsimp only at hok
                  by_cases h1 : f.from_block.getD 0 > s.indexed_finalized_head
                  · rw [if_pos h1] at hok
                    simp only [M_pure_run] at hok
                    exact ((Except.ok.injEq _ _).mp hok).symm
                  · rw [if_neg h1] at hok
                    by_cases h2 : f.from_block.getD 0 >
                        min (f.to_block.getD s.indexed_finalized_head)
                          s.indexed_finalized_head
                    · rw [if_pos h2] at hok
                      simp only [M_pure_run] at hok
                      exact ((Except.ok.injEq _ _).mp hok).symm
                    · rw [if_neg h2] at hok
                      refine M_bind_ok_rdOnly (rdOnly_metaGet _) hok ?_
                      intro r4 hok
                      cases r4 with
                      | none =>
                          dsimp only at hok
                          rw [M_pure_bind] at hok
                          dsimp only at hok
                          simp only [M_pure_run] at hok
                          exact ((Except.ok.injEq _ _).mp hok).symm
                      | some r4v =>
                          dsimp only at hok
                          cases hdec4 : decodeBlockMeta r4v.value with
                          | error e =>
                              rw [hdec4] at hok
                              dsimp only at hok
                              rw [M_bind_err (M_throw_run _ _)] at hok
                              simp at hok
                          | ok fromMeta =>
                              rw [hdec4] at hok
                              dsimp only at hok
                              rw [M_pure_bind] at hok
                              dsimp only at hok
                              refine M_bind_ok_rdOnly (rdOnly_metaGet _) hok ?_
                              intro r5 hok
                              cases r5 with
                              | none =>
                                  dsimp only at hok
                                  rw [M_pure_bind] at hok
                                  dsimp only at hok
                                  simp only [M_pure_run] at hok
                                  exact ((Except.ok.injEq _ _).mp hok).symm
                              | some r5v =>
                                  dsimp only at hok
                                  cases hdec5 : decodeBlockMeta r5v.value with
                                  | error e =>
                                      rw [hdec5] at hok
                                      dsimp only at hok
                                      rw [M_bind_err (M_throw_run _ _)] at hok
                                      simp at hok
                                  | ok toMeta =>
                                      rw [hdec5] at hok
                                      dsimp only at hok
                                      rw [M_pure_bind] at hok
                                      dsimp only at hok
                                      by_cases h3 : fromMeta.first_log_id >
                                          toMeta.first_log_id + (toMeta.count - 1)
                                      · rw [if_pos h3] at hok
                                        simp only [M_pure_run] at hok
                                        exact ((Except.ok.injEq _ _).mp hok).symm
                                      · rw [if_neg h3] at hok
                                        by_cases h4 : shouldForceBlockScan f
                                            cfg.planner_max_or_terms
                                            cfg.planner_broad_query_policy = true
                                        · rw [if_pos h4] at hok
                                          rw [M_pure_bind] at hok
                                          exact executePlan_ok _ _ _ h hok
                                        · rw [if_neg h4] at hok
                                          refine M_bind_ok_rdOnly
                                            (rdOnly_buildClauseOrder _ _ _) hok ?_
                                          intro co hok
                                          exact executePlan_ok _ _ _ h hok

/-- C1: over every ingested history (any sequence of ingest, maintenance, GC
and fencing operations replayed from the empty store), whenever the indexed
path and the naive block scan both succeed on the same plan they return the
same logs.  On every reachable store both paths hydrate through the
`log_locator/` namespace, which no writer populates, so each returns the
empty list and the equality holds. -/
theorem indexed_equals_blockscan (ops : List Op) (plan : QueryPlan)
    (logs logs' : List Log)
    (h1 : (executePlan plan (replay ops)).2 = .ok logs)
    (h2 : (executeBlockScan plan [] (replay ops)).2 = .ok logs') :
    logs = logs' := by
  rw [executePlan_ok plan _ logs (noLoc_replay ops) h1,
    executeBlockScan_ok plan [] _ logs' (noLoc_replay ops) h2]

theorem indexed_equals_blockscan_witness :
    (executePlan c1Plan (replay [])).2 = .ok [] ∧
    (executeBlockScan c1Plan [] (replay [])).2 = .ok [] ∧
    ([] : List Log) = [] :=
  ⟨rfl, rfl, indexed_equals_blockscan [] c1Plan [] [] rfl rfl⟩

/-- C2: the S1 scenario cannot return the two matching logs.  For every
reachable store — in particular the one obtained by replaying the two S1
ingests — every successful `queryFinalized` with the S1 filter returns the
empty list, because `load_log_by_id` hydrates via `log_locator/<id>` while
ingest writes the records under `logs/<id>`. -/
theorem s1_indexed_query_empty (cfg : Config) (o : QueryOptions)
    (ops : List Op) (logs : List Log)
    (hok : (queryFinalized cfg s1Filter o (replay ops)).2 = .ok logs) :
    logs = [] :=
  queryFinalized_ok cfg s1Filter o (replay ops) logs (noLoc_replay ops) hok

theorem s1_indexed_query_empty_witness :
    (queryFinalized Config.default s1Filter {} (replay [])).2 = .ok [] ∧
    ([] : List Log) = [] :=
  ⟨rfl, s1_indexed_query_empty Config.default {} [] [] rfl⟩

theorem assocFind_isSome_of_mem (k : List Nat) (l : List (List Nat × Rec))
    (h : k ∈ l.map Prod.fst) : (assocFind k l).isSome = true := by
  induction l with
  | nil => simp at h
  | cons hd tl ih =>
      obtain ⟨k', v'⟩ := hd
      unfold assocFind
      by_cases he : k = k'
      · rw [if_pos he]; rfl
      · rw [if_neg he]
        simp only [List.map_cons, List.mem_cons] at h
        exact ih (h.resolve_left he)

theorem assocFind_remove_isSome (k x : List Nat) (l : List (List Nat × Rec))
    (h : (assocFind x (assocRemove k l)).isSome = true) :
    (assocFind x l).isSome = true := by
  induction l with
  | nil => simpa [assocRemove, assocFind] using h
  | cons hd tl ih =>
      obtain ⟨k', v'⟩ := hd
      unfold assocRemove at h
      by_cases hkk : k = k'
      · rw [if_pos hkk] at h
        unfold assocFind
        by_cases hx : x = k'
        · rw [if_pos hx]; rfl
        · rw [if_neg hx]; exact h
      · rw [if_neg hkk] at h
        unfold assocFind at h ⊢
        by_cases hx : x = k'
        · rw [if_pos hx] at h ⊢; exact h
        · rw [if_neg hx] at h ⊢; exact ih h

theorem tailKey_ne_of_not_tails (sid : List Nat) {k : List Nat}
    (hk : tailsNs.isPrefixOf k = false) : tailKey sid ≠ k := by
  intro he
  rw [← he] at hk
  simp [tailKey, isPrefixOf_append_self] at hk

theorem manifestKey_ne_of_not_manifests (sid : List Nat) {k : List Nat}
    (hk : manifestsNs.isPrefixOf k = false) : manifestKey sid ≠ k := by
  intro he
  rw [← he] at hk
  simp [manifestKey, isPrefixOf_append_self] at hk

theorem tails_not_prefix_manifestKey (sid : List Nat) :
    tailsNs.isPrefixOf (manifestKey sid) = false :=
  not_prefix_ns_append _ _ _ 1 (by decide) (by decide) (by decide)

theorem manifests_not_prefix_tailKey (sid : List Nat) :
    manifestsNs.isPrefixOf (tailKey sid) = false :=
  not_prefix_ns_append _ _ _ 1 (by decide) (by decide) (by decide)

theorem tailKey_inj {sid sid' : List Nat} (h : tailKey sid = tailKey sid') :
    sid = sid' := by
  simpa [tailKey] using h

theorem insOk_tailImp {k : List Nat} (hk : tailsNs.isPrefixOf k = false) :
    InsOk TailImp k := by
  intro l r h sid hs
  rw [assocFind_insert_ne _ _ _ _ (tailKey_ne_of_not_tails sid hk)] at hs
  by_cases he : manifestKey sid = k
  · rw [he, assocFind_insert_self]; rfl
  · rw [assocFind_insert_ne _ _ _ _ he]
    exact h sid hs

theorem tailImp_remove {k : List Nat} (hk : manifestsNs.isPrefixOf k = false)
    (l : List (List Nat × Rec)) (h : TailImp l) : TailImp (assocRemove k l) := by
  intro sid hs
  have hs' := assocFind_remove_isSome k _ l hs
  rw [assocFind_remove_ne _ _ _ (manifestKey_ne_of_not_manifests sid hk)]
  exact h sid hs'

theorem tailImp_insert_tail (sid : List Nat) (r : Rec) (l : List (List Nat × Rec))
    (h : TailImp l) (hman : (assocFind (manifestKey sid) l).isSome = true) :
    TailImp (assocInsert (tailKey sid) r l) := by
  intro sid' hs
  rw [assocFind_insert_ne _ _ _ _
    (manifestKey_ne_of_not_manifests sid' (manifests_not_prefix_tailKey sid))]
  by_cases he : sid' = sid
  · subst he; exact hman
  · rw [assocFind_insert_ne _ _ _ _ (fun hh => he (tailKey_inj hh))] at hs
    exact h sid' hs

/-- Case analysis of one `metaPut`: fenced-out error, conditional write
refused, or the record inserted. -/
theorem metaPut_cases (k v : List Nat) (cond : PutCond) (e : Nat) (st : St) :
    (metaPut k v cond e st = (st, .error .leaseLost)) ∨
    (∃ res, metaPut k v cond e st = (st, .ok res) ∧ res.applied = false) ∨
    (∃ nv, metaPut k v cond e st =
      ({ st with meta := assocInsert k { value := v, version := nv } st.meta,
                 trace := .mput k :: st.trace },
       .ok { applied := true, version := some nv })) := by
  unfold metaPut
  by_cases h1 : e < st.minEpoch
  · left; rw [if_pos h1]
  · rw [if_neg h1]
    right
    dsimp only
    split
    · right; exact ⟨_, rfl⟩
    · left; exact ⟨_, rfl, rfl⟩

/-- The `metaPut`-then-check pattern of `store_manifest`: an error leaves the
state unchanged. -/
theorem putGuard_err (k val : List Nat) (cond : PutCond) (e : Nat)
    (st st' : St) (er : Err)
    (hx : (metaPut k val cond e >>= fun r =>
      if !r.applied then (mThrow Err.casConflict : M Unit) else pure ()) st =
      (st', .error er)) : st' = st := by
  rcases metaPut_cases k val cond e st with hp | ⟨res, hp, hres⟩ | ⟨nv, hp⟩
  · rw [M_bind_err hp] at hx
    exact (congrArg Prod.fst hx).symm
  · rw [M_bind_ok hp, hres] at hx
    exact (congrArg Prod.fst hx).symm
  · rw [M_bind_ok hp] at hx
    simp [M_pure_run] at hx

theorem putGuard_ok (k val : List Nat) (cond : PutCond) (e : Nat)
    (st st' : St) (u : Unit)
    (hx : (metaPut k val cond e >>= fun r =>
      if !r.applied then (mThrow Err.casConflict : M Unit) else pure ()) st =
      (st', .ok u)) :
    ∃ nv, st'.meta = assocInsert k { value := val, version := nv } st.meta := by
  rcases metaPut_cases k val cond e st with hp | ⟨res, hp, hres⟩ | ⟨nv, hp⟩
  · rw [M_bind_err hp] at hx
    simp at hx
  · rw [M_bind_ok hp, hres] at hx
    simp [mThrow] at hx
  · rw [M_bind_ok hp] at hx
    refine ⟨nv, ?_⟩
    have h1 : ({ st with
        meta := assocInsert k { value := val, version := nv } st.meta,
        trace := .mput k :: st.trace } : St) = st' := congrArg Prod.fst hx
    rw [← h1]

theorem storeManifest_err (sid : List Nat) (m : Manifest) (v : Option Nat)
    (e : Nat) (st st' : St) (er : Err)
    (hx : storeManifest sid m v e st = (st', .error er)) : st' = st := by
  unfold storeManifest at hx
  exact putGuard_err _ _ _ _ _ _ _ hx

theorem storeManifest_ok (sid : List Nat) (m : Manifest) (v : Option Nat)
    (e : Nat) (st st' : St) (u : Unit)
    (hx : storeManifest sid m v e st = (st', .ok u)) :
    ∃ nv, st'.meta = assocInsert (manifestKey sid)
      { value := encodeManifest m, version := nv } st.meta := by
  unfold storeManifest at hx
  exact putGuard_ok _ _ _ _ _ _ _ hx

theorem storeTail_meta (sid tail : List Nat) (e : Nat) (st : St) :
    (storeTail sid tail e st).1.meta = st.meta ∨
    ∃ r, (storeTail sid tail e st).1.meta =
      assocInsert (tailKey sid) r st.meta := by
  unfold storeTail
  rcases metaPut_cases (tailKey sid) (encodeTail tail) .any e st with
    hp | ⟨res, hp, hres⟩ | ⟨nv, hp⟩
  · left
    rw [M_bind_err hp]
  · left
    rw [M_bind_ok hp]
    rfl
  · right
    exact ⟨{ value := encodeTail tail, version := nv },
      by rw [M_bind_ok hp]; rfl⟩

theorem rdOnly_loadManifest (sid : List Nat) : RdOnly (loadManifest sid) := by
  refine rdOnly_bind (rdOnly_metaGet _) ?_
  intro r
  cases r with
  | none => exact rdOnly_pure _
  | some rr =>
      dsimp only
      intro st
      cases hdec : decodeManifest rr.value with
      | ok m => rfl
      | error e2 => rfl

theorem rdOnly_loadTail (sid : List Nat) : RdOnly (loadTail sid) := by
  refine rdOnly_bind (rdOnly_metaGet _) ?_
  intro r
  cases r with
  | none => exact rdOnly_pure _
  | some rr =>
      dsimp only
      intro st
      cases hdec : decodeTail rr.value with
      | ok bm => rfl
      | error e2 => rfl

/-- The manifest-CAS-then-tail-write suffix of `apply_stream_appends`
preserves the invariant: the tail is only persisted after the manifest CAS
succeeded, and a successful CAS leaves a manifest record. -/
theorem tailImp_storeThenTail (sid : List Nat) (m : Manifest) (mv : Option Nat)
    (tail : List Nat) (e : Nat) (b : Bool) :
    MPres TailImp (storeManifest sid m mv e >>= fun _ =>
      storeTail sid tail e >>= fun _ => pure b) := by
  intro st h
  rw [M_bind_run]
  rcases hsm : storeManifest sid m mv e st with ⟨st4, r4⟩
  cases r4 with
  | error e4 =>
      dsimp only
      rw [storeManifest_err _ _ _ _ _ _ _ hsm]
      exact h
  | ok u4 =>
      dsimp only
      obtain ⟨rr, hmeta4⟩ := storeManifest_ok _ _ _ _ _ _ _ hsm
      have h4 : TailImp st4.meta := by
        rw [hmeta4]
        exact insOk_tailImp (tails_not_prefix_manifestKey sid) _ _ h
      have hman4 : (assocFind (manifestKey sid) st4.meta).isSome = true := by
        rw [hmeta4, assocFind_insert_self]
        rfl
      rw [M_bind_run]
      rcases hstl : storeTail sid tail e st4 with ⟨st5, r5⟩
      have h5 : TailImp st5.meta := by
        have hfst : st5 = (storeTail sid tail e st4).1 :=
          (congrArg Prod.fst hstl).symm
        rcases storeTail_meta sid tail e st4 with hm5 | ⟨r5v, hm5⟩
        · rw [hfst, hm5]
          exact h4
        · rw [hfst, hm5]
          exact tailImp_insert_tail sid r5v _ h4 hman4
      cases r5 with
      | error e5 => exact h5
      | ok u5 => exact h5

/-- `apply_stream_appends` preserves the tail-implies-manifest invariant:
every path to the tail write first issues the manifest write, and every
error path stops before the tail write. -/
theorem tailImp_applyStreamAppends (cfg : Config) (sid : List Nat)
    (values : List Nat) (e now : Nat) :
    MPres TailImp (applyStreamAppends cfg sid values e now) := by
  unfold applyStreamAppends
  refine mpres_bind (mpres_of_fst_meta (fun st => by rw [rdOnly_loadManifest])) ?_
  rintro ⟨manifest, mver⟩
  dsimp only
  refine mpres_bind (mpres_of_fst_meta (fun st => by rw [rdOnly_loadTail])) ?_
  intro t0
  dsimp only
  split
  · refine mpres_bind (mpres_blobPut _ _ _) ?_
    intro _
    simp only [M_pure_bind]
    exact tailImp_storeThenTail _ _ _ _ _ _
  · simp only [M_pure_bind]
    exact tailImp_storeThenTail _ _ _ _ _ _

theorem tailImp_applyAllStreams (cfg : Config) (e now : Nat)
    (streams : List (List Nat × List Nat)) :
    MPres TailImp (applyAllStreams cfg e now streams) := by
  induction streams with
  | nil => exact mpres_pure _ _
  | cons p rest ih =>
      obtain ⟨sid, values⟩ := p
      unfold applyAllStreams
      refine mpres_bind (tailImp_applyStreamAppends cfg sid values e now) ?_
      intro _
      exact ih

theorem tails_not_prefix_metaStateKey : tailsNs.isPrefixOf metaStateKey = false := by
  decide

theorem tails_not_prefix_logKey (i : Nat) : tailsNs.isPrefixOf (logKey i) = false :=
  not_prefix_ns_append _ _ _ 1 (by decide) (by decide) (by decide)

theorem tails_not_prefix_blockMetaKey (n : Nat) :
    tailsNs.isPrefixOf (blockMetaKey n) = false :=
  not_prefix_ns_append _ _ _ 1 (by decide) (by decide) (by decide)

theorem tails_not_prefix_blockHashToNumKey (h : List Nat) :
    tailsNs.isPrefixOf (blockHashToNumKey h) = false :=
  not_prefix_ns_append _ _ _ 1 (by decide) (by decide) (by decide)

theorem tails_not_prefix_topic0StatsKey (t : List Nat) :
    tailsNs.isPrefixOf (topic0StatsKey t) = false :=
  not_prefix_ns_append _ _ _ 2 (by decide) (by decide) (by decide)

theorem tails_not_prefix_topic0ModeKey (t : List Nat) :
    tailsNs.isPrefixOf (topic0ModeKey t) = false :=
  not_prefix_ns_append _ _ _ 2 (by decide) (by decide) (by decide)

theorem manifests_not_prefix_of_tails (k : List Nat)
    (h : tailsNs.isPrefixOf k = true) : manifestsNs.isPrefixOf k = false := by
  obtain ⟨t, ht⟩ := List.isPrefixOf_iff_prefix.mp h
  rw [← ht]
  exact not_prefix_ns_append _ _ _ 1 (by decide) (by decide) (by decide)

theorem manifests_not_prefix_of_blockHash (k : List Nat)
    (h : blockHashNs.isPrefixOf k = true) : manifestsNs.isPrefixOf k = false := by
  obtain ⟨t, ht⟩ := List.isPrefixOf_iff_prefix.mp h
  rw [← ht]
  exact not_prefix_ns_append _ _ _ 1 (by decide) (by decide) (by decide)

theorem pageOf_keys_pfx (keys : List (List Nat)) (pfx : List Nat)
    (c : Option (List Nat)) (n : Nat) (k : List Nat)
    (hk : k ∈ (pageOf keys pfx c n).keys) : pfx.isPrefixOf k = true := by
  unfold pageOf at hk
  dsimp only at hk
  have hsel : k ∈ keys.filter
      (fun k => ¬ keyLt k (c.getD []) ∧ pfx.isPrefixOf k) := by
    split at hk
    · exact List.mem_of_mem_take hk
    · exact hk
  have := List.of_mem_filter hsel
  simp only [decide_eq_true_eq] at this
  exact this.2

theorem mpres_metaDelete_at {Φ} (k : List Nat) (cond : DelCond) (e : Nat)
    (hk : ∀ l, Φ l → Φ (assocRemove k l)) : MPres Φ (metaDelete k cond e) := by
  intro st h
  unfold metaDelete
  by_cases hf : e < st.minEpoch
  · rw [if_pos hf]
    exact h
  · rw [if_neg hf]
    dsimp only
    split
    · exact hk _ h
    · exact h

theorem mpres_gcTailLoop_at (Φ) (streams : List (List Nat)) :
    ∀ ks : List (List Nat),
      (∀ tk ∈ ks, ∀ l, Φ l → Φ (assocRemove tk l)) →
      ∀ stats, MPres Φ (gcTailLoop streams ks stats) := by
  intro ks
  induction ks with
  | nil => intro _ stats; exact mpres_pure _ _
  | cons tk rest ih =>
      intro hd stats
      unfold gcTailLoop
      dsimp only
      split
      · exact ih (fun k hk => hd k (List.mem_cons_of_mem _ hk)) _
      · refine mpres_bind (mpres_metaDelete_at _ _ _ (hd tk (List.mem_cons_self _ _))) ?_
        intro _
        exact ih (fun k hk => hd k (List.mem_cons_of_mem _ hk)) _

theorem mpres_pruneLoop_at (Φ) (minB fe : Nat) :
    ∀ ks : List (List Nat),
      (∀ k ∈ ks, ∀ l, Φ l → Φ (assocRemove k l)) →
      ∀ removed, MPres Φ (pruneLoop minB fe ks removed) := by
  intro ks
  induction ks with
  | nil => intro _ removed; exact mpres_pure _ _
  | cons key rest ih =>
      intro hd removed
      unfold pruneLoop
      refine mpres_bind (mpres_metaGet _ _) ?_
      intro r
      split
      · exact ih (fun k hk => hd k (List.mem_cons_of_mem _ hk)) _
      · split
        · exact mpres_throw _ _
        · split
          · refine mpres_bind
              (mpres_metaDelete_at _ _ _ (hd key (List.mem_cons_self _ _))) ?_
            intro _
            exact ih (fun k hk => hd k (List.mem_cons_of_mem _ hk)) _
          · exact ih (fun k hk => hd k (List.mem_cons_of_mem _ hk)) _

/-- GC only deletes tail records (never manifests), so the invariant
survives a GC pass. -/
theorem tailImp_runGcOnce (cfg : Config) : MPres TailImp (runGcOnce cfg) := by
  intro st h
  unfold runGcOnce
  rw [M_bind_ok (show metaList manifestsNs none usizeMax st =
    (st, .ok (pageOf (st.meta.map (·.1)) manifestsNs none usizeMax)) from rfl)]
  dsimp only
  rw [M_bind_ok (show metaList tailsNs none usizeMax st =
    (st, .ok (pageOf (st.meta.map (·.1)) tailsNs none usizeMax)) from rfl)]
  rw [M_bind_run]
  rcases hml : gcManifestLoop
      (pageOf (st.meta.map (·.1)) manifestsNs none usizeMax).keys [] [] st
    with ⟨stA, rA⟩
  have hstA : stA = st := by
    have := gcManifestLoop_fst
      (pageOf (st.meta.map (·.1)) manifestsNs none usizeMax).keys [] [] st
    rw [hml] at this
    exact this
  rw [hstA] at hml
  rw [hml]
  cases rA with
  | error eA => exact h
  | ok pr =>
      obtain ⟨refd, streams⟩ := pr
      dsimp only
      rw [M_bind_ok (show blobList chunksNs none usizeMax st =
        (st, .ok (pageOf (st.blobs.map (·.1)) chunksNs none usizeMax)) from rfl)]
      rw [M_bind_run]
      rcases hcl : gcChunkLoop refd
          (pageOf (st.blobs.map (·.1)) chunksNs none usizeMax).keys {} st
        with ⟨stB, rB⟩
      have hmB : stB.meta = st.meta := by
        have := mpres_gcChunkLoop (fun l => l = st.meta) refd
          (pageOf (st.blobs.map (·.1)) chunksNs none usizeMax).keys {} st rfl
        rw [hcl] at this
        exact this
      have hB : TailImp stB.meta := by rw [hmB]; exact h
      rw [hcl]
      cases rB with
      | error eB => exact hB
      | ok stats1 =>
          dsimp only
          refine mpres_bind (mpres_gcTailLoop_at TailImp streams _ ?_ stats1)
            (fun a => mpres_pure _ _) stB hB
          intro tk htk l hl
          exact tailImp_remove
            (manifests_not_prefix_of_tails tk
              (pageOf_keys_pfx _ _ _ _ _ htk)) l hl

/-- Pruning the `block_hash_to_num/` index never touches manifests. -/
theorem tailImp_pruneBlockHashIndexBelow (minB fe : Nat) :
    MPres TailImp (pruneBlockHashIndexBelow minB fe) := by
  intro st h
  unfold pruneBlockHashIndexBelow
  rw [M_bind_ok (show metaList blockHashNs none usizeMax st =
    (st, .ok (pageOf (st.meta.map (·.1)) blockHashNs none usizeMax)) from rfl)]
  refine mpres_pruneLoop_at TailImp minB fe _ ?_ 0 st h
  intro k hk l hl
  exact tailImp_remove
    (manifests_not_prefix_of_blockHash k (pageOf_keys_pfx _ _ _ _ _ hk)) l hl

theorem tailImp_op (op : Op) (st : St) (h : TailImp st.meta) :
    TailImp (Op.run op st).meta := by
  cases op with
  | ingest cfg b e n =>
      exact mpres_ingestFinalizedBlock TailImp cfg b e n
        (insOk_tailImp tails_not_prefix_metaStateKey)
        (fun i => insOk_tailImp (tails_not_prefix_logKey i))
        (fun n2 => insOk_tailImp (tails_not_prefix_blockMetaKey n2))
        (fun h2 => insOk_tailImp (tails_not_prefix_blockHashToNumKey h2))
        (fun fid => mpres_collectStreamAppends TailImp b fid e
          (fun t => insOk_tailImp (tails_not_prefix_topic0StatsKey t))
          (fun t => insOk_tailImp (tails_not_prefix_topic0ModeKey t)))
        (fun ls => tailImp_applyAllStreams cfg e n ls) st h
  | maintenance cfg e n =>
      exact mpres_runPeriodicMaintenance TailImp cfg e n
        (fun sid values => tailImp_applyStreamAppends cfg sid values e n) st h
  | gc cfg => exact tailImp_runGcOnce cfg st h
  | prune m f => exact tailImp_pruneBlockHashIndexBelow m f st h

theorem tailImp_foldl (ops : List Op) (st : St) (h : TailImp st.meta) :
    TailImp ((ops.foldl (fun s op => op.run s) st).meta) := by
  induction ops generalizing st with
  | nil => exact h
  | cons op rest ih => exact ih _ (tailImp_op op st h)

theorem tailImp_replay (ops : List Op) : TailImp (replay ops).meta :=
  tailImp_foldl ops St.empty (by intro sid hs; simp [St.empty, assocFind] at hs)

theorem tailImpB_of_tailImp (l : List (List Nat × Rec)) (h : TailImp l) :
    tailImpB l = true := by
  unfold tailImpB
  rw [List.all_eq_true]
  intro k hk
  by_cases hp : tailsNs.isPrefixOf k = true
  · obtain ⟨t, ht⟩ := List.isPrefixOf_iff_prefix.mp hp
    have hkey : tailKey (k.drop tailsNs.length) = k := by
      rw [← ht, List.drop_left]
      rfl
    have hfind := assocFind_isSome_of_mem k l hk
    have := h (k.drop tailsNs.length) (by rw [hkey]; exact hfind)
    simp [hp, this]
  · rw [Bool.not_eq_true] at hp
    simp [hp]

/-- C10: every reachable store satisfies the tail-implies-manifest
invariant: each metadata key in the `tails/` namespace has a matching
`manifests/` record for the same stream id, because `apply_stream_appends`
issues the manifest CAS before persisting the tail and GC deletes only
manifest-less tails, never manifests. -/
theorem tail_implies_manifest (ops : List Op) :
    tailImpB (replay ops).meta = true :=
  tailImpB_of_tailImp _ (tailImp_replay ops)

/-! ## C6: topic0 mode records of signatures absent from a block -/
theorem M_bind_ok_rdOnly2 {x : M α} {f : α → M β} {st : St} {r : β} {P : Prop}
    (hx : RdOnly x) (hok : ((x >>= f) st).2 = .ok r)
    (hf : ∀ a, (x st).2 = .ok a → ((f a) st).2 = .ok r → P) : P := by
  rw [M_bind_run] at hok
  rcases hxst : x st with ⟨st1, r1⟩
  have h1 : st1 = st := by
    have := hx st
    rw [hxst] at this
    exact this
  subst h1
  rw [hxst] at hok
  cases r1 with
  | ok a => exact hf a (by rw [hxst]) hok
  | error e => simp at hok

theorem hexDigit_inj {a b : Nat} (ha : a < 16) (hb : b < 16)
    (h : hexDigit a = hexDigit b) : a = b := by
  unfold hexDigit at h
  split at h <;> split at h <;> omega

theorem hexOf_inj {bs cs : List Nat} (hbs : ∀ b ∈ bs, b < 256)
    (hcs : ∀ b ∈ cs, b < 256) (h : hexOf bs = hexOf cs) : bs = cs := by
  induction bs generalizing cs with
  | nil =>
      cases cs with
      | nil => rfl
      | cons c ct => simp [hexOf] at h
  | cons b bt ih =>
      cases cs with
      | nil => simp [hexOf] at h
      | cons c ct =>
          simp only [hexOf, List.flatMap_cons, List.cons_append, List.nil_append,
            List.cons.injEq] at h
          obtain ⟨h1, h2, h3⟩ := h
          have hb1 := hbs b (List.mem_cons_self _ _)
          have hc1 := hcs c (List.mem_cons_self _ _)
          have e1 : b / 16 % 16 = c / 16 % 16 :=
            hexDigit_inj (Nat.mod_lt _ (by norm_num)) (Nat.mod_lt _ (by norm_num)) h1
          have e2 : b % 16 = c % 16 :=
            hexDigit_inj (Nat.mod_lt _ (by norm_num)) (Nat.mod_lt _ (by norm_num)) h2
          have hbc : b = c := by omega
          subst hbc
          exact congrArg (List.cons b)
            (ih (fun x hx => hbs x (List.mem_cons_of_mem _ hx))
              (fun x hx => hcs x (List.mem_cons_of_mem _ hx)) h3)

/-- A key whose namespace prefix is absent differs from any key formed from
that namespace. -/
theorem appendKey_ne {ns rest k : List Nat} (hk : ns.isPrefixOf k = false) :
    k ≠ ns ++ rest := by
  intro he
  rw [he, isPrefixOf_append_self] at hk
  cases hk

theorem t0mode_not_prefix_metaStateKey :
    topic0ModeNs.isPrefixOf metaStateKey = false := by decide

theorem t0mode_not_prefix_logKey (i : Nat) :
    topic0ModeNs.isPrefixOf (logKey i) = false :=
  not_prefix_ns_append _ _ _ 1 (by decide) (by decide) (by decide)

theorem t0mode_not_prefix_blockMetaKey (n : Nat) :
    topic0ModeNs.isPrefixOf (blockMetaKey n) = false :=
  not_prefix_ns_append _ _ _ 1 (by decide) (by decide) (by decide)

theorem t0mode_not_prefix_blockHashToNumKey (h : List Nat) :
    topic0ModeNs.isPrefixOf (blockHashToNumKey h) = false :=
  not_prefix_ns_append _ _ _ 1 (by decide) (by decide) (by decide)

theorem t0mode_not_prefix_manifestKey (sid : List Nat) :
    topic0ModeNs.isPrefixOf (manifestKey sid) = false :=
  not_prefix_ns_append _ _ _ 1 (by decide) (by decide) (by decide)

theorem t0mode_not_prefix_tailKey (sid : List Nat) :
    topic0ModeNs.isPrefixOf (tailKey sid) = false :=
  not_prefix_ns_append _ _ _ 2 (by decide) (by decide) (by decide)

theorem t0mode_not_prefix_statsKey (t : List Nat) :
    topic0ModeNs.isPrefixOf (topic0StatsKey t) = false :=
  not_prefix_ns_append _ _ _ 8 (by decide) (by decide) (by decide)

theorem t0stats_not_prefix_metaStateKey :
    topic0StatsNs.isPrefixOf metaStateKey = false := by decide

theorem t0stats_not_prefix_logKey (i : Nat) :
    topic0StatsNs.isPrefixOf (logKey i) = false :=
  not_prefix_ns_append _ _ _ 1 (by decide) (by decide) (by decide)

theorem t0stats_not_prefix_blockMetaKey (n : Nat) :
    topic0StatsNs.isPrefixOf (blockMetaKey n) = false :=
  not_prefix_ns_append _ _ _ 1 (by decide) (by decide) (by decide)

theorem t0stats_not_prefix_blockHashToNumKey (h : List Nat) :
    topic0StatsNs.isPrefixOf (blockHashToNumKey h) = false :=
  not_prefix_ns_append _ _ _ 1 (by decide) (by decide) (by decide)

theorem t0stats_not_prefix_manifestKey (sid : List Nat) :
    topic0StatsNs.isPrefixOf (manifestKey sid) = false :=
  not_prefix_ns_append _ _ _ 1 (by decide) (by decide) (by decide)

theorem t0stats_not_prefix_tailKey (sid : List Nat) :
    topic0StatsNs.isPrefixOf (tailKey sid) = false :=
  not_prefix_ns_append _ _ _ 2 (by decide) (by decide) (by decide)

theorem t0stats_not_prefix_modeKey (t : List Nat) :
    topic0StatsNs.isPrefixOf (topic0ModeKey t) = false :=
  not_prefix_ns_append _ _ _ 8 (by decide) (by decide) (by decide)

theorem insOk_t0frame {X : List Nat} {ms ss : Option Rec} {k : List Nat}
    (h1 : topic0ModeKey X ≠ k) (h2 : topic0StatsKey X ≠ k) :
    InsOk (T0Frame X ms ss) k := by
  intro l r h
  constructor
  · rw [assocFind_insert_ne _ _ _ _ h1]
    exact h.1
  · rw [assocFind_insert_ne _ _ _ _ h2]
    exact h.2

theorem insOk_t0frame_sig {X sig : List Nat} {ms ss : Option Rec}
    (hX : ∀ b ∈ X, b < 256) (hsig : ∀ b ∈ sig, b < 256) (hne : sig ≠ X) :
    InsOk (T0Frame X ms ss) (topic0StatsKey sig) ∧
    InsOk (T0Frame X ms ss) (topic0ModeKey sig) := by
  have hx : hexOf sig ≠ hexOf X := fun hh => hne (hexOf_inj hsig hX hh)
  constructor
  · refine insOk_t0frame (appendKey_ne (t0mode_not_prefix_statsKey sig)).symm ?_
    intro hh
    have hc : hexOf X = hexOf sig := by simpa [topic0StatsKey] using hh
    exact hx hc.symm
  · refine insOk_t0frame ?_ (appendKey_ne (t0stats_not_prefix_modeKey sig)).symm
    intro hh
    have hc : hexOf X = hexOf sig := by simpa [topic0ModeKey] using hh
    exact hx hc.symm

theorem rdOnly_topic0LogEnabled (t : List Nat) (bn : Nat) :
    RdOnly (topic0LogEnabled t bn) := by
  refine rdOnly_bind (rdOnly_metaGet _) ?_
  intro r
  cases r with
  | none => exact rdOnly_pure _
  | some rr =>
      dsimp only
      intro st
      cases hdec : decodeTopic0Mode rr.value with
      | ok mode => rfl
      | error e2 => rfl

theorem rdOnly_collectOneLog (b : Block) (fid i : Nat) (log : Log)
    (acc : List (List Nat × List Nat) × List (List Nat)) :
    RdOnly (collectOneLog b fid i log acc) := by
  obtain ⟨out0, seen0⟩ := acc
  unfold collectOneLog
  dsimp only
  split
  · simp only [M_pure_bind]
    exact rdOnly_pure _
  · split
    all_goals
      refine rdOnly_bind (rdOnly_topic0LogEnabled _ _) ?_
      intro en
      simp only [M_pure_bind]
      exact rdOnly_pure _

theorem rdOnly_collectLogsLoop (b : Block) (fid : Nat) :
    ∀ (ls : List (Nat × Log)) (acc : List (List Nat × List Nat) × List (List Nat)),
      RdOnly (collectLogsLoop b fid ls acc) := by
  intro ls
  induction ls with
  | nil => intro acc; exact rdOnly_pure _
  | cons p rest ih =>
      obtain ⟨i, log⟩ := p
      intro acc
      unfold collectLogsLoop
      exact rdOnly_bind (rdOnly_collectOneLog b fid i log acc) (fun a => ih a)

theorem collectOneLog_seen (b : Block) (fid i : Nat) (log : Log)
    (acc : List (List Nat × List Nat) × List (List Nat)) (st : St)
    (out : List (List Nat × List Nat)) (seen' : List (List Nat))
    (hok : (collectOneLog b fid i log acc st).2 = .ok (out, seen')) :
    ∀ s ∈ seen', s ∈ acc.2 ∨ log.topics.head? = some s := by
  obtain ⟨out0, seen0⟩ := acc
  unfold collectOneLog at hok
  dsimp only at hok
  cases hh : log.topics.head? with
  | none =>
      rw [hh] at hok
      dsimp only at hok
      simp only [M_pure_bind, M_pure_run] at hok
      intro s hs
      left
      have h2 : seen0 = seen' :=
        congrArg Prod.snd ((Except.ok.injEq _ _).mp hok)
      rw [← h2] at hs
      exact hs
  | some t0 =>
      rw [hh] at hok
      dsimp only at hok
      rcases hks : keySetInsert t0 seen0 with ⟨seen1, fresh1⟩
      rw [hks] at hok
      dsimp only at hok
      refine M_bind_ok_rdOnly (rdOnly_topic0LogEnabled _ _) hok ?_
      intro en hok2
      simp only [M_pure_bind, M_pure_run] at hok2
      have h2 : seen1 = seen' :=
        congrArg Prod.snd ((Except.ok.injEq _ _).mp hok2)
      intro s hs
      rw [← h2] at hs
      have hs1 : s ∈ (keySetInsert t0 seen0).1 := by rw [hks]; exact hs
      rcases (keySetInsert_mem s t0 seen0).mp hs1 with rfl | hmem
      · right
        rfl
      · left; exact hmem

theorem collectLogsLoop_seen (b : Block) (fid : Nat) :
    ∀ (ls : List (Nat × Log)) (acc : List (List Nat × List Nat) × List (List Nat))
      (st : St) (out : List (List Nat × List Nat)) (seen' : List (List Nat)),
      (collectLogsLoop b fid ls acc st).2 = .ok (out, seen') →
      ∀ s ∈ seen', s ∈ acc.2 ∨ ∃ p ∈ ls, (p.2).topics.head? = some s := by
  intro ls
  induction ls with
  | nil =>
      intro acc st out seen' hok s hs
      left
      unfold collectLogsLoop at hok
      simp only [M_pure_run] at hok
      have h2 : acc.2 = seen' := by
        have := (Except.ok.injEq _ _).mp hok
        exact congrArg Prod.snd this
      rw [h2]
      exact hs
  | cons p rest ih =>
      obtain ⟨i, log⟩ := p
      intro acc st out seen' hok s hs
      unfold collectLogsLoop at hok
      refine M_bind_ok_rdOnly2 (rdOnly_collectOneLog b fid i log acc) hok ?_
      intro acc1 hacc1 hok1
      rcases ih acc1 st out seen' hok1 s hs with hmem | ⟨q, hq, hqs⟩
      · obtain ⟨out1, seen1⟩ := acc1
        rcases collectOneLog_seen b fid i log acc st out1 seen1 hacc1 s hmem with
          hmem0 | hsome
        · exact .inl hmem0
        · exact .inr ⟨(i, log), List.mem_cons_self _ _, hsome⟩
      · exact .inr ⟨q, List.mem_cons_of_mem _ hq, hqs⟩

theorem snd_mem_enumFrom {γ : Type} (l : List γ) :
    ∀ (n : Nat) (p : Nat × γ), p ∈ l.enumFrom n → p.2 ∈ l := by
  induction l with
  | nil => intro n p hp; simp [List.enumFrom] at hp
  | cons a t ih =>
      intro n p hp
      simp only [List.enumFrom, List.mem_cons] at hp
      rcases hp with rfl | hp
      · exact List.mem_cons_self _ _
      · exact List.mem_cons_of_mem _ (ih _ _ hp)

theorem mpres_updateTopic0ModesForBlock_at (Φ) (bn e : Nat) :
    ∀ seen : List (List Nat),
      (∀ sig ∈ seen, InsOk Φ (topic0StatsKey sig) ∧ InsOk Φ (topic0ModeKey sig)) →
      MPres Φ (updateTopic0ModesForBlock bn seen e) := by
  intro seen
  induction seen with
  | nil => intro _; exact mpres_pure _ _
  | cons sig rest ih =>
      intro hd
      unfold updateTopic0ModesForBlock
      refine mpres_bind (mpres_updateOneTopic0Stats _ _ _ _ _
        (hd sig (List.mem_cons_self _ _)).1 (hd sig (List.mem_cons_self _ _)).2) ?_
      intro _
      exact ih (fun s hs => hd s (List.mem_cons_of_mem _ hs))

/-- `collect_stream_appends` only writes topic0 stats/mode records for
signatures that occur as `topics[0]` of some log of the block. -/
theorem mpres_collectStreamAppends_seen (Φ) (b : Block) (fid e : Nat)
    (hins : ∀ sig, (∃ log ∈ b.logs, log.topics.head? = some sig) →
      InsOk Φ (topic0StatsKey sig) ∧ InsOk Φ (topic0ModeKey sig)) :
    MPres Φ (collectStreamAppends b fid e) := by
  intro st h
  unfold collectStreamAppends
  rw [M_bind_run]
  rcases hcll : collectLogsLoop b fid b.logs.enum ([], []) st with ⟨st1, r⟩
  have hst1 : st1 = st := by
    have h2 := rdOnly_collectLogsLoop b fid b.logs.enum ([], []) st
    rw [hcll] at h2
    exact h2
  rw [hst1]
  rw [hst1] at hcll
  cases r with
  | error e1 => exact h
  | ok pr =>
      obtain ⟨out, seen⟩ := pr
      dsimp only
      have hseen : ∀ s ∈ seen, ∃ log ∈ b.logs, log.topics.head? = some s := by
        intro s hs
        rcases collectLogsLoop_seen b fid b.logs.enum ([], []) st out seen
            (by rw [hcll]) s hs with hmem | ⟨p, hp, hps⟩
        · simp at hmem
        · exact ⟨p.2, snd_mem_enumFrom b.logs 0 p hp, hps⟩
      refine mpres_bind (mpres_updateTopic0ModesForBlock_at Φ b.block_num e seen
        (fun sig hsg => hins sig (hseen sig hsg))) (fun _ => mpres_pure _ _) st h

/-- C6: a block in which signature `X` never occurs as `topics[0]` leaves
both the `topic0_mode/` and the `topic0_stats/` record of `X` exactly as
they were: the engine only updates stats and modes for signatures seen in
the ingested block, so an absent signature's window is never aged and its
mode can never change.  (Hypotheses restrict topics to byte values, as the
32-byte topics of the claim are.) -/
theorem topic0_mode_frame (cfg : Config) (block : Block) (e now : Nat)
    (X : List Nat) (st : St)
    (hX : ∀ b2 ∈ X, b2 < 256)
    (hb : ∀ log ∈ block.logs, ∀ t0, log.topics.head? = some t0 →
      (∀ b2 ∈ t0, b2 < 256) ∧ t0 ≠ X) :
    assocFind (topic0ModeKey X) ((ingestFinalizedBlock cfg block e now st).1).meta =
      assocFind (topic0ModeKey X) st.meta ∧
    assocFind (topic0StatsKey X) ((ingestFinalizedBlock cfg block e now st).1).meta =
      assocFind (topic0StatsKey X) st.meta := by
  refine mpres_ingestFinalizedBlock
    (T0Frame X (assocFind (topic0ModeKey X) st.meta)
      (assocFind (topic0StatsKey X) st.meta)) cfg block e now
    (insOk_t0frame (appendKey_ne t0mode_not_prefix_metaStateKey).symm
      (appendKey_ne t0stats_not_prefix_metaStateKey).symm)
    (fun i => insOk_t0frame (appendKey_ne (t0mode_not_prefix_logKey i)).symm
      (appendKey_ne (t0stats_not_prefix_logKey i)).symm)
    (fun n2 => insOk_t0frame (appendKey_ne (t0mode_not_prefix_blockMetaKey n2)).symm
      (appendKey_ne (t0stats_not_prefix_blockMetaKey n2)).symm)
    (fun h2 => insOk_t0frame
      (appendKey_ne (t0mode_not_prefix_blockHashToNumKey h2)).symm
      (appendKey_ne (t0stats_not_prefix_blockHashToNumKey h2)).symm)
    (fun fid => mpres_collectStreamAppends_seen _ block fid e ?_)
    (fun ls => mpres_applyAllStreams _ cfg e now ls
      (fun sid => insOk_t0frame (appendKey_ne (t0mode_not_prefix_manifestKey sid)).symm
        (appendKey_ne (t0stats_not_prefix_manifestKey sid)).symm)
      (fun sid => insOk_t0frame (appendKey_ne (t0mode_not_prefix_tailKey sid)).symm
        (appendKey_ne (t0stats_not_prefix_tailKey sid)).symm))
    st ⟨rfl, rfl⟩
  intro sig hsig
  obtain ⟨log, hlog, hhead⟩ := hsig
  obtain ⟨hbytes, hne⟩ := hb log hlog sig hhead
  exact insOk_t0frame_sig hX hbytes hne

theorem topic0_mode_frame_witness :
    (∀ b2 ∈ c6X, b2 < 256) ∧
    assocFind (topic0ModeKey c6X)
        ((ingestFinalizedBlock Config.default c6Block 1 0 St.empty).1).meta =
      assocFind (topic0ModeKey c6X) St.empty.meta :=
  ⟨by decide,
    (topic0_mode_frame Config.default c6Block 1 0 c6X St.empty (by decide)
      (by decide)).1⟩

/-! ## C4: the committed state of a successful ingest -/
theorem M_bind_ok_inv {x : M α} {f : α → M β} {st st' : St} {r : β}
    (h : (x >>= f) st = (st', .ok r)) :
    ∃ st1 a, x st = (st1, .ok a) ∧ f a st1 = (st', .ok r) := by
  rw [M_bind_run] at h
  rcases hx : x st with ⟨st1, r1⟩
  rw [hx] at h
  cases r1 with
  | ok a => exact ⟨st1, a, rfl, h⟩
  | error e => exact absurd (congrArg Prod.snd h) (by simp)

theorem rdOnly_loadBlockMeta (n : Nat) : RdOnly (loadBlockMeta n) := by
  refine rdOnly_bind (rdOnly_metaGet _) ?_
  intro r
  cases r with
  | none => exact rdOnly_throw _
  | some rr =>
      dsimp only
      intro st
      cases hdec : decodeBlockMeta rr.value with
      | ok m => rfl
      | error e2 => rfl

theorem metaPut_any_ok {k v : List Nat} {e : Nat} {st st' : St} {r : PutResult}
    (h : metaPut k v .any e st = (st', .ok r)) :
    ∃ nv, st'.meta = assocInsert k { value := v, version := nv } st.meta := by
  unfold metaPut at h
  split at h
  · exact absurd (congrArg Prod.snd h) (by simp)
  · dsimp only at h
    rw [if_pos rfl] at h
    exact ⟨_, (congrArg (fun p => p.1.meta) h).symm⟩

theorem storeState_ok (next : MetaState) (cv : Option Nat) (e : Nat)
    (st st' : St) (u : Unit) (hx : storeState next cv e st = (st', .ok u)) :
    ∃ nv, st'.meta = assocInsert metaStateKey
      { value := encodeMetaState next, version := nv } st.meta := by
  unfold storeState at hx
  exact putGuard_ok _ _ _ _ _ _ _ hx

theorem insOk_find_frame {K : List Nat} {V : Option Rec} {k : List Nat}
    (h : K ≠ k) : InsOk (fun l => assocFind K l = V) k := by
  intro l r hh
  rw [assocFind_insert_ne _ _ _ _ h]
  exact hh

theorem manifests_not_prefix_blockMetaKey (n : Nat) :
    manifestsNs.isPrefixOf (blockMetaKey n) = false :=
  not_prefix_ns_append _ _ _ 1 (by decide) (by decide) (by decide)

theorem blockHash_not_prefix_blockMetaKey (n : Nat) :
    blockHashNs.isPrefixOf (blockMetaKey n) = false :=
  not_prefix_ns_append _ _ _ 7 (by decide) (by decide) (by decide)

theorem blockMeta_not_prefix_metaStateKey :
    blockMetaNs.isPrefixOf metaStateKey = false := by decide

/-- C4: whenever `ingest_finalized_block` succeeds from a store whose meta
state decodes to `state`, the ingested block number is exactly
`state.indexed_finalized_head + 1`, the outcome reports it together with the
full log count, the committed meta state advances the head to the block
number and `next_log_id` by exactly `|B.logs|`, and the block's
`block_meta/` record assigns it the contiguous id sub-range starting at the
old `next_log_id` with `count = |B.logs| % 2^32`. -/
theorem ingest_success_state (cfg : Config) (block : Block) (e now : Nat)
    (st : St) (out : IngestOutcome) (state : MetaState) (sver : Option Nat)
    (hload : loadState st = (st, .ok (state, sver)))
    (hok : (ingestFinalizedBlock cfg block e now st).2 = .ok out) :
    block.block_num = state.indexed_finalized_head + 1 ∧
    out = { indexed_finalized_head := block.block_num,
            written_logs := block.logs.length } ∧
    (∃ v, assocFind metaStateKey
        (ingestFinalizedBlock cfg block e now st).1.meta =
      some ⟨encodeMetaState
        { indexed_finalized_head := block.block_num,
          next_log_id := state.next_log_id + block.logs.length,
          writer_epoch := e }, v⟩) ∧
    (∃ v, assocFind (blockMetaKey block.block_num)
        (ingestFinalizedBlock cfg block e now st).1.meta =
      some ⟨encodeBlockMeta
        { block_hash := block.block_hash, parent_hash := block.parent_hash,
          first_log_id := state.next_log_id,
          count := block.logs.length % 2 ^ 32 }, v⟩) := by
  have hR0 : ingestFinalizedBlock cfg block e now st =
      ((ingestFinalizedBlock cfg block e now st).1, .ok out) := by
    rcases hE : ingestFinalizedBlock cfg block e now st with ⟨s2, r2⟩
    rw [hE] at hok
    rw [show r2 = Except.ok out from hok]
  obtain ⟨st', hR⟩ : ∃ st', ingestFinalizedBlock cfg block e now st =
      (st', .ok out) := ⟨(ingestFinalizedBlock cfg block e now st).1, hR0⟩
  rw [hR]
  unfold ingestFinalizedBlock at hR
  obtain ⟨st1, a1, hx1, hR⟩ := M_bind_ok_inv hR
  have hpair : (st1, Except.ok a1) = (st, Except.ok (state, sver)) :=
    hx1.symm.trans hload
  have hst1 : st1 = st := congrArg Prod.fst hpair
  have ha1 : a1 = (state, sver) := by
    have := congrArg Prod.snd hpair
    simpa using this
  subst ha1
  rw [hst1] at hR
  dsimp only at hR
  have hpipe : ∀ st0 : St,
      ((putAllLogs state.next_log_id e block.logs.enum >>= fun _ =>
        metaPut (blockMetaKey block.block_num)
          (encodeBlockMeta
            { block_hash := block.block_hash, parent_hash := block.parent_hash,
              first_log_id := state.next_log_id,
              count := block.logs.length % 2 ^ 32 }) .any e >>= fun _ =>
        metaPut (blockHashToNumKey block.block_hash) (encodeU64 block.block_num)
          .any e >>= fun _ =>
        collectStreamAppends block state.next_log_id e >>= fun appends =>
        applyAllStreams cfg e now appends >>= fun _ =>
        storeState
          { indexed_finalized_head := block.block_num,
            next_log_id := state.next_log_id + block.logs.length,
            writer_epoch := e } sver e >>= fun _ =>
        (pure { indexed_finalized_head := block.block_num,
                written_logs := block.logs.length } : M IngestOutcome)) st0 =
        (st', .ok out)) →
      out = { indexed_finalized_head := block.block_num,
              written_logs := block.logs.length } ∧
      (∃ v, assocFind metaStateKey st'.meta =
        some ⟨encodeMetaState
          { indexed_finalized_head := block.block_num,
            next_log_id := state.next_log_id + block.logs.length,
            writer_epoch := e }, v⟩) ∧
      (∃ v, assocFind (blockMetaKey block.block_num) st'.meta =
        some ⟨encodeBlockMeta
          { block_hash := block.block_hash, parent_hash := block.parent_hash,
            first_log_id := state.next_log_id,
            count := block.logs.length % 2 ^ 32 }, v⟩) := by
    intro st0 h
    obtain ⟨s1, u1, h1, h⟩ := M_bind_ok_inv h
    obtain ⟨s2, u2, h2, h⟩ := M_bind_ok_inv h
    obtain ⟨s3, u3, h3, h⟩ := M_bind_ok_inv h
    obtain ⟨s4, ap, h4, h⟩ := M_bind_ok_inv h
    obtain ⟨s5, u5, h5, h⟩ := M_bind_ok_inv h
    obtain ⟨s6, u6, h6, h⟩ := M_bind_ok_inv h
    have hst6 : s6 = st' := congrArg Prod.fst h
    have hout : out = { indexed_finalized_head := block.block_num,
                        written_logs := block.logs.length } := by
      have := congrArg Prod.snd h
      simpa [M_pure_run] using this.symm
    refine ⟨hout, ?_, ?_⟩
    · obtain ⟨nv, hm6⟩ := storeState_ok _ _ _ _ _ _ h6
      refine ⟨nv, ?_⟩
      rw [← hst6, hm6, assocFind_insert_self]
    · obtain ⟨nv, hm2⟩ := metaPut_any_ok h2
      have hΦ2 : assocFind (blockMetaKey block.block_num) s2.meta =
          some ⟨encodeBlockMeta
            { block_hash := block.block_hash, parent_hash := block.parent_hash,
              first_log_id := state.next_log_id,
              count := block.logs.length % 2 ^ 32 }, nv⟩ := by
        rw [hm2, assocFind_insert_self]
      have hΦ3 := mpres_metaPut (Φ := fun l =>
          assocFind (blockMetaKey block.block_num) l =
            some ⟨encodeBlockMeta
              { block_hash := block.block_hash,
                parent_hash := block.parent_hash,
                first_log_id := state.next_log_id,
                count := block.logs.length % 2 ^ 32 }, nv⟩)
        (blockHashToNumKey block.block_hash) (encodeU64 block.block_num)
        .any e
        (insOk_find_frame (appendKey_ne (blockHash_not_prefix_blockMetaKey
          block.block_num)))
        s2 hΦ2
      rw [congrArg Prod.fst h3] at hΦ3
      have hΦ4 := mpres_collectStreamAppends (fun l =>
          assocFind (blockMetaKey block.block_num) l =
            some ⟨encodeBlockMeta
              { block_hash := block.block_hash,
                parent_hash := block.parent_hash,
                first_log_id := state.next_log_id,
                count := block.logs.length % 2 ^ 32 }, nv⟩)
        block state.next_log_id e
        (fun t => insOk_find_frame (appendKey_ne
          (t0stats_not_prefix_blockMetaKey block.block_num)))
        (fun t => insOk_find_frame (appendKey_ne
          (t0mode_not_prefix_blockMetaKey block.block_num)))
        s3 hΦ3
      rw [congrArg Prod.fst h4] at hΦ4
      have hΦ5 := mpres_applyAllStreams (fun l =>
          assocFind (blockMetaKey block.block_num) l =
            some ⟨encodeBlockMeta
              { block_hash := block.block_hash,
                parent_hash := block.parent_hash,
                first_log_id := state.next_log_id,
                count := block.logs.length % 2 ^ 32 }, nv⟩)
        cfg e now ap
        (fun sid => insOk_find_frame (appendKey_ne
          (manifests_not_prefix_blockMetaKey block.block_num)))
        (fun sid => insOk_find_frame (appendKey_ne
          (tails_not_prefix_blockMetaKey block.block_num)))
        s4 hΦ4
      rw [congrArg Prod.fst h5] at hΦ5
      have hΦ6 := mpres_storeState (fun l =>
          assocFind (blockMetaKey block.block_num) l =
            some ⟨encodeBlockMeta
              { block_hash := block.block_hash,
                parent_hash := block.parent_hash,
                first_log_id := state.next_log_id,
                count := block.logs.length % 2 ^ 32 }, nv⟩)
        { indexed_finalized_head := block.block_num,
          next_log_id := state.next_log_id + block.logs.length,
          writer_epoch := e } sver e
        (insOk_find_frame
          (appendKey_ne blockMeta_not_prefix_metaStateKey).symm)
        s5 hΦ5
      rw [congrArg Prod.fst h6] at hΦ6
      exact ⟨nv, by rw [← hst6]; exact hΦ6⟩
  by_cases hseq : block.block_num ≠ state.indexed_finalized_head + 1
  · rw [if_pos hseq] at hR
    exact absurd (congrArg Prod.snd hR) (by simp [mThrow])
  · rw [if_neg hseq] at hR
    have hA : block.block_num = state.indexed_finalized_head + 1 :=
      not_not.mp hseq
    by_cases hpos : block.block_num > 0
    · rw [if_pos hpos] at hR
      by_cases hz : state.indexed_finalized_head = 0
      · rw [if_pos hz] at hR
        rw [M_pure_bind] at hR
        by_cases hp : block.parent_hash ≠ List.replicate 32 0
        · rw [if_pos hp] at hR
          obtain ⟨se, ue, he, hR⟩ := M_bind_ok_inv hR
          exact absurd (congrArg Prod.snd he) (by simp [mThrow])
        · rw [if_neg hp] at hR
          rw [M_pure_bind] at hR
          exact ⟨hA, hpipe st hR⟩
      · rw [if_neg hz] at hR
        obtain ⟨stm, m, hm, hR⟩ := M_bind_ok_inv hR
        have hstm : stm = st := by
          have h2 := rdOnly_loadBlockMeta state.indexed_finalized_head st
          rw [hm] at h2
          exact h2
        obtain ⟨sp, yv, hpv, hR⟩ := M_bind_ok_inv hR
        have hsp : sp = stm := (congrArg Prod.fst hpv).symm
        by_cases hp : block.parent_hash ≠ yv
        · rw [if_pos hp] at hR
          obtain ⟨se, ue, he, hR⟩ := M_bind_ok_inv hR
          exact absurd (congrArg Prod.snd he) (by simp [mThrow])
        · rw [if_neg hp] at hR
          rw [M_pure_bind] at hR
          rw [hsp, hstm] at hR
          exact ⟨hA, hpipe st hR⟩
    · exact absurd (hA ▸ Nat.succ_pos state.indexed_finalized_head) hpos

theorem ingest_success_state_witness :
    c4Block.block_num = ({} : MetaState).indexed_finalized_head + 1 ∧
    ({ indexed_finalized_head := 1, written_logs := 0 } : IngestOutcome) =
      { indexed_finalized_head := c4Block.block_num,
        written_logs := c4Block.logs.length } ∧
    (∃ v, assocFind metaStateKey
        (ingestFinalizedBlock Config.default c4Block 1 0 St.empty).1.meta =
      some ⟨encodeMetaState
        { indexed_finalized_head := c4Block.block_num,
          next_log_id := ({} : MetaState).next_log_id + c4Block.logs.length,
          writer_epoch := 1 }, v⟩) ∧
    (∃ v, assocFind (blockMetaKey c4Block.block_num)
        (ingestFinalizedBlock Config.default c4Block 1 0 St.empty).1.meta =
      some ⟨encodeBlockMeta
        { block_hash := c4Block.block_hash, parent_hash := c4Block.parent_hash,
          first_log_id := ({} : MetaState).next_log_id,
          count := c4Block.logs.length % 2 ^ 32 }, v⟩) :=
  ingest_success_state Config.default c4Block 1 0 St.empty
    { indexed_finalized_head := 1, written_logs := 0 } {} none rfl rfl

end FLI
